import Mathlib

/-!
# Verification of the rook-jumping-maze graph engine

Shallow embedding of `src/graph.py`: the grid-graph builder (`Graph.__init__`)
and the seven search strategies (`dfs`, `bfs`, `ucs_by_distance`,
`ucs_by_jumps`, `ucs_by_value`, `dijkstra`, `a_star`) together with the shared
path reconstruction (`Graph._get_path`).

Modelling conventions:
* Matrix cells are natural numbers (the input contract supplies a rectangular
  matrix of non-negative jump lengths).
* Grid positions are pairs of integers, since jump offsets are subtracted.
* Python dictionaries (`self.nodes`, `parents`, `distances`, `g_scores`) are
  association lists keyed by position; node identity in the source coincides
  with position identity because `Graph.__init__` keeps exactly one `Node`
  object per position.  `Edge.dest` stores the destination's key into that
  arena (the source stores the shared `Node` object itself).
* Operations that can raise in Python (`max` of an empty sequence, `//` by
  zero, list indexing past a ragged row, the final `self.nodes[self.start]`)
  are modelled in an `Except` monad with one error constructor per exception
  class.
* Search loops run on explicit fuel; `none` means the fuel ran out (or an
  impossible dictionary miss occurred), `some none` models the Python return
  value `None`, and `some (some p)` models a returned path.  The proposition
  `Returns f r` (`∃ n, f n = some r`) states that the loop actually
  terminates with result `r`; by fuel monotonicity this is exactly the
  behaviour of the unbounded Python loop.
* `queue.PriorityQueue` pops a minimal entry; among equal keys the source's
  order is unspecified (`Node.__lt__` is constantly true), and the model
  resolves ties to the earliest inserted entry.
-/

namespace RookJump

/-- Grid position `(row, column)`. -/
abbrev Pos := Int × Int

/-- `Edge` of `graph.py`: destination node (identified by its arena key) and
the jump length traversed. -/
structure EdgeS where
  dest : Pos
  length : Nat
  deriving DecidableEq, Repr

/-- `Node` of `graph.py`. -/
structure NodeS where
  pos : Pos
  value : Nat
  heuristic : Int
  is_goal : Bool
  edges : List EdgeS
  deriving DecidableEq, Repr

/-- Association-list lookup (Python `d[k]` / `k in d`). -/
def alookup {α : Type} : List (Pos × α) → Pos → Option α
  | [], _ => none
  | (q, v) :: t, p => if q = p then some v else alookup t p

/-- Association-list store (Python `d[k] = v`): replaces the binding in place
if the key is present, otherwise appends it (dict insertion order). -/
def aupsert {α : Type} : List (Pos × α) → Pos → α → List (Pos × α)
  | [], p, v => [(p, v)]
  | (q, w) :: t, p, v => if q = p then (q, v) :: t else (q, w) :: aupsert t p v

/-- Errors `Graph.__init__` can raise. -/
inductive BuildErr
  | valueError        -- `max()` of an empty sequence
  | zeroDivisionError -- `// (max_jump - 1)` with `max_jump == 1`
  | indexError        -- `matrix[ni][nj]` past the end of a ragged row
  | keyError          -- `self.nodes[self.start]` with `start` not a key
  deriving DecidableEq, Repr

/-- Python `max(xs)` on a list of naturals: raises on an empty list. -/
def pymax : List Nat → Except BuildErr Nat
  | [] => .error .valueError
  | x :: t => .ok (t.foldl Nat.max x)

/-- `max([max(row) for row in matrix])`. -/
def maxJump (m : List (List Nat)) : Except BuildErr Nat := do
  let rowMaxes ← m.mapM pymax
  pymax rowMaxes

/-- `matrix[i][j]` under the guards `0 <= i` and `0 <= j` (the source checks
both before indexing); `none` models an `IndexError` on a ragged row. -/
def getCell (m : List (List Nat)) (i j : Int) : Option Nat :=
  if 0 ≤ i ∧ 0 ≤ j then (m.get? i.toNat).bind (fun r => r.get? j.toNat) else none

/-- Manhattan distance between two positions, as used in `Node.__init__`. -/
def manhattan (p q : Pos) : Int :=
  ((p.1 - q.1).natAbs + (p.2 - q.2).natAbs : Nat)

/-- `Node.__init__`: stores the cell value, precomputes the heuristic
`(|pos.0 - goal.0| + |pos.1 - goal.1|) // (max_jump - 1)` (Python floor
division; division by zero raises when `max_jump == 1`), and marks the node
as goal iff its position equals the goal. -/
def mkNode (pos : Pos) (value : Nat) (goal : Pos) (maxJ : Nat) :
    Except BuildErr NodeS :=
  if maxJ = 1 then .error .zeroDivisionError
  else .ok { pos := pos, value := value,
             heuristic := (manhattan pos goal).fdiv ((maxJ : Int) - 1),
             is_goal := pos = goal, edges := [] }

/-- The arena `self.nodes`. -/
abbrev Arena := List (Pos × NodeS)

/-- Fetch-or-create (`self.nodes[pos] if pos in self.nodes else Node(...)`). -/
def fetchNode (a : Arena) (pos : Pos) (value : Nat) (goal : Pos) (maxJ : Nat) :
    Except BuildErr NodeS :=
  match alookup a pos with
  | some n => .ok n
  | none => mkNode pos value goal maxJ

/-- Append an edge to the node stored at `pos` (Python mutates the shared
`Node` object; here the arena binding is rebuilt). -/
def appendEdge (a : Arena) (pos : Pos) (e : EdgeS) : Arena :=
  match alookup a pos with
  | some n => aupsert a pos { n with edges := n.edges ++ [e] }
  | none => a

/-- The four cardinal offsets of magnitude `length`, in source order. -/
def offsets (length : Nat) : List (Int × Int) :=
  [(-(length : Int), 0), ((length : Int), 0), (0, -(length : Int)), (0, (length : Int))]

/-- Body of the inner `for di, dj in ...` loop: bounds-check the destination,
fetch or create it (possibly raising `IndexError` on a ragged row), and append
the directed edge. `rowLen` is `len(row)` for the *current* row, exactly as in
the source. -/
def addOffsetEdge (m : List (List Nat)) (goal : Pos) (maxJ rowLen : Nat)
    (i j : Nat) (length : Nat) (a : Arena) (d : Int × Int) :
    Except BuildErr Arena := do
  let ni : Int := (i : Int) + d.1
  let nj : Int := (j : Int) + d.2
  if 0 ≤ ni ∧ ni < (m.length : Int) ∧ 0 ≤ nj ∧ nj < (rowLen : Int) then
    let v ← match getCell m ni nj with
      | some v => Except.ok v
      | none => Except.error BuildErr.indexError
    let nb ← fetchNode a (ni, nj) v goal maxJ
    let a := aupsert a (ni, nj) nb
    return appendEdge a (i, j) { dest := (ni, nj), length := length }
  else
    return a

/-- Body of the `for j, length in enumerate(row)` loop for one cell. -/
def processCell (m : List (List Nat)) (goal : Pos) (maxJ rowLen : Nat)
    (i j : Nat) (length : Nat) (a : Arena) : Except BuildErr Arena := do
  let node ← fetchNode a ((i : Int), (j : Int)) length goal maxJ
  let a := aupsert a ((i : Int), (j : Int)) node
  if length = 0 then
    return a
  else
    (offsets length).foldlM (addOffsetEdge m goal maxJ rowLen i j length) a

/-- The built graph. -/
structure GraphS where
  nodes : Arena
  matrix : List (List Nat)
  start : Pos
  goal : Pos
  root : NodeS
  deriving Repr

/-- `Graph.__init__`: compute `max_jump`, run the nested construction loops,
and fetch the root node (a missing start key raises `KeyError`). -/
def buildGraph (m : List (List Nat)) (start goal : Pos) :
    Except BuildErr GraphS := do
  let maxJ ← maxJump m
  let a ← m.enum.foldlM
    (fun a ir =>
      ir.2.enum.foldlM
        (fun a jl => processCell m goal maxJ ir.2.length ir.1 jl.1 jl.2 a) a)
    ([] : Arena)
  match alookup a start with
  | some root =>
      .ok { nodes := a, matrix := m, start := start, goal := goal, root := root }
  | none => .error .keyError

/-! ## Search strategies

Each Python `while` loop becomes a fuel-indexed function.  Outer `none` means
the fuel ran out (or a dictionary lookup that cannot miss missed); `some none`
is the Python return value `None`; `some (some p)` is a returned path of
nodes. -/

/-- Result of one search call. -/
abbrev SearchResult := Option (Option (List NodeS))

/-- `edge.dest` dereferenced through the arena. -/
def findNode (g : GraphS) (p : Pos) : Option NodeS :=
  alookup g.nodes p

/-- Parent maps (`parents: dict[Node, Node | None]`), keyed by position. -/
abbrev ParentMap := List (Pos × Option NodeS)

/-- The `while current is not None` walk of `Graph._get_path`: collect nodes
following parent links, then reverse. -/
def pathWalk (parents : ParentMap) : Nat → Option NodeS → List NodeS →
    Option (List NodeS)
  | _, none, path => some path.reverse
  | 0, some _, _ => none
  | fuel + 1, some cur, path =>
    match alookup parents cur.pos with
    | none => none
    | some par => pathWalk parents fuel par (path ++ [cur])

/-- `Graph._get_path`: `None` when no goal was found or the goal has no
recorded parent, else the reversed parent chain. -/
def getPath (parents : ParentMap) (goal : Option NodeS) (fuel : Nat) :
    SearchResult :=
  match goal with
  | none => some none
  | some gn =>
    match alookup parents gn.pos with
    | none => none
    | some none => some none
    | some (some _) => (pathWalk parents fuel (some gn) []).map some

/-- Earliest entry with a minimal key, together with the remaining entries
(the model's deterministic refinement of `PriorityQueue.get`). -/
def popMinBy {ε κ : Type} (key : ε → κ) (le : κ → κ → Bool) :
    List ε → Option (ε × List ε)
  | [] => none
  | e :: t =>
    match popMinBy key le t with
    | none => some (e, [])
    | some (m, rest) =>
      if le (key e) (key m) then some (e, t) else some (m, e :: rest)

/-! ### DFS (`Graph.dfs`) -/

/-- The `for edge in reversed(node.edges)` push loop of `Graph.dfs` (called
with the already-reversed edge list; `append` to a Python stack is `cons`
onto the head-is-top stack). -/
def dfsExpand (g : GraphS) (node : NodeS) (visited : List Pos) :
    List EdgeS → List NodeS → ParentMap →
    Option (List NodeS × ParentMap)
  | [], stack, parents => some (stack, parents)
  | e :: rest, stack, parents =>
    match findNode g e.dest with
    | none => none
    | some nb =>
      if nb.pos ∈ visited then dfsExpand g node visited rest stack parents
      else
        dfsExpand g node visited rest (nb :: stack)
          (if (alookup parents nb.pos).isSome then parents
           else aupsert parents nb.pos (some node))

/-- The `while len(stack) > 0` loop of `Graph.dfs`. -/
def dfsLoop (g : GraphS) : Nat → List NodeS → List Pos → ParentMap →
    Option (Option NodeS × ParentMap)
  | 0, _, _, _ => none
  | _ + 1, [], _, parents => some (none, parents)
  | fuel + 1, node :: rest, visited, parents =>
    if node.is_goal then some (some node, parents)
    else if node.pos ∈ visited then dfsLoop g fuel rest visited parents
    else
      match dfsExpand g node (node.pos :: visited) node.edges.reverse rest parents with
      | none => none
      | some (stack, parents) => dfsLoop g fuel stack (node.pos :: visited) parents

/-- `Graph.dfs`. -/
def dfs (g : GraphS) (fuel : Nat) : SearchResult :=
  match dfsLoop g fuel [g.root] [] [(g.root.pos, none)] with
  | none => none
  | some (goal?, parents) => getPath parents goal? fuel

/-! ### BFS (`Graph.bfs`) -/

/-- The `for edge in node.edges` discovery loop of `Graph.bfs`. -/
def bfsExpand (g : GraphS) (node : NodeS) :
    List EdgeS → List NodeS → List Pos → ParentMap →
    Option (List NodeS × List Pos × ParentMap)
  | [], queue, visited, parents => some (queue, visited, parents)
  | e :: rest, queue, visited, parents =>
    match findNode g e.dest with
    | none => none
    | some nb =>
      if nb.pos ∈ visited then bfsExpand g node rest queue visited parents
      else
        bfsExpand g node rest (queue ++ [nb]) (nb.pos :: visited)
          (aupsert parents nb.pos (some node))

/-- The `while not queue.empty()` loop of `Graph.bfs` (head of the list is the
front of the FIFO queue). -/
def bfsLoop (g : GraphS) : Nat → List NodeS → List Pos → ParentMap →
    Option (Option NodeS × ParentMap)
  | 0, _, _, _ => none
  | _ + 1, [], _, parents => some (none, parents)
  | fuel + 1, node :: rest, visited, parents =>
    if node.is_goal then some (some node, parents)
    else
      match bfsExpand g node node.edges rest visited parents with
      | none => none
      | some (queue, visited, parents) => bfsLoop g fuel queue visited parents

/-- `Graph.bfs`. -/
def bfs (g : GraphS) (fuel : Nat) : SearchResult :=
  match bfsLoop g fuel [g.root] [g.root.pos] [(g.root.pos, none)] with
  | none => none
  | some (goal?, parents) => getPath parents goal? fuel

/-! ### Uniform-cost search (`Graph._ucs` and its three instances) -/

/-- A `_ucs` priority-queue entry: cumulative cost, node, path so far. -/
abbrev UcsEntry := Nat × NodeS × List NodeS

/-- The `for edge in node.edges` push loop of `Graph._ucs`. -/
def ucsExpand (g : GraphS) (inc : EdgeS → NodeS → Nat) (total : Nat)
    (path : List NodeS) (visited : List Pos) :
    List EdgeS → List UcsEntry → Option (List UcsEntry)
  | [], pq => some pq
  | e :: rest, pq =>
    match findNode g e.dest with
    | none => none
    | some nb =>
      if nb.pos ∈ visited then ucsExpand g inc total path visited rest pq
      else ucsExpand g inc total path visited rest
        (pq ++ [(total + inc e nb, nb, path ++ [nb])])

/-- The `while not pq.empty()` loop of `Graph._ucs` (`visited.add` happens on
pop, before the goal test, exactly as in the source). -/
def ucsLoop (g : GraphS) (inc : EdgeS → NodeS → Nat) :
    Nat → List Pos → List UcsEntry → SearchResult
  | 0, _, _ => none
  | _ + 1, _, [] => some none
  | fuel + 1, visited, pq =>
    match popMinBy (fun (e : UcsEntry) => e.1) (fun a b => decide (a ≤ b)) pq with
    | none => some none
    | some ((total, node, path), pq) =>
      let visited := if node.pos ∈ visited then visited else node.pos :: visited
      if node.is_goal then some (some path)
      else
        match ucsExpand g inc total path visited node.edges pq with
        | none => none
        | some pq => ucsLoop g inc fuel visited pq

/-- `Graph._ucs`. -/
def ucsRun (g : GraphS) (inc : EdgeS → NodeS → Nat) (fuel : Nat) : SearchResult :=
  ucsLoop g inc fuel [] [(0, g.root, [g.root])]

/-- `Graph.ucs_by_distance` (cost = edge length). -/
def ucs_by_distance (g : GraphS) (fuel : Nat) : SearchResult :=
  ucsRun g (fun e _ => e.length) fuel

/-- `Graph.ucs_by_jumps` (cost = 1 per edge). -/
def ucs_by_jumps (g : GraphS) (fuel : Nat) : SearchResult :=
  ucsRun g (fun _ _ => 1) fuel

/-- `Graph.ucs_by_value` (cost = destination node's value). -/
def ucs_by_value (g : GraphS) (fuel : Nat) : SearchResult :=
  ucsRun g (fun _ nb => nb.value) fuel

/-! ### Dijkstra (`Graph.dijkstra`) -/

/-- Distances are `float` with `inf` in the source; `none` models `inf`. -/
abbrev Dist := Option Nat

/-- `new_distance < distances[neighbour]` (`inf` compares greatest). -/
def ltD : Dist → Dist → Bool
  | some a, some b => a < b
  | some _, none => true
  | none, _ => false

/-- Key order for Dijkstra's priority queue. -/
def leD (a b : Dist) : Bool := !ltD b a

/-- `distances[node] + edge.length` (`inf + length == inf`). -/
def addD : Dist → Nat → Dist
  | some a, l => some (a + l)
  | none, _ => none

/-- Distance map and seeded priority queue state. -/
abbrev DistMap := List (Pos × Dist)

/-- The seeding loop of `Graph.dijkstra`: root at distance `0`, every other
node at `inf` (`node != self._root` is object identity, which coincides with
position identity). -/
def dijkstraSeed (g : GraphS) : DistMap × ParentMap × List (Dist × NodeS) :=
  g.nodes.foldl
    (fun st pn =>
      if pn.2.pos = g.root.pos then st
      else (aupsert st.1 pn.2.pos none, aupsert st.2.1 pn.2.pos none,
            st.2.2 ++ [(none, pn.2)]))
    ([(g.root.pos, some 0)], [(g.root.pos, none)], [(some 0, g.root)])

/-- The `for edge in node.edges` relaxation loop of `Graph.dijkstra`. -/
def dijkstraRelax (g : GraphS) (node : NodeS) :
    List EdgeS → DistMap → ParentMap → List (Dist × NodeS) →
    Option (DistMap × ParentMap × List (Dist × NodeS))
  | [], dist, parents, pq => some (dist, parents, pq)
  | e :: rest, dist, parents, pq =>
    match findNode g e.dest with
    | none => none
    | some nb =>
      match alookup dist node.pos with
      | none => none
      | some dn =>
        match alookup dist nb.pos with
        | none => none
        | some dnb =>
          let newD := addD dn e.length
          if ltD newD dnb then
            dijkstraRelax g node rest (aupsert dist nb.pos newD)
              (aupsert parents nb.pos (some node)) (pq ++ [(newD, nb)])
          else
            dijkstraRelax g node rest dist parents pq

/-- The `while not pq.empty()` loop of `Graph.dijkstra`. -/
def dijkstraLoop (g : GraphS) : Nat → DistMap → ParentMap → List (Dist × NodeS) →
    Option (Option NodeS × ParentMap)
  | 0, _, _, _ => none
  | _ + 1, _, parents, [] => some (none, parents)
  | fuel + 1, dist, parents, pq =>
    match popMinBy (fun (e : Dist × NodeS) => e.1) leD pq with
    | none => some (none, parents)
    | some ((_, node), pq) =>
      if node.is_goal then some (some node, parents)
      else
        match dijkstraRelax g node node.edges dist parents pq with
        | none => none
        | some (dist, parents, pq) => dijkstraLoop g fuel dist parents pq

/-- `Graph.dijkstra`. -/
def dijkstra (g : GraphS) (fuel : Nat) : SearchResult :=
  match dijkstraSeed g with
  | (dist, parents, pq) =>
    match dijkstraLoop g fuel dist parents pq with
    | none => none
    | some (goal?, parents) => getPath parents goal? fuel

/-! ### A* (`Graph.a_star`) -/

/-- The `for edge in node.edges` relaxation loop of `Graph.a_star`. -/
def aStarRelax (g : GraphS) (node : NodeS) :
    List EdgeS → List (Pos × Nat) → List (Pos × Int) → ParentMap →
    List (Int × NodeS) →
    Option (List (Pos × Nat) × List (Pos × Int) × ParentMap × List (Int × NodeS))
  | [], gs, fs, parents, pq => some (gs, fs, parents, pq)
  | e :: rest, gs, fs, parents, pq =>
    match findNode g e.dest with
    | none => none
    | some nb =>
      match alookup gs node.pos with
      | none => none
      | some gn =>
        let tentative := gn + e.length
        let better := match alookup gs nb.pos with
          | none => true
          | some gnb => decide (tentative < gnb)
        if better then
          let fv : Int := (tentative : Int) + nb.heuristic
          aStarRelax g node rest (aupsert gs nb.pos tentative)
            (aupsert fs nb.pos fv) (aupsert parents nb.pos (some node))
            (pq ++ [(fv, nb)])
        else
          aStarRelax g node rest gs fs parents pq

/-- The `while not pq.empty()` loop of `Graph.a_star` (a popped entry whose
node is already finalized is skipped before the goal test). -/
def aStarLoop (g : GraphS) : Nat → List Pos → List (Pos × Nat) →
    List (Pos × Int) → ParentMap → List (Int × NodeS) →
    Option (Option NodeS × ParentMap)
  | 0, _, _, _, _, _ => none
  | _ + 1, _, _, _, parents, [] => some (none, parents)
  | fuel + 1, visited, gs, fs, parents, pq =>
    match popMinBy (fun (e : Int × NodeS) => e.1) (fun a b => decide (a ≤ b)) pq with
    | none => some (none, parents)
    | some ((_, node), pq) =>
      if node.pos ∈ visited then aStarLoop g fuel visited gs fs parents pq
      else if node.is_goal then some (some node, parents)
      else
        match aStarRelax g node node.edges gs fs parents pq with
        | none => none
        | some (gs, fs, parents, pq) =>
          aStarLoop g fuel (node.pos :: visited) gs fs parents pq

/-- `Graph.a_star`. -/
def a_star (g : GraphS) (fuel : Nat) : SearchResult :=
  match aStarLoop g fuel [] [(g.root.pos, 0)] [(g.root.pos, g.root.heuristic)]
      [(g.root.pos, none)] [((0 : Int), g.root)] with
  | none => none
  | some (goal?, parents) => getPath parents goal? fuel

/-! ## Specification-level path notions -/

/-- Positions of a returned node path. -/
def posList (p : List NodeS) : List Pos := p.map (fun n => n.pos)

/-- Length of the unique edge from `u` to `v` in the built graph, if any. -/
def edgeTo (g : GraphS) (u v : Pos) : Option Nat :=
  (alookup g.nodes u).bind fun n =>
    (n.edges.find? (fun e => decide (e.dest = v))).map (fun e => e.length)

/-- Summed edge length along a position sequence (`none` when a consecutive
pair is not connected by an edge of the built graph). -/
def pathCost (g : GraphS) : List Pos → Option Nat
  | [] => some 0
  | [_] => some 0
  | u :: v :: t => (edgeTo g u v).bind fun l => (pathCost g (v :: t)).map (l + ·)

/-- `p` is a path of the built graph from `a` to `b`: non-empty, starts at
`a`, ends at `b`, all its positions are nodes, and each consecutive pair is
connected by an edge. -/
def IsPath (g : GraphS) (p : List Pos) (a b : Pos) : Prop :=
  p ≠ [] ∧ p.head? = some a ∧ p.getLast? = some b ∧
    (∀ x ∈ p, (alookup g.nodes x).isSome) ∧ (pathCost g p).isSome

/-- The goal is reachable from the start (the single-node sequence witnesses
`start = goal`, matching the spec's scenario A). -/
def Reach (g : GraphS) : Prop :=
  ∃ p, IsPath g p g.start g.goal

/-- The fuel-indexed loop `f` actually terminates with result `r`; by fuel
monotonicity this captures the behaviour of the unbounded Python loop. -/
def Returns {α : Type} (f : Nat → Option α) (r : α) : Prop :=
  ∃ n, f n = some r

/-! ## Derived descriptions of the built graph, used in statements and
invariants -/

/-- Keys of an association list. -/
def akeys {α : Type} (l : List (Pos × α)) : List Pos := l.map Prod.fst

/-- `matrix[p]` as an option (in-bounds cells are exactly the `some` ones). -/
def cellAt (m : List (List Nat)) (p : Pos) : Option Nat := getCell m p.1 p.2

/-- Length of row `i` (`len(row)` for the row being processed). -/
def rowLenAt (m : List (List Nat)) (i : Nat) : Nat := ((m.get? i).getD []).length

/-- The heuristic value stored on every node: Python floor division of the
Manhattan distance to the goal by `max_jump - 1`. -/
def hvalue (goal : Pos) (maxJ : Nat) (p : Pos) : Int :=
  (manhattan p goal).fdiv ((maxJ : Int) - 1)

/-- The position `(i, j)` of a matrix cell. -/
def natPos (ij : Nat × Nat) : Pos := ((ij.1 : Int), (ij.2 : Int))

/-- The edge contributed by one cardinal offset `d` from cell `(i, j)` of
value `L`, if the destination passes the source's bounds check. -/
def offEdge (m : List (List Nat)) (i j L : Nat) (d : Int × Int) :
    Option EdgeS :=
  let ni : Int := (i : Int) + d.1
  let nj : Int := (j : Int) + d.2
  if 0 ≤ ni ∧ ni < (m.length : Int) ∧ 0 ≤ nj ∧ nj < (rowLenAt m i : Int)
  then some { dest := (ni, nj), length := L } else none

/-- The edge list `Graph.__init__` attaches to cell `(i, j)` of value `L`:
nothing for a dead end, otherwise one edge of length `L` per in-bounds
cardinal offset, in source order. -/
def edgesOf (m : List (List Nat)) (i j L : Nat) : List EdgeS :=
  if L = 0 then [] else (offsets L).filterMap (offEdge m i j L)

/-- The final edge list of the node at position `p`. -/
def edgesOfPos (m : List (List Nat)) (p : Pos) : List EdgeS :=
  edgesOf m p.1.toNat p.2.toNat ((cellAt m p).getD 0)

/-- The construction loops of `Graph.__init__` flattened to one cell
sequence: each element is `((i, row), (j, length))`. -/
def cellSeq (m : List (List Nat)) : List ((Nat × List Nat) × (Nat × Nat)) :=
  m.enum.flatMap (fun ir => ir.2.enum.map (fun jl => (ir, jl)))

/-- One step of the flattened construction fold. -/
def buildStep (m : List (List Nat)) (goal : Pos) (maxJ : Nat)
    (a : Arena) (c : (Nat × List Nat) × (Nat × Nat)) : Except BuildErr Arena :=
  processCell m goal maxJ c.1.2.length c.1.1 c.2.1 c.2.2 a

/-- Per-binding well-formedness of an arena entry. -/
def NodeOK (m : List (List Nat)) (goal : Pos) (maxJ : Nat) (a : Arena)
    (pn : Pos × NodeS) : Prop :=
  pn.2.pos = pn.1 ∧ pn.2.is_goal = decide (pn.1 = goal) ∧
  pn.2.heuristic = hvalue goal maxJ pn.1 ∧ cellAt m pn.1 = some pn.2.value ∧
  pn.2.edges.length ≤ 4 ∧
  ∀ e ∈ pn.2.edges,
    (alookup a e.dest).isSome ∧ e.length = pn.2.value ∧ pn.2.value ≠ 0

/-- Arena-wide well-formedness. -/
def GoodArena (m : List (List Nat)) (goal : Pos) (maxJ : Nat) (a : Arena) :
    Prop :=
  (akeys a).Nodup ∧ ∀ pn ∈ a, NodeOK m goal maxJ a pn

/-- Well-formedness of a built graph: some `max_jump` value was computed and
is not `1`, the arena is well-formed for it, and the cached root is the node
stored at `start`. -/
def WF (g : GraphS) : Prop :=
  ∃ maxJ, maxJump g.matrix = .ok maxJ ∧ maxJ ≠ 1 ∧
    GoodArena g.matrix g.goal maxJ g.nodes ∧
    alookup g.nodes g.start = some g.root

/-- Mid-construction invariant: the arena is well-formed, its keys are
in-bounds cells, processed positions (`P`) carry their final edge lists and
unprocessed ones carry none. -/
def ArenaInv (m : List (List Nat)) (goal : Pos) (maxJ : Nat) (P : List Pos)
    (a : Arena) : Prop :=
  GoodArena m goal maxJ a ∧
  (∀ p ∈ akeys a, (cellAt m p).isSome) ∧
  (∀ p ∈ P, p ∈ akeys a) ∧
  (∀ pn ∈ a, (pn.1 ∈ P → pn.2.edges = edgesOfPos m pn.1) ∧
    (pn.1 ∉ P → pn.2.edges = []))

/-- Invariant inside the offsets loop of one cell `cur`: like `ArenaInv`
away from `cur`, with `cur` carrying the partial edge list `E`. -/
def OffInv (m : List (List Nat)) (goal : Pos) (maxJ : Nat) (P : List Pos)
    (cur : Pos) (E : List EdgeS) (a : Arena) : Prop :=
  GoodArena m goal maxJ a ∧
  (∀ p ∈ akeys a, (cellAt m p).isSome) ∧
  (∀ p ∈ P, p ∈ akeys a) ∧
  (∃ n, alookup a cur = some n ∧ n.edges = E) ∧
  (∀ pn ∈ a, pn.1 ≠ cur →
    (pn.1 ∈ P → pn.2.edges = edgesOfPos m pn.1) ∧
    (pn.1 ∉ P → pn.2.edges = []))

/-- All rows of the matrix have length `c`. -/
def Rect (m : List (List Nat)) (c : Nat) : Prop :=
  ∀ row ∈ m, row.length = c

/-- The stored heuristic never overstates the true remaining cost to the
goal: whenever a node has a path to the goal of summed edge length `c`, its
heuristic is at most `c` (claim C7's hypothesis). -/
def Admissible (g : GraphS) : Prop :=
  ∀ pn ∈ g.nodes, ∀ q c, IsPath g q pn.1 g.goal → pathCost g q = some c →
    pn.2.heuristic ≤ (c : Int)

/-- Position of a flattened cell. -/
def cellPos (c : (Nat × List Nat) × (Nat × Nat)) : Pos :=
  ((c.1.1 : Int), (c.2.1 : Int))

/-! ## Parent-chain notions used to state and prove path validity -/

/-- Consecutive elements are connected by graph edges. -/
def chainOK (g : GraphS) : List NodeS → Prop
  | [] => True
  | [_] => True
  | a :: b :: t => (edgeTo g a.pos b.pos).isSome ∧ chainOK g (b :: t)

/-- Consecutive elements are linked by the parent map: each element's
recorded parent is the element before it. -/
def pchain (parents : ParentMap) : List NodeS → Prop
  | [] => True
  | [_] => True
  | a :: b :: t => alookup parents b.pos = some (some a) ∧ pchain parents (b :: t)

/-- Every element of the list is a value stored in the arena under its own
position. -/
def NodesOf (g : GraphS) (ns : List NodeS) : Prop :=
  ∀ n ∈ ns, alookup g.nodes n.pos = some n

/-- What `Graph._get_path` needs of a parent map to produce valid paths:
keys are graph nodes, a recorded parent is connected to its child by an
edge, and a node whose recorded parent is `None` but which is somebody's
recorded parent is the start. -/
def ParentsOK (g : GraphS) (parents : ParentMap) : Prop :=
  (∀ q w, alookup parents q = some w → (alookup g.nodes q).isSome) ∧
  (∀ q pn, alookup parents q = some (some pn) → (edgeTo g pn.pos q).isSome) ∧
  (∀ q pn, alookup parents q = some (some pn) →
    alookup parents pn.pos = some none → pn.pos = g.start)

/-- The strong form maintained by `dfs`, `bfs` and `a_star`: the only key
whose recorded parent is `None` is the start itself. -/
def ParentsOKs (g : GraphS) (parents : ParentMap) : Prop :=
  (∀ q w, alookup parents q = some w → (alookup g.nodes q).isSome) ∧
  (∀ q pn, alookup parents q = some (some pn) → (edgeTo g pn.pos q).isSome) ∧
  (∀ q, alookup parents q = some none → q = g.start)

/-- The form maintained by `dijkstra`: a key with recorded parent `None` is
either the start or still at distance infinity, and recorded parents have a
finite recorded distance. -/
def DInv (g : GraphS) (dist : DistMap) (parents : ParentMap) : Prop :=
  (∀ q w, alookup parents q = some w → (alookup g.nodes q).isSome) ∧
  (∀ q pn, alookup parents q = some (some pn) →
    (edgeTo g pn.pos q).isSome ∧ ∃ d, alookup dist pn.pos = some (some d)) ∧
  (∀ q, alookup parents q = some none → q = g.start ∨ alookup dist q = some none)

/-- Invariant of one `_ucs` queue entry `(total, node, path)`: the carried
path is a genuine start-to-`node` path of arena nodes. -/
def UcsPathOK (g : GraphS) (en : UcsEntry) : Prop :=
  en.2.2 ≠ [] ∧ en.2.2.getLast? = some en.2.1 ∧ chainOK g en.2.2 ∧
  (∃ hd, en.2.2.head? = some hd ∧ hd.pos = g.start) ∧
  ∀ x ∈ en.2.2, alookup g.nodes x.pos = some x

/-! ## Termination measures -/

/-- Number of graph nodes not yet visited. -/
def unvis (g : GraphS) (visited : List Pos) : Nat :=
  ((akeys g.nodes).filter (fun p => decide (p ∉ visited))).length

/-- Number of `_ucs` queue entries whose node is already visited. -/
def vcount (visited : List Pos) (pq : List UcsEntry) : Nat :=
  (pq.filter (fun en => decide (en.2.1.pos ∈ visited))).length

/-- Number of distance-map entries still at infinity. -/
def dinfCount (dist : DistMap) : Nat :=
  (dist.filter (fun pd => decide (pd.2 = none))).length

/-- Sum of the finite distance-map values. -/
def dsum (dist : DistMap) : Nat :=
  (dist.map (fun pd => pd.2.getD 0)).sum

/-- Number of graph nodes with no `g_scores` entry yet. -/
def gmissing (g : GraphS) (gs : List (Pos × Nat)) : Nat :=
  ((akeys g.nodes).filter (fun p => decide (p ∉ akeys gs))).length

/-- Sum of the `g_scores` values. -/
def gsum (gs : List (Pos × Nat)) : Nat :=
  (gs.map (fun pd => pd.2)).sum

/-- Contribution of one distance value to the potential. -/
def dval (W : Nat) : Dist → Nat
  | none => W + 1
  | some d => d

/-- Potential of a distance map: `W + 1` per infinite entry, the stored
value per finite entry (all finite values stay at most `W`). -/
def dpot (W : Nat) (dist : DistMap) : Nat :=
  (dist.map (fun pd => dval W pd.2)).sum

/-- Potential of the `g_scores` map: `W + 1` per node without an entry plus
the sum of the stored values. -/
def apot (W : Nat) (g : GraphS) (gs : List (Pos × Nat)) : Nat :=
  (W + 1) * gmissing g gs + gsum gs

/-! ## Invariants for the optimality proofs -/

/-- A `_ucs`-by-distance queue entry's key is the summed edge length of the
path it carries. -/
def UcsKeyOK (g : GraphS) (en : UcsEntry) : Prop :=
  pathCost g (posList en.2.2) = some en.1

/-- `_ucs` frontier invariant: every start-to-`z` path with `z` unvisited has
a first unvisited position `w`, preceded only by visited positions, and the
queue holds an entry at `w` whose key is at most the cost of the path's
prefix up to `w`. -/
def FrontierOK (g : GraphS) (visited : List Pos) (pq : List UcsEntry) : Prop :=
  ∀ z P c, z ∉ visited → IsPath g P g.start z → pathCost g P = some c →
    ∃ P1 w P2, P = P1 ++ w :: P2 ∧ (∀ x ∈ P1, x ∈ visited) ∧ w ∉ visited ∧
      ∃ en ∈ pq, en.2.1.pos = w ∧ ∃ c1, pathCost g (P1 ++ [w]) = some c1 ∧
        en.1 ≤ c1 ∧ c1 ≤ c

/-- `_ucs` visited invariant: a visited node was popped with a key `kv` no
larger than the cost of any start-to-it path, and each of its edges leads to
a visited position or to a queued entry with key at most `kv` plus the edge
length. -/
def VisitedOK (g : GraphS) (visited : List Pos) (pq : List UcsEntry) : Prop :=
  ∀ v ∈ visited, ∃ n, alookup g.nodes v = some n ∧ ∃ kv,
    (∀ q c, IsPath g q g.start v → pathCost g q = some c → kv ≤ c) ∧
    ∀ e ∈ n.edges, e.dest ∈ visited ∨
      ∃ en ∈ pq, en.2.1.pos = e.dest ∧ en.1 ≤ kv + e.length

/-- Dijkstra queue-key invariant: every queued key is at least the entry
node's current recorded distance. -/
def DKeysLe (dist : DistMap) (pq : List (Dist × NodeS)) : Prop :=
  ∀ en ∈ pq, ∃ dv, alookup dist en.2.pos = some dv ∧ leD dv en.1 = true

/-- Dijkstra progress invariant away from an excluded position `x`: a node
with finite recorded distance either has a queued entry whose key is at most
that distance, or all its outgoing edges are relaxed. -/
def DRelaxedOrX (g : GraphS) (x : Pos) (dist : DistMap)
    (pq : List (Dist × NodeS)) : Prop :=
  ∀ v n d, v ≠ x → alookup g.nodes v = some n →
    alookup dist v = some (some d) →
    (∃ en ∈ pq, en.2.pos = v ∧ leD en.1 (some d) = true) ∨
    (∀ e ∈ n.edges, ∃ dz, alookup dist e.dest = some dz ∧
      leD dz (some (d + e.length)) = true)

/-- Dijkstra progress invariant with no excluded position. -/
def DRelaxedOr (g : GraphS) (dist : DistMap) (pq : List (Dist × NodeS)) :
    Prop :=
  ∀ v n d, alookup g.nodes v = some n → alookup dist v = some (some d) →
    (∃ en ∈ pq, en.2.pos = v ∧ leD en.1 (some d) = true) ∨
    (∀ e ∈ n.edges, ∃ dz, alookup dist e.dest = some dz ∧
      leD dz (some (d + e.length)) = true)

/-- Dijkstra parent-cost invariant: every recorded parent link is an edge of
positive length whose endpoints carry finite distances separated by at least
that length. -/
def DParentsLe (g : GraphS) (dist : DistMap) (parents : ParentMap) : Prop :=
  ∀ q pn, alookup parents q = some (some pn) →
    ∃ len dq dp, edgeTo g pn.pos q = some len ∧ 1 ≤ len ∧
      alookup dist q = some (some dq) ∧ alookup dist pn.pos = some (some dp) ∧
      dp + len ≤ dq

/-- A node with finite recorded distance other than the start has a recorded
parent. -/
def DFiniteParent (g : GraphS) (dist : DistMap) (parents : ParentMap) : Prop :=
  ∀ v d, alookup dist v = some (some d) →
    v = g.start ∨ ∃ pn, alookup parents v = some (some pn)

/-- The queue holds an entry whose node is marked as goal. -/
def GoalEntry (pq : List (Dist × NodeS)) : Prop :=
  ∃ en ∈ pq, en.2.is_goal = true

/-! ## Association-list lemmas -/

theorem alookup_aupsert_self {α : Type} (l : List (Pos × α)) (p : Pos) (v : α) :
    alookup (aupsert l p v) p = some v := by
  induction l with
  | nil => simp [aupsert, alookup]
  | cons h t ih =>
    obtain ⟨q, w⟩ := h
    by_cases hq : q = p
    · simp [aupsert, hq, alookup]
    · simp [aupsert, hq, alookup, ih]

theorem alookup_aupsert_ne {α : Type} (l : List (Pos × α)) (p q : Pos) (v : α)
    (h : q ≠ p) : alookup (aupsert l p v) q = alookup l q := by
  induction l with
  | nil =>
    simp only [aupsert, alookup]
    rw [if_neg (fun hc => h hc.symm)]
  | cons hd t ih =>
    obtain ⟨r, w⟩ := hd
    by_cases hr : r = p
    · subst hr
      simp only [aupsert, if_pos rfl, alookup]
      rw [if_neg (fun hc => h hc.symm), if_neg (fun hc => h hc.symm)]
    · simp only [aupsert, if_neg hr, alookup, ih]

theorem akeys_aupsert_mem {α : Type} (l : List (Pos × α)) (p : Pos) (v : α)
    (h : p ∈ akeys l) : akeys (aupsert l p v) = akeys l := by
  induction l with
  | nil => simp [akeys] at h
  | cons hd t ih =>
    obtain ⟨r, w⟩ := hd
    by_cases hr : r = p
    · simp [aupsert, hr, akeys]
    · have hmem : p ∈ akeys t := by
        rcases (by simpa [akeys] using h : p = r ∨ p ∈ akeys t) with h' | h'
        · exact absurd h'.symm hr
        · exact h'
      simp only [aupsert, if_neg hr, akeys, List.map_cons] at ih ⊢
      rw [ih hmem]

theorem akeys_aupsert_not_mem {α : Type} (l : List (Pos × α)) (p : Pos) (v : α)
    (h : p ∉ akeys l) : akeys (aupsert l p v) = akeys l ++ [p] := by
  induction l with
  | nil => simp [aupsert, akeys]
  | cons hd t ih =>
    obtain ⟨r, w⟩ := hd
    have hr : r ≠ p := by
      intro hc; exact h (by simp [akeys, hc])
    have ht : p ∉ akeys t := by
      intro hc
      exact h (List.mem_cons_of_mem r hc)
    simp only [aupsert, if_neg hr, akeys, List.map_cons, List.cons_append,
      List.cons.injEq, true_and] at ih ⊢
    exact ih ht

theorem mem_akeys_iff_isSome {α : Type} (l : List (Pos × α)) (p : Pos) :
    p ∈ akeys l ↔ (alookup l p).isSome := by
  induction l with
  | nil => simp [akeys, alookup]
  | cons hd t ih =>
    obtain ⟨r, w⟩ := hd
    by_cases hr : r = p
    · simp [akeys, alookup, hr]
    · simp only [akeys, List.map_cons, List.mem_cons, alookup, if_neg hr] at ih ⊢
      constructor
      · rintro (h | h)
        · exact absurd h.symm hr
        · exact ih.mp h
      · intro h
        exact .inr (ih.mpr h)

theorem alookup_mem {α : Type} {l : List (Pos × α)} {p : Pos} {v : α}
    (h : alookup l p = some v) : (p, v) ∈ l := by
  induction l with
  | nil => simp [alookup] at h
  | cons hd t ih =>
    obtain ⟨r, w⟩ := hd
    by_cases hr : r = p
    · subst hr
      rw [show alookup ((r, w) :: t) r = some w from if_pos rfl] at h
      cases h
      exact .head _
    · rw [show alookup ((r, w) :: t) p = alookup t p from if_neg hr] at h
      exact .tail _ (ih h)

theorem mem_aupsert {α : Type} {l : List (Pos × α)} {p : Pos} {v : α}
    {pn : Pos × α} (h : pn ∈ aupsert l p v) : pn = (p, v) ∨ pn ∈ l := by
  induction l with
  | nil => simpa [aupsert] using h
  | cons hd t ih =>
    obtain ⟨r, w⟩ := hd
    by_cases hr : r = p
    · subst hr
      rw [show aupsert ((r, w) :: t) r v = (r, v) :: t from if_pos rfl,
        List.mem_cons] at h
      rcases h with h | h
      · exact .inl h
      · exact .inr (.tail _ h)
    · rw [show aupsert ((r, w) :: t) p v = (r, w) :: aupsert t p v from
        if_neg hr, List.mem_cons] at h
      rcases h with h | h
      · exact .inr (h ▸ .head _)
      · rcases ih h with h' | h'
        · exact .inl h'
        · exact .inr (.tail _ h')

theorem aupsert_nodup {α : Type} (l : List (Pos × α)) (p : Pos) (v : α)
    (h : (akeys l).Nodup) : (akeys (aupsert l p v)).Nodup := by
  by_cases hp : p ∈ akeys l
  · rw [akeys_aupsert_mem l p v hp]; exact h
  · rw [akeys_aupsert_not_mem l p v hp]
    simpa [List.nodup_append] using ⟨h, hp⟩

theorem alookup_of_mem_nodup {α : Type} {l : List (Pos × α)} {pn : Pos × α}
    (h : pn ∈ l) (hn : (akeys l).Nodup) : alookup l pn.1 = some pn.2 := by
  induction l with
  | nil => simp at h
  | cons hd t ih =>
    obtain ⟨r, w⟩ := hd
    have hn' : r ∉ akeys t ∧ (akeys t).Nodup := by
      simpa [akeys] using hn
    rw [List.mem_cons] at h
    rcases h with h | h
    · subst h
      simp [alookup]
    · have hne : r ≠ pn.1 := by
        intro hc
        subst hc
        exact hn'.1 (by
          have : pn.1 = (Prod.fst pn) := rfl
          exact List.mem_map_of_mem Prod.fst h)
      rw [show alookup ((r, w) :: t) pn.1 = alookup t pn.1 from if_neg hne]
      exact ih h hn'.2

theorem aupsert_self_of_lookup {α : Type} {l : List (Pos × α)} {p : Pos}
    {v : α} (h : alookup l p = some v) : aupsert l p v = l := by
  induction l with
  | nil => simp [alookup] at h
  | cons hd t ih =>
    obtain ⟨r, w⟩ := hd
    by_cases hr : r = p
    · subst hr
      rw [show alookup ((r, w) :: t) r = some w from if_pos rfl] at h
      cases h
      simp [aupsert]
    · rw [show alookup ((r, w) :: t) p = alookup t p from if_neg hr] at h
      simp [aupsert, hr, ih h]

/-! ## Priority-queue pop lemmas -/

theorem popMinBy_none_iff {ε κ : Type} (key : ε → κ) (le : κ → κ → Bool)
    (l : List ε) : popMinBy key le l = none ↔ l = [] := by
  cases l with
  | nil => simp [popMinBy]
  | cons e t =>
    simp only [popMinBy]
    cases popMinBy key le t with
    | none => simp
    | some m =>
      by_cases h : le (key e) (key m.1) <;> simp [h]

theorem popMinBy_perm {ε κ : Type} (key : ε → κ) (le : κ → κ → Bool) :
    ∀ (l : List ε) (m : ε) (rest : List ε),
      popMinBy key le l = some (m, rest) → l.Perm (m :: rest)
  | [], m, rest => by simp [popMinBy]
  | e :: t, m, rest => by
    intro h
    simp only [popMinBy] at h
    cases ht : popMinBy key le t with
    | none =>
      rw [ht] at h
      simp at h
      rw [(popMinBy_none_iff key le t).mp ht, h.1, h.2]
    | some m' =>
      rw [ht] at h
      by_cases hle : le (key e) (key m'.1)
      · simp [hle] at h
        rw [h.1, h.2]
      · simp [hle] at h
        have hperm := popMinBy_perm key le t m'.1 m'.2 (by rw [ht])
        rw [← h.1, ← h.2]
        exact (hperm.cons e).trans (List.Perm.swap m'.1 e m'.2)

theorem popMinBy_min {ε κ : Type} (key : ε → κ) (le : κ → κ → Bool)
    (htot : ∀ a b, le a b = true ∨ le b a = true)
    (htrans : ∀ a b c, le a b = true → le b c = true → le a c = true) :
    ∀ (l : List ε) (m : ε) (rest : List ε),
      popMinBy key le l = some (m, rest) → ∀ x ∈ l, le (key m) (key x)
  | [], m, rest => by simp [popMinBy]
  | e :: t, m, rest => by
    intro h x hx
    have hrefl : ∀ a, le a a = true := fun a => (htot a a).elim id id
    rw [List.mem_cons] at hx
    simp only [popMinBy] at h
    cases ht : popMinBy key le t with
    | none =>
      rw [ht] at h
      simp at h
      have : t = [] := (popMinBy_none_iff key le t).mp ht
      subst this
      rcases hx with hx | hx
      · rw [← h.1, hx]
        exact hrefl _
      · simp at hx
    | some m' =>
      rw [ht] at h
      have ihm := popMinBy_min key le htot htrans t m'.1 m'.2 (by rw [ht])
      by_cases hle : le (key e) (key m'.1)
      · simp [hle] at h
        rw [← h.1]
        rcases hx with hx | hx
        · rw [hx]; exact hrefl _
        · exact htrans _ _ _ hle (ihm x hx)
      · simp [hle] at h
        have hm'e : le (key m'.1) (key e) := (htot _ _).resolve_left (by simpa using hle)
        rw [← h.1]
        rcases hx with hx | hx
        · rw [hx]; exact hm'e
        · exact ihm x hx

/-! ## Reduction lemmas for the `Except` monad -/

@[simp]
theorem except_bind_ok {ε α β : Type} (a : α) (f : α → Except ε β) :
    (Except.ok a >>= f) = f a := rfl

@[simp]
theorem except_bind_error {ε α β : Type} (e : ε) (f : α → Except ε β) :
    ((Except.error e : Except ε α) >>= f) = Except.error e := rfl

@[simp]
theorem except_map_ok {ε α β : Type} (f : α → β) (a : α) :
    (f <$> (Except.ok a : Except ε α)) = Except.ok (f a) := rfl

@[simp]
theorem except_map_error {ε α β : Type} (f : α → β) (e : ε) :
    (f <$> (Except.error e : Except ε α)) = Except.error e := rfl

@[simp]
theorem except_pure_eq {ε α : Type} (a : α) :
    (pure a : Except ε α) = Except.ok a := rfl

/-! ## Facts about `maxJump` -/

theorem foldl_max_ge_init (t : List Nat) : ∀ x : Nat, x ≤ t.foldl Nat.max x := by
  induction t with
  | nil => intro x; simp
  | cons y t ih =>
    intro x
    calc x ≤ Nat.max x y := Nat.le_max_left x y
      _ ≤ t.foldl Nat.max (Nat.max x y) := ih _
      _ = (y :: t).foldl Nat.max x := rfl

theorem foldl_max_ge_mem (t : List Nat) : ∀ x : Nat, ∀ y ∈ t, y ≤ t.foldl Nat.max x := by
  induction t with
  | nil => intro x y hy; simp at hy
  | cons z t ih =>
    intro x y hy
    rcases List.mem_cons.mp hy with h | h
    · subst h
      calc y ≤ Nat.max x y := Nat.le_max_right x y
        _ ≤ t.foldl Nat.max (Nat.max x y) := foldl_max_ge_init t _
    · exact ih _ y h

theorem pymax_ok_mem_le {l : List Nat} {v : Nat} (h : pymax l = .ok v) :
    ∀ y ∈ l, y ≤ v := by
  cases l with
  | nil => simp [pymax] at h
  | cons x t =>
    simp only [pymax, Except.ok.injEq] at h
    subst h
    intro y hy
    rcases List.mem_cons.mp hy with h | h
    · subst h; exact foldl_max_ge_init t y
    · exact foldl_max_ge_mem t x y h

theorem pymax_ok_ne_nil {l : List Nat} {v : Nat} (h : pymax l = .ok v) :
    l ≠ [] := by
  cases l with
  | nil => simp [pymax] at h
  | cons x t => simp

theorem mapM_pymax_get {m : List (List Nat)} {rms : List Nat}
    (h : m.mapM pymax = .ok rms) :
    ∀ k row, m.get? k = some row → ∃ rv, rms.get? k = some rv ∧ pymax row = .ok rv := by
  induction m generalizing rms with
  | nil => intro k row hk; simp at hk
  | cons r t ih =>
    rw [List.mapM_cons] at h
    cases hr : pymax r with
    | error e => rw [hr] at h; simp at h
    | ok rv =>
      rw [hr] at h
      cases ht : t.mapM pymax with
      | error e =>
        rw [ht] at h
        simp at h
      | ok rest =>
        rw [ht] at h
        simp only [except_bind_ok, except_map_ok, except_pure_eq, Except.ok.injEq] at h
        subst h
        intro k row hk
        cases k with
        | zero =>
          rw [List.get?_cons_zero] at hk
          cases hk
          exact ⟨rv, by simp, hr⟩
        | succ k' =>
          rw [List.get?_cons_succ] at hk
          obtain ⟨rv', h1, h2⟩ := ih ht k' row hk
          exact ⟨rv', by simpa using h1, h2⟩

theorem maxJump_rows_ok {m : List (List Nat)} {M : Nat}
    (h : maxJump m = .ok M) :
    m ≠ [] ∧ ∀ k row, m.get? k = some row →
      row ≠ [] ∧ ∀ v ∈ row, v ≤ M := by
  simp only [maxJump] at h
  cases hm : m.mapM pymax with
  | error e => rw [hm] at h; simp at h
  | ok rms =>
    rw [hm] at h
    rw [except_bind_ok] at h
    constructor
    · intro hnil
      subst hnil
      simp only [List.mapM_nil, except_pure_eq, Except.ok.injEq] at hm
      subst hm
      have hbad : (Except.error BuildErr.valueError : Except BuildErr Nat) = Except.ok M := h
      cases hbad
    · intro k row hk
      obtain ⟨rv, h1, h2⟩ := mapM_pymax_get hm k row hk
      refine ⟨pymax_ok_ne_nil h2, fun v hv => ?_⟩
      calc v ≤ rv := pymax_ok_mem_le h2 v hv
        _ ≤ M := pymax_ok_mem_le h rv (List.get?_mem h1)

theorem maxJump_cell_le {m : List (List Nat)} {M : Nat} {p : Pos} {v : Nat}
    (h : maxJump m = .ok M) (hc : cellAt m p = some v) : v ≤ M := by
  simp only [cellAt, getCell] at hc
  rcases Decidable.em (0 ≤ p.1 ∧ 0 ≤ p.2) with hp | hp
  · rw [if_pos hp] at hc
    cases hrow : m.get? p.1.toNat with
    | none =>
      rw [hrow] at hc
      exact Option.noConfusion hc
    | some row =>
      rw [hrow] at hc
      exact (maxJump_rows_ok h).2 _ row hrow |>.2 v (List.get?_mem hc)
  · rw [if_neg hp] at hc; cases hc

/-! ## The flattened construction fold -/

theorem foldlM_flatMap_pairs {σ α β ε : Type} (rows : List α)
    (inner : α → List β) (step : α → β → σ → Except ε σ) (init : σ) :
    rows.foldlM (fun a r => (inner r).foldlM (fun a b => step r b a) a) init =
      (rows.flatMap (fun r => (inner r).map (fun b => (r, b)))).foldlM
        (fun a rb => step rb.1 rb.2 a) init := by
  induction rows generalizing init with
  | nil => simp
  | cons r t ih =>
    have lhs : (r :: t).foldlM
        (fun a r => (inner r).foldlM (fun a b => step r b a) a) init =
        (inner r).foldlM (fun a b => step r b a) init >>= fun a' =>
          t.foldlM (fun a r => (inner r).foldlM (fun a b => step r b a) a) a' :=
      List.foldlM_cons _ _ _ _
    have rhs1 : ((inner r).map (fun b => (r, b))).foldlM
        (fun a rb => step rb.1 rb.2 a) init =
        (inner r).foldlM (fun a b => step r b a) init :=
      List.foldlM_map _ _ _ _
    rw [lhs, List.flatMap_cons, List.foldlM_append, rhs1]
    cases h : (inner r).foldlM (fun a b => step r b a) init with
    | error e => rw [except_bind_error, except_bind_error]
    | ok a' =>
      rw [except_bind_ok, except_bind_ok, ih]

theorem buildGraph_eq_flat (m : List (List Nat)) (start goal : Pos) :
    buildGraph m start goal =
      (do
        let maxJ ← maxJump m
        let a ← (cellSeq m).foldlM (buildStep m goal maxJ) ([] : Arena)
        match alookup a start with
        | some root => Except.ok (GraphS.mk a m start goal root)
        | none => Except.error BuildErr.keyError) := by
  unfold buildGraph
  cases hmj : maxJump m with
  | error e => rfl
  | ok maxJ =>
    rw [except_bind_ok, except_bind_ok,
      foldlM_flatMap_pairs (σ := Arena) m.enum (fun ir => ir.2.enum)
        (fun ir jl a => processCell m goal maxJ ir.2.length ir.1 jl.1 jl.2 a)
        ([] : Arena)]
    rfl

theorem cellSeq_facts {m : List (List Nat)} {c : (Nat × List Nat) × (Nat × Nat)}
    (h : c ∈ cellSeq m) :
    m.get? c.1.1 = some c.1.2 ∧ c.1.2.get? c.2.1 = some c.2.2 := by
  simp only [cellSeq, List.mem_flatMap] at h
  obtain ⟨ir, hir, hc⟩ := h
  simp only [List.mem_map] at hc
  obtain ⟨jl, hjl, hc⟩ := hc
  subst hc
  constructor
  · simpa using (List.mem_enum_iff_get? (l := m)).mp hir
  · simpa using (List.mem_enum_iff_get? (l := ir.2)).mp hjl

/-! ## Construction-step lemmas -/

theorem akeys_mono_aupsert {α : Type} (l : List (Pos × α)) (p q : Pos) (v : α)
    (h : q ∈ akeys l) : q ∈ akeys (aupsert l p v) := by
  by_cases hp : p ∈ akeys l
  · rw [akeys_aupsert_mem l p v hp]; exact h
  · rw [akeys_aupsert_not_mem l p v hp]; exact List.mem_append_left _ h

theorem isSome_mono_aupsert {α : Type} (l : List (Pos × α)) (p q : Pos) (v : α)
    (h : (alookup l q).isSome) : (alookup (aupsert l p v) q).isSome := by
  rw [← mem_akeys_iff_isSome] at h ⊢
  exact akeys_mono_aupsert l p q v h

theorem offInv_insert_fresh {m : List (List Nat)} {goal : Pos} {maxJ : Nat}
    {P : List Pos} {cur : Pos} {E : List EdgeS} {a : Arena} {q : Pos}
    (nb : NodeS)
    (hInv : OffInv m goal maxJ P cur E a)
    (hfresh : alookup a q = none) (hq : q ≠ cur)
    (hpos : nb.pos = q) (hgoal : nb.is_goal = decide (q = goal))
    (hheu : nb.heuristic = hvalue goal maxJ q) (hval : cellAt m q = some nb.value)
    (hedges : nb.edges = []) :
    OffInv m goal maxJ P cur E (aupsert a q nb) ∧
      ∀ p ∈ akeys a, p ∈ akeys (aupsert a q nb) := by
  obtain ⟨⟨hnd, hOK⟩, hCells, hPk, ⟨n, hn, hnE⟩, hShape⟩ := hInv
  have hmono : ∀ p ∈ akeys a, p ∈ akeys (aupsert a q nb) :=
    fun p hp => akeys_mono_aupsert a q p nb hp
  refine ⟨⟨⟨aupsert_nodup a q nb hnd, ?_⟩, ?_, ?_, ?_, ?_⟩, hmono⟩
  · intro pn hpn
    rcases mem_aupsert hpn with h | h
    · subst h
      refine ⟨hpos, hgoal, hheu, hval, by simp [hedges], ?_⟩
      intro e he
      rw [hedges] at he
      simp at he
    · obtain ⟨h1, h2, h3, h4, h5, h6⟩ := hOK pn h
      refine ⟨h1, h2, h3, h4, h5, fun e he => ?_⟩
      obtain ⟨he1, he2, he3⟩ := h6 e he
      exact ⟨isSome_mono_aupsert a q e.dest nb he1, he2, he3⟩
  · intro p hp
    by_cases hpq : p = q
    · subst hpq; exact hval ▸ rfl
    · have : p ∈ akeys a := by
        by_cases hqa : q ∈ akeys a
        · rwa [akeys_aupsert_mem a q nb hqa] at hp
        · rw [akeys_aupsert_not_mem a q nb hqa] at hp
          rcases List.mem_append.mp hp with h | h
          · exact h
          · simp at h; exact absurd h hpq
      exact hCells p this
  · exact fun p hp => hmono p (hPk p hp)
  · refine ⟨n, ?_, hnE⟩
    rw [alookup_aupsert_ne a q cur nb (fun hc => hq hc.symm)]
    exact hn
  · intro pn hpn hne
    rcases mem_aupsert hpn with h | h
    · subst h
      constructor
      · intro hmem
        have hqa : (alookup a q).isSome := (mem_akeys_iff_isSome a q).mp (hPk q hmem)
        rw [hfresh] at hqa
        cases hqa
      · intro _; exact hedges
    · exact hShape pn h hne

theorem offInv_append_edge {m : List (List Nat)} {goal : Pos} {maxJ : Nat}
    {P : List Pos} {cur : Pos} {E : List EdgeS} {a : Arena} {n : NodeS}
    {e : EdgeS}
    (hInv : OffInv m goal maxJ P cur E a)
    (hn : alookup a cur = some n)
    (hdest : e.dest ∈ akeys a) (helen : e.length = n.value)
    (hvne : n.value ≠ 0) (hE3 : E.length ≤ 3) :
    OffInv m goal maxJ P cur (E ++ [e])
      (aupsert a cur { n with edges := n.edges ++ [e] }) ∧
      ∀ p ∈ akeys a, p ∈ akeys (aupsert a cur { n with edges := n.edges ++ [e] }) := by
  obtain ⟨⟨hnd, hOK⟩, hCells, hPk, ⟨n', hn', hnE⟩, hShape⟩ := hInv
  rw [hn, Option.some.injEq] at hn'
  rw [← hn'] at hnE
  set n2 : NodeS := { n with edges := n.edges ++ [e] } with hn2
  have hmono : ∀ p ∈ akeys a, p ∈ akeys (aupsert a cur n2) :=
    fun p hp => akeys_mono_aupsert a cur p n2 hp
  have hcura : cur ∈ akeys a := by
    rw [mem_akeys_iff_isSome, hn]; rfl
  have hOKn := hOK (cur, n) (alookup_mem hn)
  refine ⟨⟨⟨aupsert_nodup a cur n2 hnd, ?_⟩, ?_, ?_, ?_, ?_⟩, hmono⟩
  · intro pn hpn
    rcases mem_aupsert hpn with h | h
    · subst h
      obtain ⟨h1, h2, h3, h4, h5, h6⟩ := hOKn
      refine ⟨h1, h2, h3, h4, ?_, ?_⟩
      · simp only [hn2, List.length_append, List.length_cons, List.length_nil]
        have : n.edges.length ≤ 3 := hnE ▸ hE3
        omega
      · intro e' he'
        simp only [hn2] at he'
        rcases List.mem_append.mp he' with h' | h'
        · obtain ⟨g1, g2, g3⟩ := h6 e' h'
          exact ⟨isSome_mono_aupsert a cur e'.dest n2 g1, g2, g3⟩
        · have he'e : e' = e := by simpa using h'
          rw [he'e]
          refine ⟨?_, helen, hvne⟩
          rw [← mem_akeys_iff_isSome]
          exact hmono e.dest hdest
    · obtain ⟨h1, h2, h3, h4, h5, h6⟩ := hOK pn h
      refine ⟨h1, h2, h3, h4, h5, fun e' he' => ?_⟩
      obtain ⟨g1, g2, g3⟩ := h6 e' he'
      exact ⟨isSome_mono_aupsert a cur e'.dest n2 g1, g2, g3⟩
  · intro p hp
    rw [akeys_aupsert_mem a cur n2 hcura] at hp
    exact hCells p hp
  · intro p hp
    exact hmono p (hPk p hp)
  · refine ⟨n2, alookup_aupsert_self a cur n2, ?_⟩
    simp only [hn2, hnE]
  · intro pn hpn hne
    rcases mem_aupsert hpn with h | h
    · exact absurd (congrArg Prod.fst h) (by simpa using hne)
    · exact hShape pn h hne

theorem offsets_dest_ne {L : Nat} (hL : L ≠ 0) {d : Int × Int}
    (hd : d ∈ offsets L) (i j : Nat) :
    ((i : Int) + d.1, (j : Int) + d.2) ≠ (((i : Nat) : Int), ((j : Nat) : Int)) := by
  intro hc
  have h1 : (i : Int) + d.1 = (i : Int) := congrArg Prod.fst hc
  have h2 : (j : Int) + d.2 = (j : Int) := congrArg Prod.snd hc
  have hd1 : d.1 = 0 := by omega
  have hd2 : d.2 = 0 := by omega
  simp only [offsets, List.mem_cons, List.not_mem_nil, or_false] at hd
  rcases hd with h | h | h | h <;> rw [h] at hd1 hd2 <;> simp at hd1 hd2 <;> omega

theorem addOffsetEdge_char {m : List (List Nat)} {goal : Pos}
    {maxJ rowLen i j L : Nat} {P : List Pos} {E : List EdgeS} {a a' : Arena}
    {d : Int × Int}
    (hInv : OffInv m goal maxJ P ((i : Int), (j : Int)) E a)
    (hL : cellAt m ((i : Int), (j : Int)) = some L) (hLne : L ≠ 0)
    (hrl : rowLen = rowLenAt m i) (hE3 : E.length ≤ 3)
    (hd : d ∈ offsets L)
    (h : addOffsetEdge m goal maxJ rowLen i j L a d = .ok a') :
    OffInv m goal maxJ P ((i : Int), (j : Int))
      (E ++ (offEdge m i j L d).toList) a' ∧
      ∀ p ∈ akeys a, p ∈ akeys a' := by
  have hdne := offsets_dest_ne hLne hd i j
  simp only [addOffsetEdge] at h
  by_cases hcond : 0 ≤ (i : Int) + d.1 ∧ (i : Int) + d.1 < (m.length : Int) ∧
      0 ≤ (j : Int) + d.2 ∧ (j : Int) + d.2 < ((rowLen : Nat) : Int)
  · rw [if_pos hcond] at h
    have hoff : offEdge m i j L d =
        some { dest := ((i : Int) + d.1, (j : Int) + d.2), length := L } := by
      unfold offEdge
      rw [if_pos (by rw [← hrl]; exact hcond)]
    rw [hoff]
    cases hv : getCell m ((i : Int) + d.1) ((j : Int) + d.2) with
    | none =>
      rw [hv] at h
      simp at h
    | some v =>
      rw [hv] at h
      simp only [except_bind_ok] at h
      have hcell : cellAt m ((i : Int) + d.1, (j : Int) + d.2) = some v := hv
      obtain ⟨n, hn, hnE⟩ := hInv.2.2.2.1
      have hnv : n.value = L := by
        have hval := (hInv.1.2 (((i : Int), (j : Int)), n) (alookup_mem hn)).2.2.2.1
        simp only [hL] at hval
        exact ((Option.some.injEq _ _).mp hval).symm
      simp only [fetchNode] at h
      cases hf : alookup a ((i : Int) + d.1, (j : Int) + d.2) with
      | some nb =>
        rw [hf] at h
        simp only [except_bind_ok, except_pure_eq, Except.ok.injEq] at h
        rw [aupsert_self_of_lookup hf] at h
        simp only [appendEdge, hn] at h
        subst h
        have hres := offInv_append_edge (e := EdgeS.mk ((i : Int) + d.1, (j : Int) + d.2) L) hInv hn (by rw [mem_akeys_iff_isSome, hf]; rfl) (by simpa using hnv.symm) (hnv ▸ hLne) hE3
        simpa using hres
      | none =>
        rw [hf] at h
        simp only [mkNode] at h
        by_cases hmj : maxJ = 1
        · rw [if_pos hmj] at h
          simp at h
        · rw [if_neg hmj] at h
          simp only [except_bind_ok, except_pure_eq, Except.ok.injEq] at h
          have hne' : ((i : Int) + d.1, (j : Int) + d.2) ≠
              (((i : Nat) : Int), ((j : Nat) : Int)) := hdne
          have hfresh := offInv_insert_fresh (NodeS.mk ((i : Int) + d.1, (j : Int) + d.2) v ((manhattan ((i : Int) + d.1, (j : Int) + d.2) goal).fdiv ((maxJ : Int) - 1)) (decide (((i : Int) + d.1, (j : Int) + d.2) = goal)) []) hInv hf hne' rfl rfl rfl hcell rfl
          obtain ⟨hInv1, hmono1⟩ := hfresh
          have hn1 : alookup (aupsert a ((i : Int) + d.1, (j : Int) + d.2) (NodeS.mk ((i : Int) + d.1, (j : Int) + d.2) v ((manhattan ((i : Int) + d.1, (j : Int) + d.2) goal).fdiv ((maxJ : Int) - 1)) (decide (((i : Int) + d.1, (j : Int) + d.2) = goal)) [])) ((i : Int), (j : Int)) = some n := by
            rw [alookup_aupsert_ne _ _ _ _ (fun hc => hne' hc.symm)]
            exact hn
          simp only [appendEdge, hn1] at h
          subst h
          have hres := offInv_append_edge (e := EdgeS.mk ((i : Int) + d.1, (j : Int) + d.2) L) hInv1 hn1 (by rw [mem_akeys_iff_isSome, alookup_aupsert_self]; rfl) (by simpa using hnv.symm) (hnv ▸ hLne) hE3
          obtain ⟨hInv2, hmono2⟩ := hres
          refine ⟨by simpa using hInv2, fun p hp => hmono2 p (hmono1 p hp)⟩
  · rw [if_neg hcond] at h
    have ha : a' = a := by
      simp at h
      exact h.symm
    subst ha
    have hoff : offEdge m i j L d = none := by
      unfold offEdge
      rw [if_neg (by rw [← hrl]; exact hcond)]
    rw [hoff]
    exact ⟨by simpa using hInv, fun p hp => hp⟩

theorem rowLenAt_of_rect {m : List (List Nat)} {c : Nat} (hrect : Rect m c)
    {i : Nat} (hi : i < m.length) : rowLenAt m i = c := by
  unfold rowLenAt
  cases hrow : m.get? i with
  | none =>
    rw [List.get?_eq_none] at hrow
    omega
  | some row =>
    simpa using hrect row (List.get?_mem hrow)

theorem addOffsetEdge_ok {m : List (List Nat)} {goal : Pos}
    {maxJ rowLen i j L c : Nat} {a : Arena} {d : Int × Int}
    (hrect : Rect m c) (hmj : maxJ ≠ 1) (hrl : rowLen = rowLenAt m i)
    (hi : i < m.length) :
    ∃ a', addOffsetEdge m goal maxJ rowLen i j L a d = .ok a' := by
  simp only [addOffsetEdge]
  by_cases hcond : 0 ≤ (i : Int) + d.1 ∧ (i : Int) + d.1 < (m.length : Int) ∧
      0 ≤ (j : Int) + d.2 ∧ (j : Int) + d.2 < ((rowLen : Nat) : Int)
  · rw [if_pos hcond]
    obtain ⟨h1, h2, h3, h4⟩ := hcond
    have hrlc : rowLen = c := by
      rw [hrl]; exact rowLenAt_of_rect hrect hi
    have hniLt : ((i : Int) + d.1).toNat < m.length := by omega
    have hrow : m.get? ((i : Int) + d.1).toNat =
        some (m.get ⟨((i : Int) + d.1).toNat, hniLt⟩) := List.get?_eq_get hniLt
    set row := m.get ⟨((i : Int) + d.1).toNat, hniLt⟩ with hrowdef
    have hrowc : row.length = c := hrect row (List.get?_mem hrow)
    have hnjLt : ((j : Int) + d.2).toNat < row.length := by omega
    have hv : row.get? ((j : Int) + d.2).toNat =
        some (row.get ⟨((j : Int) + d.2).toNat, hnjLt⟩) := List.get?_eq_get hnjLt
    set v := row.get ⟨((j : Int) + d.2).toNat, hnjLt⟩ with hvdef
    have hget : getCell m ((i : Int) + d.1) ((j : Int) + d.2) = some v := by
      unfold getCell
      rw [if_pos ⟨h1, h3⟩, hrow]
      exact hv
    rw [hget]
    simp only [except_bind_ok]
    cases hf : alookup a ((i : Int) + d.1, (j : Int) + d.2) with
    | some nb =>
      simp only [fetchNode, hf, except_bind_ok, except_pure_eq]
      exact ⟨_, rfl⟩
    | none =>
      simp only [fetchNode, hf, mkNode, if_neg hmj, except_bind_ok, except_pure_eq]
      exact ⟨_, rfl⟩
  · rw [if_neg hcond]
    exact ⟨a, rfl⟩

theorem offFold_char {m : List (List Nat)} {goal : Pos}
    {maxJ rowLen i j L : Nat} {P : List Pos} :
    ∀ (ds : List (Int × Int)) (E : List EdgeS) (a a' : Arena),
    OffInv m goal maxJ P ((i : Int), (j : Int)) E a →
    cellAt m ((i : Int), (j : Int)) = some L → L ≠ 0 →
    rowLen = rowLenAt m i → E.length + ds.length ≤ 4 →
    (∀ d ∈ ds, d ∈ offsets L) →
    ds.foldlM (addOffsetEdge m goal maxJ rowLen i j L) a = .ok a' →
    OffInv m goal maxJ P ((i : Int), (j : Int))
      (E ++ ds.filterMap (offEdge m i j L)) a' ∧
      ∀ p ∈ akeys a, p ∈ akeys a'
  | [], E, a, a' => by
    intro hInv hL hLne hrl hlen hds h
    simp only [List.foldlM_nil, except_pure_eq, Except.ok.injEq] at h
    subst h
    exact ⟨by simpa using hInv, fun p hp => hp⟩
  | d :: ds, E, a, a' => by
    intro hInv hL hLne hrl hlen hds h
    rw [List.foldlM_cons] at h
    cases h1 : addOffsetEdge m goal maxJ rowLen i j L a d with
    | error e => rw [h1] at h; simp at h
    | ok a1 =>
      rw [h1, except_bind_ok] at h
      have hE3 : E.length ≤ 3 := by
        simp only [List.length_cons] at hlen
        omega
      obtain ⟨hInv1, hmono1⟩ := addOffsetEdge_char hInv hL hLne hrl hE3
        (hds d (List.mem_cons_self d ds)) h1
      have hlen1 : (E ++ (offEdge m i j L d).toList).length + ds.length ≤ 4 := by
        simp only [List.length_append, List.length_cons] at hlen ⊢
        cases offEdge m i j L d <;> simp <;> omega
      obtain ⟨hInv2, hmono2⟩ := offFold_char ds _ a1 a' hInv1 hL hLne hrl hlen1
        (fun d' hd' => hds d' (List.mem_cons_of_mem d hd')) h
      constructor
      · rw [List.filterMap_cons]
        cases ho : offEdge m i j L d with
        | none => simpa [ho] using hInv2
        | some e => simpa [ho] using hInv2
      · exact fun p hp => hmono2 p (hmono1 p hp)

theorem offFold_ok {m : List (List Nat)} {goal : Pos}
    {maxJ rowLen i j L c : Nat}
    (hrect : Rect m c) (hmj : maxJ ≠ 1) (hrl : rowLen = rowLenAt m i)
    (hi : i < m.length) :
    ∀ (ds : List (Int × Int)) (a : Arena),
    ∃ a', ds.foldlM (addOffsetEdge m goal maxJ rowLen i j L) a = .ok a'
  | [], a => ⟨a, rfl⟩
  | d :: ds, a => by
    obtain ⟨a1, h1⟩ := @addOffsetEdge_ok m goal maxJ rowLen i j L c a d
      hrect hmj hrl hi
    obtain ⟨a', h2⟩ := offFold_ok hrect hmj hrl hi ds a1
    exact ⟨a', by rw [List.foldlM_cons, h1, except_bind_ok]; exact h2⟩

theorem edgesOfPos_nat (m : List (List Nat)) (i j : Nat) {L : Nat}
    (hL : cellAt m ((i : Int), (j : Int)) = some L) :
    edgesOfPos m ((i : Int), (j : Int)) = edgesOf m i j L := by
  unfold edgesOfPos
  rw [hL]
  simp

theorem arenaInv_to_offInv {m : List (List Nat)} {goal : Pos} {maxJ : Nat}
    {P : List Pos} {a : Arena} {cur : Pos} {n : NodeS}
    (hInv : ArenaInv m goal maxJ P a)
    (hcur : alookup a cur = some n) (hnp : cur ∉ P) :
    OffInv m goal maxJ P cur [] a := by
  obtain ⟨hGood, hCells, hPk, hShape⟩ := hInv
  refine ⟨hGood, hCells, hPk, ⟨n, hcur, ?_⟩, ?_⟩
  · exact (hShape (cur, n) (alookup_mem hcur)).2 hnp
  · intro pn hpn _
    exact hShape pn hpn

theorem offInv_to_arenaInv {m : List (List Nat)} {goal : Pos} {maxJ : Nat}
    {P : List Pos} {a : Arena} {cur : Pos} {E : List EdgeS}
    (hInv : OffInv m goal maxJ P cur E a)
    (hE : E = edgesOfPos m cur) :
    ArenaInv m goal maxJ (P ++ [cur]) a := by
  obtain ⟨hGood, hCells, hPk, ⟨n, hn, hnE⟩, hShape⟩ := hInv
  refine ⟨hGood, hCells, ?_, ?_⟩
  · intro p hp
    rcases List.mem_append.mp hp with h | h
    · exact hPk p h
    · simp at h
      subst h
      rw [mem_akeys_iff_isSome, hn]
      rfl
  · intro pn hpn
    by_cases hc : pn.1 = cur
    · have hlk := alookup_of_mem_nodup hpn hGood.1
      rw [hc, hn] at hlk
      have hpn2 : pn.2 = n := (Option.some.inj hlk).symm
      constructor
      · intro _
        rw [hpn2, hnE, hE, hc]
      · intro hmem
        exact absurd (List.mem_append_right P (by simp [hc])) hmem
    · have hsh := hShape pn hpn hc
      constructor
      · intro hmem
        rcases List.mem_append.mp hmem with h | h
        · exact hsh.1 h
        · simp at h; exact absurd h hc
      · intro hmem
        exact hsh.2 (fun h => hmem (List.mem_append_left _ h))

theorem arenaInv_insert_fresh {m : List (List Nat)} {goal : Pos} {maxJ : Nat}
    {P : List Pos} {a : Arena} {q : Pos} (nb : NodeS)
    (hInv : ArenaInv m goal maxJ P a)
    (hfresh : alookup a q = none)
    (hpos : nb.pos = q) (hgoal : nb.is_goal = decide (q = goal))
    (hheu : nb.heuristic = hvalue goal maxJ q) (hval : cellAt m q = some nb.value)
    (hedges : nb.edges = []) :
    ArenaInv m goal maxJ P (aupsert a q nb) ∧
      ∀ p ∈ akeys a, p ∈ akeys (aupsert a q nb) := by
  obtain ⟨⟨hnd, hOK⟩, hCells, hPk, hShape⟩ := hInv
  have hmono : ∀ p ∈ akeys a, p ∈ akeys (aupsert a q nb) :=
    fun p hp => akeys_mono_aupsert a q p nb hp
  have hqP : q ∉ P := by
    intro hq
    have := (mem_akeys_iff_isSome a q).mp (hPk q hq)
    rw [hfresh] at this
    cases this
  refine ⟨⟨⟨aupsert_nodup a q nb hnd, ?_⟩, ?_, ?_, ?_⟩, hmono⟩
  · intro pn hpn
    rcases mem_aupsert hpn with h | h
    · subst h
      refine ⟨hpos, hgoal, hheu, hval, by simp [hedges], ?_⟩
      intro e he
      rw [hedges] at he
      simp at he
    · obtain ⟨h1, h2, h3, h4, h5, h6⟩ := hOK pn h
      refine ⟨h1, h2, h3, h4, h5, fun e he => ?_⟩
      obtain ⟨g1, g2, g3⟩ := h6 e he
      exact ⟨isSome_mono_aupsert a q e.dest nb g1, g2, g3⟩
  · intro p hp
    by_cases hpq : p = q
    · subst hpq; exact hval ▸ rfl
    · have hpa : p ∈ akeys a := by
        by_cases hqa : q ∈ akeys a
        · rwa [akeys_aupsert_mem a q nb hqa] at hp
        · rw [akeys_aupsert_not_mem a q nb hqa] at hp
          rcases List.mem_append.mp hp with h | h
          · exact h
          · simp at h; exact absurd h hpq
      exact hCells p hpa
  · exact fun p hp => hmono p (hPk p hp)
  · intro pn hpn
    rcases mem_aupsert hpn with h | h
    · subst h
      exact ⟨fun hmem => absurd hmem hqP, fun _ => hedges⟩
    · exact hShape pn h

theorem processCell_tail {m : List (List Nat)} {goal : Pos}
    {maxJ rowLen i j L : Nat} {P : List Pos} {a a' : Arena} {n : NodeS}
    (hInv : ArenaInv m goal maxJ P a)
    (hnp : ((i : Int), (j : Int)) ∉ P)
    (hL : cellAt m ((i : Int), (j : Int)) = some L)
    (hrl : rowLen = rowLenAt m i)
    (hn : alookup a ((i : Int), (j : Int)) = some n)
    (h : (if L = 0 then pure a
          else (offsets L).foldlM (addOffsetEdge m goal maxJ rowLen i j L) a) =
        Except.ok a') :
    ArenaInv m goal maxJ (P ++ [((i : Int), (j : Int))]) a' ∧
      (∀ p ∈ akeys a, p ∈ akeys a') ∧ ((i : Int), (j : Int)) ∈ akeys a' := by
  have hcura : ((i : Int), (j : Int)) ∈ akeys a := by
    rw [mem_akeys_iff_isSome, hn]; rfl
  have hOff : OffInv m goal maxJ P ((i : Int), (j : Int)) [] a :=
    arenaInv_to_offInv hInv hn hnp
  by_cases hL0 : L = 0
  · rw [if_pos hL0, except_pure_eq, Except.ok.injEq] at h
    subst h
    refine ⟨?_, fun p hp => hp, hcura⟩
    refine offInv_to_arenaInv hOff ?_
    rw [edgesOfPos_nat m i j hL]
    unfold edgesOf
    rw [if_pos hL0]
  · rw [if_neg hL0] at h
    obtain ⟨hInv1, hmono1⟩ := offFold_char (offsets L) [] a a' hOff hL hL0 hrl
      (by simp [offsets]) (fun d hd => hd) h
    refine ⟨?_, hmono1, hmono1 _ hcura⟩
    refine offInv_to_arenaInv hInv1 ?_
    rw [edgesOfPos_nat m i j hL]
    unfold edgesOf
    rw [if_neg hL0]
    simp

theorem processCell_char {m : List (List Nat)} {goal : Pos}
    {maxJ rowLen i j L : Nat} {P : List Pos} {a a' : Arena}
    (hInv : ArenaInv m goal maxJ P a)
    (hnp : ((i : Int), (j : Int)) ∉ P)
    (hL : cellAt m ((i : Int), (j : Int)) = some L)
    (hrl : rowLen = rowLenAt m i)
    (h : processCell m goal maxJ rowLen i j L a = .ok a') :
    ArenaInv m goal maxJ (P ++ [((i : Int), (j : Int))]) a' ∧
      (∀ p ∈ akeys a, p ∈ akeys a') ∧ ((i : Int), (j : Int)) ∈ akeys a' := by
  simp only [processCell] at h
  cases hf : alookup a ((i : Int), (j : Int)) with
  | some n =>
    simp only [fetchNode, hf, except_bind_ok] at h
    rw [aupsert_self_of_lookup hf] at h
    exact processCell_tail hInv hnp hL hrl hf h
  | none =>
    simp only [fetchNode, hf, mkNode] at h
    by_cases hmj1 : maxJ = 1
    · rw [if_pos hmj1] at h
      simp at h
    · rw [if_neg hmj1, except_bind_ok] at h
      obtain ⟨hInv1, hmono1⟩ := arenaInv_insert_fresh
        (NodeS.mk ((i : Int), (j : Int)) L ((manhattan ((i : Int), (j : Int)) goal).fdiv ((maxJ : Int) - 1)) (decide (((i : Int), (j : Int)) = goal)) [])
        hInv hf rfl rfl rfl hL rfl
      have hn1 := alookup_aupsert_self a ((i : Int), (j : Int))
        (NodeS.mk ((i : Int), (j : Int)) L ((manhattan ((i : Int), (j : Int)) goal).fdiv ((maxJ : Int) - 1)) (decide (((i : Int), (j : Int)) = goal)) [])
      obtain ⟨hInv2, hmono2, hcur2⟩ := processCell_tail hInv1 hnp hL hrl hn1 h
      exact ⟨hInv2, fun p hp => hmono2 p (hmono1 p hp), hcur2⟩

theorem processCell_ok {m : List (List Nat)} {goal : Pos}
    {maxJ rowLen i j L c : Nat} {a : Arena}
    (hrect : Rect m c) (hmj : maxJ ≠ 1) (hrl : rowLen = rowLenAt m i)
    (hi : i < m.length) :
    ∃ a', processCell m goal maxJ rowLen i j L a = .ok a' := by
  simp only [processCell]
  cases hf : alookup a ((i : Int), (j : Int)) with
  | some n =>
    simp only [fetchNode, hf, except_bind_ok]
    by_cases hL0 : L = 0
    · rw [if_pos hL0]
      exact ⟨_, rfl⟩
    · rw [if_neg hL0]
      exact offFold_ok hrect hmj hrl hi (offsets L) _
  | none =>
    simp only [fetchNode, hf, mkNode, if_neg hmj, except_bind_ok]
    by_cases hL0 : L = 0
    · rw [if_pos hL0]
      exact ⟨_, rfl⟩
    · rw [if_neg hL0]
      exact offFold_ok hrect hmj hrl hi (offsets L) _

/-! ## The whole construction fold -/

theorem cellSeq_cellAt {m : List (List Nat)}
    {c : (Nat × List Nat) × (Nat × Nat)} (h : c ∈ cellSeq m) :
    cellAt m (cellPos c) = some c.2.2 ∧ c.1.2.length = rowLenAt m c.1.1 := by
  obtain ⟨h1, h2⟩ := cellSeq_facts h
  constructor
  · unfold cellAt getCell cellPos
    rw [if_pos (by constructor <;> simp)]
    simp only [Int.toNat_natCast]
    rw [h1]
    exact h2
  · unfold rowLenAt
    rw [h1]
    rfl

theorem cellSeq_pos_nodup (m : List (List Nat)) :
    ((cellSeq m).map cellPos).Nodup := by
  unfold cellSeq
  rw [List.map_flatMap]
  rw [List.nodup_flatMap]
  have henum : List.Pairwise (fun a b : Nat × List Nat => a.1 ≠ b.1) m.enum := by
    have h := List.nodup_enum_map_fst m
    rw [List.Nodup, List.pairwise_map] at h
    exact h
  constructor
  · intro ir _
    rw [List.map_map]
    have h := List.nodup_enum_map_fst ir.2
    rw [List.Nodup, List.pairwise_map] at h
    rw [List.Nodup, List.pairwise_map]
    refine h.imp ?_
    intro a b hab hc
    unfold Function.comp cellPos at hc
    simp only [Prod.mk.injEq] at hc
    exact hab (by exact_mod_cast hc.2)
  · refine henum.imp ?_
    intro a b hab
    rw [Function.onFun, List.disjoint_left]
    intro x hxa hxb
    rw [List.mem_map] at hxa hxb
    obtain ⟨ja, hjam, hja⟩ := hxa
    obtain ⟨jb, hjbm, hjb⟩ := hxb
    rw [List.mem_map] at hjam hjbm
    obtain ⟨jla, _, hjla⟩ := hjam
    obtain ⟨jlb, _, hjlb⟩ := hjbm
    rw [← hjla] at hja
    rw [← hjlb] at hjb
    rw [← hjb] at hja
    unfold cellPos at hja
    simp only [Prod.mk.injEq] at hja
    exact hab (by exact_mod_cast hja.1)

theorem cellAt_mem_cellSeq {m : List (List Nat)} {p : Pos} {v : Nat}
    (h : cellAt m p = some v) :
    ∃ c ∈ cellSeq m, cellPos c = p ∧ c.2.2 = v := by
  unfold cellAt getCell at h
  by_cases hp : 0 ≤ p.1 ∧ 0 ≤ p.2
  · rw [if_pos hp] at h
    cases hrow : m.get? p.1.toNat with
    | none => rw [hrow] at h; cases h
    | some row =>
      rw [hrow] at h
      refine ⟨((p.1.toNat, row), (p.2.toNat, v)), ?_, ?_, rfl⟩
      · unfold cellSeq
        rw [List.mem_flatMap]
        refine ⟨(p.1.toNat, row), ?_, ?_⟩
        · exact (List.mem_enum_iff_get? (l := m)).mpr (by simpa using hrow)
        · rw [List.mem_map]
          exact ⟨(p.2.toNat, v),
            (List.mem_enum_iff_get? (l := row)).mpr (by simpa using h), rfl⟩
      · unfold cellPos
        simp only
        rw [Int.toNat_of_nonneg hp.1, Int.toNat_of_nonneg hp.2]
  · rw [if_neg hp] at h
    cases h

theorem buildFold_char {m : List (List Nat)} {goal : Pos} {maxJ : Nat} :
    ∀ (suf : List ((Nat × List Nat) × (Nat × Nat))) (P : List Pos)
      (a a' : Arena),
    ArenaInv m goal maxJ P a →
    (∀ c ∈ suf, cellAt m (cellPos c) = some c.2.2 ∧
      c.1.2.length = rowLenAt m c.1.1) →
    (∀ c ∈ suf, cellPos c ∉ P) →
    (suf.map cellPos).Nodup →
    suf.foldlM (buildStep m goal maxJ) a = .ok a' →
    ArenaInv m goal maxJ (P ++ suf.map cellPos) a' ∧
      (∀ p ∈ akeys a, p ∈ akeys a') ∧
      (∀ c ∈ suf, cellPos c ∈ akeys a')
  | [], P, a, a' => by
    intro hInv _ _ _ h
    simp only [List.foldlM_nil, except_pure_eq, Except.ok.injEq] at h
    subst h
    exact ⟨by simpa using hInv, fun p hp => hp, by simp⟩
  | c :: suf, P, a, a' => by
    intro hInv hcells hdisj hnd h
    rw [List.foldlM_cons] at h
    cases h1 : buildStep m goal maxJ a c with
    | error e => rw [h1] at h; simp at h
    | ok a1 =>
      rw [h1, except_bind_ok] at h
      obtain ⟨hc1, hc2⟩ := hcells c (List.mem_cons_self c suf)
      have hstep := processCell_char hInv (hdisj c (List.mem_cons_self c suf))
        hc1 hc2 h1
      obtain ⟨hInv1, hmono1, hcur1⟩ := hstep
      have hnd' : (suf.map cellPos).Nodup := by
        rw [List.map_cons] at hnd
        exact hnd.of_cons
      have hdisj' : ∀ c' ∈ suf, cellPos c' ∉ P ++ [cellPos c] := by
        intro c' hc' hmem
        rcases List.mem_append.mp hmem with hm | hm
        · exact hdisj c' (List.mem_cons_of_mem c hc') hm
        · simp at hm
          rw [List.map_cons] at hnd
          exact (List.nodup_cons.mp hnd).1 (hm ▸ List.mem_map_of_mem cellPos hc')
      obtain ⟨hInv2, hmono2, hmem2⟩ := buildFold_char suf (P ++ [cellPos c])
        a1 a' hInv1 (fun c' hc' => hcells c' (List.mem_cons_of_mem c hc'))
        hdisj' hnd' h
      refine ⟨?_, fun p hp => hmono2 p (hmono1 p hp), ?_⟩
      · rw [List.map_cons]
        rw [List.append_assoc] at hInv2
        simpa using hInv2
      · intro c' hc'
        rcases List.mem_cons.mp hc' with hm | hm
        · exact hm ▸ hmono2 _ hcur1
        · exact hmem2 c' hm

theorem buildFold_ok {m : List (List Nat)} {goal : Pos} {maxJ c : Nat}
    (hrect : Rect m c) (hmj : maxJ ≠ 1) :
    ∀ (suf : List ((Nat × List Nat) × (Nat × Nat))) (a : Arena),
    (∀ cc ∈ suf, cc.1.1 < m.length ∧ cc.1.2.length = rowLenAt m cc.1.1) →
    ∃ a', suf.foldlM (buildStep m goal maxJ) a = .ok a'
  | [], a => fun _ => ⟨a, rfl⟩
  | cc :: suf, a => by
    intro hfacts
    obtain ⟨h1, h2⟩ := hfacts cc (List.mem_cons_self cc suf)
    obtain ⟨a1, ha1⟩ := @processCell_ok m goal maxJ cc.1.2.length cc.1.1
      cc.2.1 cc.2.2 c a hrect hmj h2 h1
    obtain ⟨a', ha'⟩ := buildFold_ok hrect hmj suf a1
      (fun d hd => hfacts d (List.mem_cons_of_mem cc hd))
    refine ⟨a', ?_⟩
    rw [List.foldlM_cons]
    rw [show buildStep m goal maxJ a cc = processCell m goal maxJ cc.1.2.length
        cc.1.1 cc.2.1 cc.2.2 a from rfl, ha1, except_bind_ok]
    exact ha'

theorem arenaInv_nil (m : List (List Nat)) (goal : Pos) (maxJ : Nat) :
    ArenaInv m goal maxJ [] [] := by
  refine ⟨⟨by simp [akeys], by simp⟩, by simp [akeys], by simp, by simp⟩

theorem buildGraph_char {m : List (List Nat)} {start goal : Pos} {g : GraphS}
    (h : buildGraph m start goal = .ok g) :
    g.matrix = m ∧ g.start = start ∧ g.goal = goal ∧
      ∃ maxJ, maxJump m = .ok maxJ ∧
        ArenaInv m goal maxJ ((cellSeq m).map cellPos) g.nodes ∧
        alookup g.nodes start = some g.root ∧
        ∀ c ∈ cellSeq m, cellPos c ∈ akeys g.nodes := by
  rw [buildGraph_eq_flat] at h
  cases hmj : maxJump m with
  | error e => rw [hmj] at h; simp at h
  | ok maxJ =>
    rw [hmj, except_bind_ok] at h
    cases hfold : (cellSeq m).foldlM (buildStep m goal maxJ) ([] : Arena) with
    | error e => rw [hfold] at h; simp at h
    | ok a =>
      rw [hfold, except_bind_ok] at h
      obtain ⟨hInv, _, hmem⟩ := buildFold_char (cellSeq m) [] [] a
        (arenaInv_nil m goal maxJ)
        (fun c hc => cellSeq_cellAt hc)
        (fun c _ => by simp)
        (cellSeq_pos_nodup m) hfold
      cases hroot : alookup a start with
      | none => rw [hroot] at h; simp at h
      | some root =>
        rw [hroot] at h
        simp only [Except.ok.injEq] at h
        subst h
        refine ⟨rfl, rfl, rfl, maxJ, rfl, by simpa using hInv, hroot, hmem⟩

theorem buildGraph_keys {m : List (List Nat)} {start goal : Pos} {g : GraphS}
    (h : buildGraph m start goal = .ok g) (p : Pos) :
    p ∈ akeys g.nodes ↔ (cellAt m p).isSome := by
  obtain ⟨_, _, _, maxJ, _, hInv, _, hmem⟩ := buildGraph_char h
  constructor
  · intro hp
    exact hInv.2.1 p hp
  · intro hp
    rw [Option.isSome_iff_exists] at hp
    obtain ⟨v, hv⟩ := hp
    obtain ⟨c, hc, hcp, _⟩ := cellAt_mem_cellSeq hv
    exact hcp ▸ hmem c hc

theorem processCell_maxJ_one (m : List (List Nat)) (goal : Pos)
    (rowLen i j L : Nat) :
    processCell m goal 1 rowLen i j L [] = .error .zeroDivisionError := rfl

theorem buildGraph_maxJ_one {m : List (List Nat)} {start goal : Pos}
    (hmj : maxJump m = .ok 1) :
    buildGraph m start goal = .error .zeroDivisionError := by
  rw [buildGraph_eq_flat, hmj, except_bind_ok]
  obtain ⟨hne, hrows⟩ := maxJump_rows_ok hmj
  cases m with
  | nil => exact absurd rfl hne
  | cons r0 mt =>
    obtain ⟨hr0, _⟩ := hrows 0 r0 (by simp)
    cases hr : r0 with
    | nil => exact absurd hr hr0
    | cons x rt =>
      subst hr
      have hcell : ((0, x :: rt), (0, x)) ∈ cellSeq ((x :: rt) :: mt) := by
        unfold cellSeq
        rw [List.mem_flatMap]
        refine ⟨(0, x :: rt),
          (List.mem_enum_iff_get? (l := (x :: rt) :: mt)).mpr (by simp), ?_⟩
        rw [List.mem_map]
        exact ⟨(0, x),
          (List.mem_enum_iff_get? (l := x :: rt)).mpr (by simp), rfl⟩
      cases hsq : cellSeq ((x :: rt) :: mt) with
      | nil =>
        rw [hsq] at hcell
        simp at hcell
      | cons c0 rest =>
        rw [List.foldlM_cons,
          show buildStep ((x :: rt) :: mt) goal 1 [] c0 =
            Except.error BuildErr.zeroDivisionError from
            processCell_maxJ_one _ _ _ _ _ _,
          except_bind_error]
        rfl

theorem buildGraph_WF {m : List (List Nat)} {start goal : Pos} {g : GraphS}
    (h : buildGraph m start goal = .ok g) : WF g := by
  obtain ⟨hm, hs, hg, maxJ, hmj, hInv, hroot, hmem⟩ := buildGraph_char h
  have hone : maxJ ≠ 1 := by
    intro h1
    subst h1
    rw [buildGraph_maxJ_one hmj] at h
    cases h
  exact ⟨maxJ, by rw [hm]; exact hmj, hone, by rw [hm, hg]; exact hInv.1,
    by rw [hs]; exact hroot⟩

theorem buildGraph_ok_of_rect {m : List (List Nat)} {start goal : Pos}
    {maxJ c : Nat}
    (hrect : Rect m c) (hmax : maxJump m = .ok maxJ) (hmj : maxJ ≠ 1)
    (hstart : (cellAt m start).isSome) :
    ∃ g, buildGraph m start goal = .ok g := by
  have hfacts : ∀ cc ∈ cellSeq m, cc.1.1 < m.length ∧
      cc.1.2.length = rowLenAt m cc.1.1 := by
    intro cc hcc
    obtain ⟨h1, h2⟩ := cellSeq_facts hcc
    refine ⟨?_, (cellSeq_cellAt hcc).2⟩
    by_contra hge
    rw [List.get?_eq_none.mpr (by omega)] at h1
    cases h1
  obtain ⟨a, ha⟩ := buildFold_ok hrect hmj (cellSeq m) [] hfacts
  obtain ⟨_, _, hmem⟩ := buildFold_char (cellSeq m) [] [] a
    (arenaInv_nil m goal maxJ) (fun cc hcc => cellSeq_cellAt hcc)
    (fun cc _ => by simp) (cellSeq_pos_nodup m) ha
  have hstartmem : start ∈ akeys a := by
    rw [Option.isSome_iff_exists] at hstart
    obtain ⟨v, hv⟩ := hstart
    obtain ⟨cc, hcc, hcp, _⟩ := cellAt_mem_cellSeq hv
    exact hcp ▸ hmem cc hcc
  rw [mem_akeys_iff_isSome, Option.isSome_iff_exists] at hstartmem
  obtain ⟨root, hroot⟩ := hstartmem
  refine ⟨GraphS.mk a m start goal root, ?_⟩
  rw [buildGraph_eq_flat, hmax, except_bind_ok, ha, except_bind_ok, hroot]

theorem mapM_pymax_empty_row {m : List (List Nat)} (h : [] ∈ m) :
    m.mapM pymax = .error .valueError := by
  induction m with
  | nil => simp at h
  | cons r t ih =>
    rw [List.mapM_cons]
    rcases List.mem_cons.mp h with h1 | h1
    · rw [← h1]
      rfl
    · cases hr : pymax r with
      | error e =>
        have he : e = BuildErr.valueError := by
          cases r with
          | nil =>
            rw [show pymax ([] : List Nat) =
              Except.error BuildErr.valueError from rfl] at hr
            injection hr with h2
            exact h2.symm
          | cons x rt => simp [pymax] at hr
        subst he
        rfl
      | ok v =>
        rw [ih h1]
        rfl

theorem maxJump_empty (m : List (List Nat)) (h : m = [] ∨ [] ∈ m) :
    maxJump m = .error .valueError := by
  rcases h with h | h
  · subst h; rfl
  · unfold maxJump
    rw [mapM_pymax_empty_row h]
    rfl

theorem buildGraph_keyError {m : List (List Nat)} {c maxJ : Nat}
    {start goal : Pos}
    (hrect : Rect m c) (hmax : maxJump m = .ok maxJ) (hmj : maxJ ≠ 1)
    (hs : cellAt m start = none) :
    buildGraph m start goal = .error .keyError := by
  have hfacts : ∀ cc ∈ cellSeq m, cc.1.1 < m.length ∧
      cc.1.2.length = rowLenAt m cc.1.1 := by
    intro cc hcc
    obtain ⟨h1, _⟩ := cellSeq_facts hcc
    refine ⟨?_, (cellSeq_cellAt hcc).2⟩
    by_contra hge
    rw [List.get?_eq_none.mpr (by omega)] at h1
    cases h1
  obtain ⟨a, ha⟩ := buildFold_ok hrect hmj (cellSeq m) [] hfacts
  obtain ⟨hInv, _, _⟩ := buildFold_char (cellSeq m) [] [] a
    (arenaInv_nil m goal maxJ) (fun cc hcc => cellSeq_cellAt hcc)
    (fun cc _ => by simp) (cellSeq_pos_nodup m) ha
  have hnone : alookup a start = none := by
    cases hl : alookup a start with
    | none => rfl
    | some n =>
      have : start ∈ akeys a := by
        rw [mem_akeys_iff_isSome, hl]; rfl
      have := hInv.2.1 start this
      rw [hs] at this
      cases this
  rw [buildGraph_eq_flat, hmax, except_bind_ok, ha, except_bind_ok, hnone]

/-! ## Claims about graph construction -/

/-- C9: for every matrix whose maximum jump length (the value `max_jump`
computed by `Graph.__init__`) is 1, computing the first node's heuristic
divides by zero, so building the graph fails with the division-by-zero
error. -/
theorem build_divides_by_zero_when_max_jump_is_one (m : List (List Nat))
    (start goal : Pos) (hmj : maxJump m = .ok 1) :
    buildGraph m start goal = .error .zeroDivisionError :=
  buildGraph_maxJ_one hmj

/-- Witness for C9 at the concrete all-ones matrix. -/
theorem build_divides_by_zero_when_max_jump_is_one_witness :
    maxJump [[1, 1], [1, 1]] = .ok 1 ∧
      buildGraph [[1, 1], [1, 1]] (0, 0) (1, 1) = .error .zeroDivisionError :=
  ⟨rfl, build_divides_by_zero_when_max_jump_is_one [[1, 1], [1, 1]] (0, 0)
    (1, 1) rfl⟩

/-- C8, counterexample: the stored heuristic is the *floor* of the division,
not the real quotient the spec's formula denotes.  In `[[3, 0], [0, 0]]`
with goal `(1, 1)`, the node at `(0, 1)` has Manhattan distance 1 and
`max_jump - 1 = 2`; the stored heuristic is `0`, while the real quotient is
`1 / 2 ≠ 0`. -/
theorem heuristic_not_real_quotient :
    ((buildGraph [[3, 0], [0, 0]] (0, 0) (1, 1)).toOption.bind
      (fun g => alookup g.nodes (0, 1))).map NodeS.heuristic = some 0 ∧
    maxJump [[3, 0], [0, 0]] = .ok 3 ∧
    manhattan (0, 1) (1, 1) = 1 ∧
    ((1 : ℚ) / (((3 : Nat) : ℚ) - 1) ≠ ((0 : Int) : ℚ)) := by
  refine ⟨rfl, rfl, rfl, ?_⟩
  norm_num

/-- C8, amended: every node's stored heuristic equals the *floor division*
(Python `//`) of its Manhattan distance to the goal by `max_jump - 1`. -/
theorem heuristic_is_floor_division (m : List (List Nat)) (start goal : Pos)
    (g : GraphS) (maxJ : Nat)
    (hb : buildGraph m start goal = .ok g) (hmj : maxJump m = .ok maxJ) :
    ∀ pn ∈ g.nodes,
      pn.2.heuristic = (manhattan pn.1 goal).fdiv ((maxJ : Int) - 1) := by
  obtain ⟨_, _, _, maxJ', hmj', hInv, _, _⟩ := buildGraph_char hb
  rw [hmj] at hmj'
  have hJ : maxJ' = maxJ := by injection hmj' with h; exact h.symm
  subst hJ
  intro pn hpn
  exact (hInv.1.2 pn hpn).2.2.1

/-- Witness for the amended C8: the heuristic of the node at `(0, 1)` in the
graph of `[[3, 0], [0, 0]]` with goal `(1, 1)` is `(1).fdiv 2 = 0`. -/
theorem heuristic_is_floor_division_witness :
    ((buildGraph [[3, 0], [0, 0]] (0, 0) (1, 1)).toOption.bind
      (fun g => alookup g.nodes (0, 1))).map NodeS.heuristic =
      some ((manhattan (0, 1) (1, 1)).fdiv (((3 : Nat) : Int) - 1)) := by
  cases hb : buildGraph [[3, 0], [0, 0]] (0, 0) (1, 1) with
  | error e =>
    have hok : (buildGraph [[3, 0], [0, 0]] (0, 0) (1, 1)).isOk = true := rfl
    rw [hb] at hok
    cases hok
  | ok g =>
    have hmain := heuristic_is_floor_division [[3, 0], [0, 0]] (0, 0) (1, 1)
      g 3 hb rfl
    cases hn : alookup g.nodes (0, 1) with
    | none =>
      have hmem := (buildGraph_keys hb (0, 1)).mpr (by decide)
      rw [mem_akeys_iff_isSome, hn] at hmem
      cases hmem
    | some n =>
      show Option.map NodeS.heuristic (alookup g.nodes (0, 1)) =
        some ((manhattan (0, 1) (1, 1)).fdiv (((3 : Nat) : Int) - 1))
      rw [hn]
      exact congrArg some (hmain ((0, 1), n) (alookup_mem hn))

/-- C6, counterexample: construction does *not* fail for every out-of-bounds
goal, nor for every ragged matrix: `[[2, 0], [0, 0]]` with goal `(5, 5)`
and the ragged `[[0, 0], [0]]` both build successfully. -/
theorem build_errors_cex :
    (buildGraph [[2, 0], [0, 0]] (0, 0) (5, 5)).isOk = true ∧
      (buildGraph [[0, 0], [0]] (0, 0) (0, 1)).isOk = true := ⟨rfl, rfl⟩

/-- C6, amended: construction fails with `ValueError` for every empty matrix
or matrix containing an empty row; for rectangular matrices (`max_jump ≠ 1`)
it fails with `KeyError` exactly when the start is out of bounds, and it
*succeeds* for every goal — even an out-of-bounds one.  (A ragged matrix
fails only if an edge's destination indexes past a short row.) -/
theorem build_failure_modes :
    (∀ (m : List (List Nat)) (s go : Pos), (m = [] ∨ [] ∈ m) →
      buildGraph m s go = .error .valueError) ∧
    (∀ (m : List (List Nat)) (c maxJ : Nat) (s go : Pos),
      Rect m c → maxJump m = .ok maxJ → maxJ ≠ 1 → cellAt m s = none →
      buildGraph m s go = .error .keyError) ∧
    (∀ (m : List (List Nat)) (c maxJ : Nat) (s go : Pos),
      Rect m c → maxJump m = .ok maxJ → maxJ ≠ 1 → (cellAt m s).isSome →
      ∃ g, buildGraph m s go = .ok g) := by
  refine ⟨?_, ?_, ?_⟩
  · intro m s go h
    rw [buildGraph_eq_flat, maxJump_empty m h]
    rfl
  · intro m c maxJ s go hrect hmax hmj hs
    exact buildGraph_keyError hrect hmax hmj hs
  · intro m c maxJ s go hrect hmax hmj hs
    exact buildGraph_ok_of_rect hrect hmax hmj hs

/-- Witness for the amended C6 at concrete inputs: the empty matrix raises
`ValueError`, an out-of-bounds start raises `KeyError`, and an out-of-bounds
goal builds fine. -/
theorem build_failure_modes_witness :
    buildGraph [] (0, 0) (0, 0) = .error .valueError ∧
      buildGraph [[2, 0], [0, 0]] (5, 5) (0, 0) = .error .keyError ∧
      ∃ g, buildGraph [[2, 0], [0, 0]] (0, 0) (5, 5) = .ok g := by
  refine ⟨build_failure_modes.1 [] (0, 0) (0, 0) (by simp),
    build_failure_modes.2.1 [[2, 0], [0, 0]] 2 2 (5, 5) (0, 0)
      (by intro row hrow; fin_cases hrow <;> rfl) rfl (by decide) (by decide),
    build_failure_modes.2.2 [[2, 0], [0, 0]] 2 2 (0, 0) (5, 5)
      (by intro row hrow; fin_cases hrow <;> rfl) rfl (by decide) (by decide)⟩

/-- C10: after a successful build from a non-empty rectangular matrix, the
node mapping has exactly one node per in-bounds cell (even unreachable
ones), each node's value is the matrix entry at its position, nodes of value
0 have no outgoing edges, and every edge targets an in-bounds cell and has
length equal to its source cell's value. -/
theorem graph_construction_invariants (m : List (List Nat)) (c : Nat)
    (start goal : Pos) (g : GraphS)
    (hne : m ≠ []) (hrect : Rect m c)
    (hb : buildGraph m start goal = .ok g) :
    (akeys g.nodes).Nodup ∧
    (∀ p : Pos, p ∈ akeys g.nodes ↔ (cellAt m p).isSome) ∧
    (∀ pn ∈ g.nodes, cellAt m pn.1 = some pn.2.value) ∧
    (∀ pn ∈ g.nodes, pn.2.value = 0 → pn.2.edges = []) ∧
    (∀ pn ∈ g.nodes, ∀ e ∈ pn.2.edges,
      (cellAt m e.dest).isSome ∧ e.length = pn.2.value) := by
  obtain ⟨hm, hs, hg, maxJ, hmj, hInv, hroot, hmem⟩ := buildGraph_char hb
  refine ⟨hInv.1.1, fun p => buildGraph_keys hb p, ?_, ?_, ?_⟩
  · intro pn hpn
    exact (hInv.1.2 pn hpn).2.2.2.1
  · intro pn hpn hval
    have hcell : cellAt m pn.1 = some pn.2.value :=
      (hInv.1.2 pn hpn).2.2.2.1
    have hkey : pn.1 ∈ akeys g.nodes := by
      rw [mem_akeys_iff_isSome, alookup_of_mem_nodup hpn hInv.1.1]
      rfl
    obtain ⟨cc, hcc, hccp, hccv⟩ := cellAt_mem_cellSeq hcell
    have hshape := (hInv.2.2.2 pn hpn).1
      (by rw [← hccp]; exact List.mem_map_of_mem cellPos hcc)
    rw [hshape, ← hccp, show cellPos cc = ((cc.1.1 : Int), (cc.2.1 : Int))
      from rfl, edgesOfPos_nat m cc.1.1 cc.2.1
      (by rw [show ((cc.1.1 : Int), (cc.2.1 : Int)) = cellPos cc from rfl,
        hccp]; exact hcell)]
    unfold edgesOf
    rw [if_pos hval]
  · intro pn hpn e he
    have hok := (hInv.1.2 pn hpn).2.2.2.2.2 e he
    refine ⟨?_, hok.2.1⟩
    have hdest : e.dest ∈ akeys g.nodes := by
      rw [mem_akeys_iff_isSome]
      exact hok.1
    exact hInv.2.1 e.dest hdest

/-- Witness for C10 on a concrete 2×2 matrix: the in-bounds cell `(0, 1)`
is a node of the built graph. -/
theorem graph_construction_invariants_witness :
    ((buildGraph [[2, 1], [1, 2]] (0, 0) (1, 1)).toOption.map
      (fun g => decide ((0, 1) ∈ akeys g.nodes))) = some true := by
  cases hb : buildGraph [[2, 1], [1, 2]] (0, 0) (1, 1) with
  | error e =>
    have hok : (buildGraph [[2, 1], [1, 2]] (0, 0) (1, 1)).isOk = true := rfl
    rw [hb] at hok
    cases hok
  | ok g =>
    have hmain := graph_construction_invariants [[2, 1], [1, 2]] 2 (0, 0)
      (1, 1) g (by simp) (by intro row hrow; fin_cases hrow <;> rfl) hb
    have hkey := (hmain.2.1 (0, 1)).mpr (by decide)
    show some (decide ((0, 1) ∈ akeys g.nodes)) = some true
    exact congrArg some (decide_eq_true hkey)

/-! ## Fuel monotonicity -/

theorem mono_le {α : Type} (f : Nat → Option α)
    (hstep : ∀ n r, f n = some r → f (n + 1) = some r) :
    ∀ {n n' : Nat}, n ≤ n' → ∀ {r}, f n = some r → f n' = some r := by
  intro n n' hle r h
  induction hle with
  | refl => exact h
  | step _ ih => exact hstep _ _ ih

theorem pathWalk_mono (parents : ParentMap) :
    ∀ (fuel : Nat) (cur : Option NodeS) (path : List NodeS) (r : List NodeS),
    pathWalk parents fuel cur path = some r →
    pathWalk parents (fuel + 1) cur path = some r
  | fuel, none, path, r => by
    intro h
    cases fuel with
    | zero => exact h
    | succ n => exact h
  | 0, some c, path, r => by
    intro h
    cases h
  | fuel + 1, some c, path, r => by
    intro h
    rw [pathWalk] at h ⊢
    cases hl : alookup parents c.pos with
    | none => rw [hl] at h; exact Option.noConfusion h
    | some par =>
      rw [hl] at h
      exact pathWalk_mono parents fuel par (path ++ [c]) r h

theorem getPath_mono (parents : ParentMap) (goal : Option NodeS)
    (fuel : Nat) (r : Option (List NodeS))
    (h : getPath parents goal fuel = some r) :
    getPath parents goal (fuel + 1) = some r := by
  cases goal with
  | none => exact h
  | some gn =>
    simp only [getPath] at h ⊢
    cases hl : alookup parents gn.pos with
    | none => rw [hl] at h; exact Option.noConfusion h
    | some par =>
      rw [hl] at h
      cases par with
      | none => exact h
      | some p =>
        cases hw : pathWalk parents fuel (some gn) [] with
        | none => rw [hw] at h; exact Option.noConfusion h
        | some w =>
          rw [hw] at h
          rw [pathWalk_mono parents fuel (some gn) [] w hw]
          exact h

theorem dfsLoop_mono (g : GraphS) :
    ∀ (fuel : Nat) (stack : List NodeS) (visited : List Pos)
      (parents : ParentMap) (r : Option NodeS × ParentMap),
    dfsLoop g fuel stack visited parents = some r →
    dfsLoop g (fuel + 1) stack visited parents = some r
  | 0, _, _, _, _ => by intro h; cases h
  | fuel + 1, [], visited, parents, r => by
    intro h
    exact h
  | fuel + 1, node :: rest, visited, parents, r => by
    intro h
    rw [dfsLoop] at h ⊢
    by_cases hg : node.is_goal
    · rw [if_pos hg] at h ⊢; exact h
    · rw [if_neg hg] at h ⊢
      by_cases hv : node.pos ∈ visited
      · rw [if_pos hv] at h ⊢
        exact dfsLoop_mono g fuel rest visited parents r h
      · rw [if_neg hv] at h ⊢
        cases he : dfsExpand g node (node.pos :: visited) node.edges.reverse
            rest parents with
        | none => rw [he] at h; exact Option.noConfusion h
        | some sp =>
          rw [he] at h
          obtain ⟨stack', parents'⟩ := sp
          exact dfsLoop_mono g fuel stack' (node.pos :: visited) parents' r h

theorem bfsLoop_mono (g : GraphS) :
    ∀ (fuel : Nat) (queue : List NodeS) (visited : List Pos)
      (parents : ParentMap) (r : Option NodeS × ParentMap),
    bfsLoop g fuel queue visited parents = some r →
    bfsLoop g (fuel + 1) queue visited parents = some r
  | 0, _, _, _, _ => by intro h; cases h
  | fuel + 1, [], visited, parents, r => by
    intro h
    exact h
  | fuel + 1, node :: rest, visited, parents, r => by
    intro h
    rw [bfsLoop] at h ⊢
    by_cases hg : node.is_goal
    · rw [if_pos hg] at h ⊢; exact h
    · rw [if_neg hg] at h ⊢
      cases he : bfsExpand g node node.edges rest visited parents with
      | none => rw [he] at h; exact Option.noConfusion h
      | some sp =>
        rw [he] at h
        obtain ⟨q', v', p'⟩ := sp
        exact bfsLoop_mono g fuel q' v' p' r h

theorem ucsLoop_mono (g : GraphS) (inc : EdgeS → NodeS → Nat) :
    ∀ (fuel : Nat) (visited : List Pos) (pq : List UcsEntry)
      (r : Option (List NodeS)),
    ucsLoop g inc fuel visited pq = some r →
    ucsLoop g inc (fuel + 1) visited pq = some r
  | 0, _, _, _ => by intro h; cases h
  | fuel + 1, visited, [], r => by
    intro h
    exact h
  | fuel + 1, visited, e :: pqt, r => by
    intro h
    rw [ucsLoop] at h ⊢ <;> try exact fun hcon => List.noConfusion hcon
    cases hp : popMinBy (fun (x : UcsEntry) => x.1) (fun a b => decide (a ≤ b))
        (e :: pqt) with
    | none => rw [hp] at h; exact h
    | some mp =>
      rw [hp] at h
      obtain ⟨⟨total, node, path⟩, pq'⟩ := mp
      simp only [] at h ⊢
      by_cases hg : node.is_goal
      · rw [if_pos hg] at h ⊢; exact h
      · rw [if_neg hg] at h ⊢
        cases he : ucsExpand g inc total path
            (if node.pos ∈ visited then visited else node.pos :: visited)
            node.edges pq' with
        | none => rw [he] at h; exact Option.noConfusion h
        | some pq2 => rw [he] at h; exact ucsLoop_mono g inc fuel _ pq2 r h

theorem dijkstraLoop_mono (g : GraphS) :
    ∀ (fuel : Nat) (dist : DistMap) (parents : ParentMap)
      (pq : List (Dist × NodeS)) (r : Option NodeS × ParentMap),
    dijkstraLoop g fuel dist parents pq = some r →
    dijkstraLoop g (fuel + 1) dist parents pq = some r
  | 0, _, _, _, _ => by intro h; cases h
  | fuel + 1, dist, parents, [], r => by
    intro h
    exact h
  | fuel + 1, dist, parents, e :: pqt, r => by
    intro h
    rw [dijkstraLoop] at h ⊢ <;> try exact fun hcon => List.noConfusion hcon
    cases hp : popMinBy (fun (x : Dist × NodeS) => x.1) leD (e :: pqt) with
    | none => rw [hp] at h; exact h
    | some mp =>
      rw [hp] at h
      obtain ⟨⟨k, node⟩, pq'⟩ := mp
      simp only [] at h ⊢
      by_cases hg : node.is_goal
      · rw [if_pos hg] at h ⊢; exact h
      · rw [if_neg hg] at h ⊢
        cases he : dijkstraRelax g node node.edges dist parents pq' with
        | none => rw [he] at h; exact Option.noConfusion h
        | some dpq =>
          rw [he] at h
          obtain ⟨d', p', q'⟩ := dpq
          exact dijkstraLoop_mono g fuel d' p' q' r h

theorem aStarLoop_mono (g : GraphS) :
    ∀ (fuel : Nat) (visited : List Pos) (gs : List (Pos × Nat))
      (fs : List (Pos × Int)) (parents : ParentMap) (pq : List (Int × NodeS))
      (r : Option NodeS × ParentMap),
    aStarLoop g fuel visited gs fs parents pq = some r →
    aStarLoop g (fuel + 1) visited gs fs parents pq = some r
  | 0, _, _, _, _, _, _ => by intro h; cases h
  | fuel + 1, visited, gs, fs, parents, [], r => by
    intro h
    exact h
  | fuel + 1, visited, gs, fs, parents, e :: pqt, r => by
    intro h
    rw [aStarLoop] at h ⊢ <;> try exact fun hcon => List.noConfusion hcon
    cases hp : popMinBy (fun (x : Int × NodeS) => x.1)
        (fun a b => decide (a ≤ b)) (e :: pqt) with
    | none => rw [hp] at h; exact h
    | some mp =>
      rw [hp] at h
      obtain ⟨⟨k, node⟩, pq'⟩ := mp
      simp only [] at h ⊢
      by_cases hv : node.pos ∈ visited
      · rw [if_pos hv] at h ⊢
        exact aStarLoop_mono g fuel visited gs fs parents pq' r h
      · rw [if_neg hv] at h ⊢
        by_cases hg : node.is_goal
        · rw [if_pos hg] at h ⊢; exact h
        · rw [if_neg hg] at h ⊢
          cases he : aStarRelax g node node.edges gs fs parents pq' with
          | none => rw [he] at h; exact Option.noConfusion h
          | some st =>
            rw [he] at h
            obtain ⟨g1, f1, p1, q1⟩ := st
            exact aStarLoop_mono g fuel (node.pos :: visited) g1 f1 p1 q1 r h

theorem dfs_mono (g : GraphS) (fuel : Nat) (r : Option (List NodeS))
    (h : dfs g fuel = some r) : dfs g (fuel + 1) = some r := by
  unfold dfs at h ⊢
  cases hl : dfsLoop g fuel [g.root] [] [(g.root.pos, none)] with
  | none => rw [hl] at h; cases h
  | some st =>
    rw [hl] at h
    rw [dfsLoop_mono g fuel _ _ _ st hl]
    obtain ⟨gl, parents⟩ := st
    exact getPath_mono parents gl fuel r h

theorem bfs_mono (g : GraphS) (fuel : Nat) (r : Option (List NodeS))
    (h : bfs g fuel = some r) : bfs g (fuel + 1) = some r := by
  unfold bfs at h ⊢
  cases hl : bfsLoop g fuel [g.root] [g.root.pos] [(g.root.pos, none)] with
  | none => rw [hl] at h; cases h
  | some st =>
    rw [hl] at h
    rw [bfsLoop_mono g fuel _ _ _ st hl]
    obtain ⟨gl, parents⟩ := st
    exact getPath_mono parents gl fuel r h

theorem ucsRun_mono (g : GraphS) (inc : EdgeS → NodeS → Nat) (fuel : Nat)
    (r : Option (List NodeS)) (h : ucsRun g inc fuel = some r) :
    ucsRun g inc (fuel + 1) = some r :=
  ucsLoop_mono g inc fuel [] [(0, g.root, [g.root])] r h

theorem dijkstra_mono (g : GraphS) (fuel : Nat) (r : Option (List NodeS))
    (h : dijkstra g fuel = some r) : dijkstra g (fuel + 1) = some r := by
  unfold dijkstra at h ⊢
  cases hseed : dijkstraSeed g with
  | mk dist rest =>
    obtain ⟨parents, pq⟩ := rest
    rw [hseed] at h
    simp only [] at h ⊢
    cases hl : dijkstraLoop g fuel dist parents pq with
    | none => rw [hl] at h; cases h
    | some st =>
      rw [hl] at h
      rw [dijkstraLoop_mono g fuel _ _ _ st hl]
      obtain ⟨gl, parents2⟩ := st
      exact getPath_mono parents2 gl fuel r h

theorem a_star_mono (g : GraphS) (fuel : Nat) (r : Option (List NodeS))
    (h : a_star g fuel = some r) : a_star g (fuel + 1) = some r := by
  unfold a_star at h ⊢
  cases hl : aStarLoop g fuel [] [(g.root.pos, 0)] [(g.root.pos, g.root.heuristic)]
      [(g.root.pos, none)] [((0 : Int), g.root)] with
  | none => rw [hl] at h; cases h
  | some st =>
    rw [hl] at h
    rw [aStarLoop_mono g fuel _ _ _ _ _ st hl]
    obtain ⟨gl, parents⟩ := st
    exact getPath_mono parents gl fuel r h

/-! ## The 1x1 maze (claim C4) -/

theorem maxJump_singleton (v : Nat) : maxJump [[v]] = .ok v := rfl

theorem cellAt_singleton {v : Nat} {p : Pos}
    (h : (cellAt [[v]] p).isSome) : p = (0, 0) := by
  rw [Option.isSome_iff_exists] at h
  obtain ⟨w, hw⟩ := h
  obtain ⟨c, hc, hcp, _⟩ := cellAt_mem_cellSeq hw
  rw [show cellSeq [[v]] = [((0, [v]), (0, v))] from rfl] at hc
  rw [List.mem_singleton] at hc
  rw [hc] at hcp
  exact hcp.symm

theorem edgesOf_singleton (v : Nat) : edgesOf [[v]] 0 0 v = [] := by
  by_cases h0 : v = 0
  · simp [edgesOf, h0]
  · unfold edgesOf
    rw [if_neg h0]
    have hv1 : 1 ≤ (v : Int) := by exact_mod_cast Nat.one_le_iff_ne_zero.mpr h0
    have e1 : offEdge [[v]] 0 0 v (-(v : Int), 0) = none := by
      unfold offEdge
      rw [if_neg]
      rw [show rowLenAt [[v]] 0 = 1 from rfl,
        show ([[v]] : List (List Nat)).length = 1 from rfl]
      push_cast
      omega
    have e2 : offEdge [[v]] 0 0 v ((v : Int), 0) = none := by
      unfold offEdge
      rw [if_neg]
      rw [show rowLenAt [[v]] 0 = 1 from rfl,
        show ([[v]] : List (List Nat)).length = 1 from rfl]
      push_cast
      omega
    have e3 : offEdge [[v]] 0 0 v (0, -(v : Int)) = none := by
      unfold offEdge
      rw [if_neg]
      rw [show rowLenAt [[v]] 0 = 1 from rfl,
        show ([[v]] : List (List Nat)).length = 1 from rfl]
      push_cast
      omega
    have e4 : offEdge [[v]] 0 0 v (0, (v : Int)) = none := by
      unfold offEdge
      rw [if_neg]
      rw [show rowLenAt [[v]] 0 = 1 from rfl,
        show ([[v]] : List (List Nat)).length = 1 from rfl]
      push_cast
      omega
    simp [offsets, List.filterMap_cons, e1, e2, e3, e4]

theorem nodes_singleton {v : Nat} {g : GraphS}
    (h : buildGraph [[v]] (0, 0) (0, 0) = .ok g) :
    g.nodes = [((0, 0), g.root)] ∧ g.root.pos = (0, 0) ∧
      g.root.is_goal = true ∧ g.root.edges = [] := by
  obtain ⟨hm, hs, hg, maxJ, hmj, hInv, hroot, hmem⟩ := buildGraph_char h
  have hpnmem : ((0, 0), g.root) ∈ g.nodes := alookup_mem hroot
  obtain ⟨hnd, hOK⟩ := hInv.1
  have hok := hOK _ hpnmem
  have hkeys : ∀ p ∈ akeys g.nodes, p = ((0 : Int), (0 : Int)) := by
    intro p hp
    exact cellAt_singleton (hInv.2.1 p hp)
  have hP : ((cellSeq [[v]]).map cellPos) = [((0 : Int), (0 : Int))] := rfl
  have hedges := (hInv.2.2.2 _ hpnmem).1 (by rw [hP]; simp)
  have hedges2 : g.root.edges = [] := by
    rw [hedges]
    show edgesOf [[v]] (0 : Int).toNat (0 : Int).toNat
      ((cellAt [[v]] ((0 : Int), (0 : Int))).getD 0) = []
    rw [show cellAt [[v]] ((0 : Int), (0 : Int)) = some v from rfl]
    exact edgesOf_singleton v
  refine ⟨?_, hok.1, by simpa using hok.2.1, hedges2⟩
  cases hn : g.nodes with
  | nil => rw [hn] at hroot; cases hroot
  | cons pn t =>
    have hpn1 : pn.1 = ((0 : Int), (0 : Int)) := by
      apply hkeys
      rw [hn]
      exact List.mem_map_of_mem Prod.fst (List.mem_cons_self pn t)
    have ht : t = [] := by
      cases ht : t with
      | nil => rfl
      | cons qn t2 =>
        exfalso
        have hq1 : qn.1 = ((0 : Int), (0 : Int)) := by
          apply hkeys
          rw [hn, ht]
          exact List.mem_map_of_mem Prod.fst
            (List.mem_cons_of_mem pn (List.mem_cons_self qn t2))
        rw [hn, ht] at hnd
        have hmem2 : pn.1 ∈ akeys (qn :: t2) := by
          rw [hpn1, ← hq1]
          exact List.mem_map_of_mem Prod.fst (List.mem_cons_self qn t2)
        have hsplit : akeys (pn :: qn :: t2) = pn.1 :: akeys (qn :: t2) := rfl
        rw [hsplit] at hnd
        exact (List.nodup_cons.mp hnd).1 hmem2
    subst ht
    rw [hn] at hroot
    unfold alookup at hroot
    rw [if_pos hpn1] at hroot
    have hpn2 : pn.2 = g.root := Option.some.inj hroot
    obtain ⟨p1, p2⟩ := pn
    simp only at hpn1 hpn2
    rw [hpn1, hpn2]

/-- **C4** (corrected). On a 1x1 matrix `[[v]]` with `v != 1` (so that
construction succeeds) the start coincides with the goal, and only the three
uniform-cost variants return the single-node path `[start]` (whose cost is
`0`); `dfs`, `bfs`, `dijkstra` and `a_star` instead return the absence value
`None`, because `Graph._get_path` answers `None` whenever the goal node has
`None` recorded as its parent, which is always the case for the root. -/
theorem singleton_matrix_strategy_results (v : Nat) (hv : v ≠ 1) :
    ∃ g, buildGraph [[v]] (0, 0) (0, 0) = .ok g ∧
      posList [g.root] = [((0 : Int), (0 : Int))] ∧
      pathCost g (posList [g.root]) = some 0 ∧
      Returns (ucs_by_distance g) (some [g.root]) ∧
      Returns (ucs_by_jumps g) (some [g.root]) ∧
      Returns (ucs_by_value g) (some [g.root]) ∧
      Returns (dfs g) none ∧
      Returns (bfs g) none ∧
      Returns (dijkstra g) none ∧
      Returns (a_star g) none := by
  have hrect : Rect [[v]] 1 := by
    intro row hrow
    rw [List.mem_singleton] at hrow
    rw [hrow]
    rfl
  obtain ⟨g, hgok⟩ := buildGraph_ok_of_rect hrect (maxJump_singleton v) hv
    (show (cellAt [[v]] (0, 0)).isSome from rfl)
  obtain ⟨hnodes, hpos, hgoal, hedges⟩ := nodes_singleton hgok
  have hucs : ∀ inc : EdgeS → NodeS → Nat, ucsRun g inc 1 = some (some [g.root]) := by
    intro inc
    unfold ucsRun
    cases hr : g.root with
    | mk pos value heuristic isg edges =>
      rw [hr] at hpos hgoal
      simp only at hpos hgoal
      subst hpos
      subst hgoal
      rfl
  have hdfs : dfs g 1 = some none := by
    unfold dfs
    cases hr : g.root with
    | mk pos value heuristic isg edges =>
      rw [hr] at hpos hgoal
      simp only at hpos hgoal
      subst hpos
      subst hgoal
      rfl
  have hbfs : bfs g 1 = some none := by
    unfold bfs
    cases hr : g.root with
    | mk pos value heuristic isg edges =>
      rw [hr] at hpos hgoal
      simp only at hpos hgoal
      subst hpos
      subst hgoal
      rfl
  have hdij : dijkstra g 1 = some none := by
    unfold dijkstra dijkstraSeed
    rw [hnodes]
    cases hr : g.root with
    | mk pos value heuristic isg edges =>
      rw [hr] at hpos hgoal
      simp only at hpos hgoal
      subst hpos
      subst hgoal
      rfl
  have hast : a_star g 1 = some none := by
    unfold a_star
    cases hr : g.root with
    | mk pos value heuristic isg edges =>
      rw [hr] at hpos hgoal
      simp only at hpos hgoal
      subst hpos
      subst hgoal
      rfl
  refine ⟨g, hgok, ?_, rfl, ⟨1, hucs _⟩, ⟨1, hucs _⟩, ⟨1, hucs _⟩,
    ⟨1, hdfs⟩, ⟨1, hbfs⟩, ⟨1, hdij⟩, ⟨1, hast⟩⟩
  simp [posList, hpos]

/-- **C4** counterexample: already on the 1x1 matrix `[[2]]` (where start and
goal are both `(0, 0)`), `dfs` terminates and returns the absence value
`None` instead of the single-node path `[start]` the claim promises, because
the root's recorded parent is `None` and `Graph._get_path` then answers
`None`. -/
theorem singleton_matrix_strategy_results_cex :
    Except.map (fun g => dfs g 1) (buildGraph [[2]] (0, 0) (0, 0))
      = Except.ok (some none) := rfl

/-- Witness for C4's amended statement, at `v = 2`. -/
theorem singleton_matrix_strategy_results_witness :
    (2 ≠ 1) ∧
    (∃ g, buildGraph [[2]] (0, 0) (0, 0) = .ok g ∧
      posList [g.root] = [((0 : Int), (0 : Int))] ∧
      pathCost g (posList [g.root]) = some 0 ∧
      Returns (ucs_by_distance g) (some [g.root]) ∧
      Returns (ucs_by_jumps g) (some [g.root]) ∧
      Returns (ucs_by_value g) (some [g.root]) ∧
      Returns (dfs g) none ∧
      Returns (bfs g) none ∧
      Returns (dijkstra g) none ∧
      Returns (a_star g) none) :=
  ⟨by decide, singleton_matrix_strategy_results 2 (by decide)⟩

/-! ## Generic path-validity machinery -/

theorem wf_lookup {g : GraphS} {p : Pos} {n : NodeS} (hwf : WF g)
    (h : alookup g.nodes p = some n) :
    n.pos = p ∧ n.is_goal = decide (p = g.goal) ∧
      ∀ e ∈ n.edges, (alookup g.nodes e.dest).isSome ∧ e.length = n.value := by
  obtain ⟨maxJ, _, _, ⟨hnd, hOK⟩, _⟩ := hwf
  have hok := hOK _ (alookup_mem h)
  exact ⟨hok.1, hok.2.1, fun e he => ⟨(hok.2.2.2.2.2 e he).1, (hok.2.2.2.2.2 e he).2.1⟩⟩

theorem edgeTo_of_edge {g : GraphS} {node : NodeS} {e : EdgeS}
    (hn : alookup g.nodes node.pos = some node) (he : e ∈ node.edges) :
    (edgeTo g node.pos e.dest).isSome := by
  unfold edgeTo
  rw [hn]
  rw [Option.isSome_iff_exists]
  have hf : (node.edges.find? (fun x => decide (x.dest = e.dest))).isSome := by
    rw [List.find?_isSome]
    exact ⟨e, he, by simp⟩
  rw [Option.isSome_iff_exists] at hf
  obtain ⟨x, hx⟩ := hf
  exact ⟨x.length, by rw [Option.some_bind, hx]; rfl⟩

theorem edgeTo_node {g : GraphS} {u v : Pos} (h : (edgeTo g u v).isSome) :
    (alookup g.nodes u).isSome := by
  unfold edgeTo at h
  cases hl : alookup g.nodes u with
  | none => rw [hl] at h; cases h
  | some n => rfl

theorem chainOK_snoc {g : GraphS} :
    ∀ {l : List NodeS} {a b : NodeS}, chainOK g l → l.getLast? = some a →
      (edgeTo g a.pos b.pos).isSome → chainOK g (l ++ [b])
  | [], a, b => by intro _ hl _; cases hl
  | [x], a, b => by
    intro _ hl he
    rw [List.getLast?_singleton] at hl
    have hx : x = a := Option.some.inj hl
    subst hx
    exact ⟨he, trivial⟩
  | x :: y :: t, a, b => by
    intro hc hl he
    refine ⟨hc.1, ?_⟩
    exact chainOK_snoc hc.2 (by rw [← hl]; rfl) he

theorem pchain_snoc {parents : ParentMap} :
    ∀ {l : List NodeS} {a b : NodeS}, pchain parents l → l.getLast? = some a →
      alookup parents b.pos = some (some a) → pchain parents (l ++ [b])
  | [], a, b => by intro _ hl _; cases hl
  | [x], a, b => by
    intro _ hl he
    rw [List.getLast?_singleton] at hl
    have hx : x = a := Option.some.inj hl
    subst hx
    exact ⟨he, trivial⟩
  | x :: y :: t, a, b => by
    intro hc hl he
    refine ⟨hc.1, ?_⟩
    exact pchain_snoc hc.2 (by rw [← hl]; rfl) he

theorem pchain_chainOK {g : GraphS} {parents : ParentMap}
    (hE : ∀ q pn, alookup parents q = some (some pn) → (edgeTo g pn.pos q).isSome) :
    ∀ l, pchain parents l → chainOK g l
  | [] => by intro _; trivial
  | [_] => by intro _; trivial
  | a :: b :: t => by
    intro hc
    exact ⟨hE b.pos a hc.1, pchain_chainOK hE (b :: t) hc.2⟩

theorem pchain_entries {parents : ParentMap} :
    ∀ l, pchain parents l →
      (∀ hd, l.head? = some hd → (alookup parents hd.pos).isSome) →
      ∀ x ∈ l, (alookup parents x.pos).isSome
  | [] => by intro _ _ x hx; cases hx
  | [a] => by
    intro _ hh x hx
    rw [List.mem_singleton] at hx
    subst hx
    exact hh x rfl
  | a :: b :: t => by
    intro hc hh x hx
    rcases List.mem_cons.mp hx with h1 | h1
    · subst h1
      exact hh x rfl
    · exact pchain_entries (b :: t) hc.2
        (fun hd hhd => by
          have hb : b = hd := by simpa using hhd
          rw [← hb, hc.1]
          rfl) x h1

theorem chainOK_pathCost {g : GraphS} :
    ∀ l, chainOK g l → (pathCost g (posList l)).isSome
  | [] => by intro _; rfl
  | [_] => by intro _; rfl
  | a :: b :: t => by
    intro hc
    have hrec := chainOK_pathCost (b :: t) hc.2
    rw [Option.isSome_iff_exists] at hrec
    obtain ⟨c1, hc1⟩ := hrec
    have he := hc.1
    rw [Option.isSome_iff_exists] at he
    obtain ⟨l1, hl1⟩ := he
    rw [show posList (b :: t) = b.pos :: posList t from rfl] at hc1
    show (pathCost g (a.pos :: b.pos :: posList t)).isSome
    have hstep : pathCost g (a.pos :: b.pos :: posList t)
        = (edgeTo g a.pos b.pos).bind
          fun l => (pathCost g (b.pos :: posList t)).map (l + ·) := rfl
    rw [hstep]
    simp [hl1, hc1]

theorem head_append_of_some {α : Type} {l : List α} {hd : α} (l2 : List α)
    (h : l.head? = some hd) : (l ++ l2).head? = some hd := by
  cases l with
  | nil => cases h
  | cons a t => exact h

theorem pathWalk_spec (parents : ParentMap) :
    ∀ (fuel : Nat) (cur : NodeS) (acc : List NodeS) (r : List NodeS),
    pathWalk parents fuel (some cur) acc = some r →
    ∃ t hd, r = t ++ cur :: acc.reverse ∧ pchain parents (t ++ [cur]) ∧
      (t ++ [cur]).head? = some hd ∧ alookup parents hd.pos = some none
  | 0, cur, acc, r => by intro h; cases h
  | fuel + 1, cur, acc, r => by
    intro h
    rw [pathWalk] at h
    cases hl : alookup parents cur.pos with
    | none =>
      rw [hl] at h
      cases h
    | some par =>
      rw [hl] at h
      cases par with
      | none =>
        have h2 : pathWalk parents fuel none (acc ++ [cur]) = some r := h
        have h3 : pathWalk parents fuel none (acc ++ [cur])
            = some (acc ++ [cur]).reverse := by
          cases fuel with
          | zero => rfl
          | succ n => rfl
        rw [h3] at h2
        have hr : r = cur :: acc.reverse := by
          have := Option.some.inj h2
          rw [← this]
          simp
        exact ⟨[], cur, hr, trivial, rfl, hl⟩
      | some pn =>
        have h2 : pathWalk parents fuel (some pn) (acc ++ [cur]) = some r := h
        obtain ⟨t', hd, hr, hchain, hhead, hnone⟩ :=
          pathWalk_spec parents fuel pn (acc ++ [cur]) r h2
        refine ⟨t' ++ [pn], hd, ?_, ?_, ?_, hnone⟩
        · rw [hr]
          simp
        · exact pchain_snoc hchain (by simp) hl
        · exact head_append_of_some [cur] hhead

theorem getPath_valid {g : GraphS} {parents : ParentMap} {gn : NodeS}
    {fuel : Nat} {p : List NodeS}
    (hok : ParentsOK g parents) (hgoal : gn.pos = g.goal)
    (h : getPath parents (some gn) fuel = some (some p)) :
    IsPath g (posList p) g.start g.goal := by
  obtain ⟨hN, hE, hS⟩ := hok
  simp only [getPath] at h
  cases hl : alookup parents gn.pos with
  | none => rw [hl] at h; cases h
  | some par =>
    rw [hl] at h
    cases par with
    | none => cases Option.some.inj h
    | some pn0 =>
      cases hw : pathWalk parents fuel (some gn) [] with
      | none => rw [hw] at h; cases h
      | some w =>
        rw [hw] at h
        have hwp : w = p := by
          have := Option.some.inj h
          exact Option.some.inj this
        subst hwp
        obtain ⟨t, hd, hr, hchain, hhead, hnone⟩ :=
          pathWalk_spec parents fuel gn [] w hw
        subst hr
        rw [show t ++ gn :: ([] : List NodeS).reverse = t ++ [gn] from by simp]
        have htne : t ≠ [] := by
          intro ht
          subst ht
          have : gn = hd := by simpa using hhead
          subst this
          rw [hl] at hnone
          cases Option.some.inj hnone
        have hentries : ∀ x ∈ t ++ [gn], (alookup parents x.pos).isSome := by
          apply pchain_entries _ hchain
          intro hd2 hhd2
          rw [hhd2] at hhead
          have : hd2 = hd := Option.some.inj hhead
          subst this
          rw [hnone]
          rfl
        have hstart : hd.pos = g.start := by
          cases ht : t with
          | nil => exact absurd ht htne
          | cons h0 t0 =>
            subst ht
            have hh0 : h0 = hd := by simpa using hhead
            subst hh0
            cases ht0 : t0 with
            | nil =>
              have hlink : alookup parents gn.pos = some (some h0) := by
                have := hchain
                rw [ht0] at this
                exact this.1
              exact hS gn.pos h0 hlink hnone
            | cons h1 t1 =>
              have hlink : alookup parents h1.pos = some (some h0) := by
                have := hchain
                rw [ht0] at this
                exact this.1
              exact hS h1.pos h0 hlink hnone
        refine ⟨?_, ?_, ?_, ?_, ?_⟩
        · simp [posList]
        · rw [show posList (t ++ [gn]) = (t ++ [gn]).map (fun n => n.pos) from rfl]
          rw [List.head?_map, hhead]
          simp [hstart]
        · rw [show posList (t ++ [gn]) = (t ++ [gn]).map (fun n => n.pos) from rfl]
          rw [List.getLast?_map]
          rw [show (t ++ [gn]).getLast? = some gn by simp]
          simp [hgoal]
        · intro x hx
          rw [show posList (t ++ [gn]) = (t ++ [gn]).map (fun n => n.pos) from rfl]
            at hx
          rw [List.mem_map] at hx
          obtain ⟨y, hy, hyx⟩ := hx
          subst hyx
          have := hentries y hy
          rw [Option.isSome_iff_exists] at this
          obtain ⟨w2, hw2⟩ := this
          exact hN y.pos w2 hw2
        · exact chainOK_pathCost _ (pchain_chainOK hE _ hchain)

theorem parentsOKs_aupsert {g : GraphS} {parents : ParentMap} {q : Pos}
    {pn : NodeS} (hok : ParentsOKs g parents)
    (hq : (alookup g.nodes q).isSome) (he : (edgeTo g pn.pos q).isSome) :
    ParentsOKs g (aupsert parents q (some pn)) := by
  obtain ⟨hN, hE, hS⟩ := hok
  refine ⟨?_, ?_, ?_⟩
  · intro q2 w h2
    by_cases hqq : q2 = q
    · subst hqq
      exact hq
    · rw [alookup_aupsert_ne parents q q2 _ hqq] at h2
      exact hN q2 w h2
  · intro q2 pn2 h2
    by_cases hqq : q2 = q
    · subst hqq
      rw [alookup_aupsert_self] at h2
      have : pn2 = pn := by
        have := Option.some.inj h2
        exact (Option.some.inj this).symm
      subst this
      exact he
    · rw [alookup_aupsert_ne parents q q2 _ hqq] at h2
      exact hE q2 pn2 h2
  · intro q2 h2
    by_cases hqq : q2 = q
    · subst hqq
      rw [alookup_aupsert_self] at h2
      cases Option.some.inj h2
    · rw [alookup_aupsert_ne parents q q2 _ hqq] at h2
      exact hS q2 h2

theorem dfsExpand_inv {g : GraphS} (hwf : WF g) {node : NodeS}
    (hnode : alookup g.nodes node.pos = some node) :
    ∀ (es : List EdgeS) (stack : List NodeS) (visited : List Pos)
      (parents : ParentMap) (stack' : List NodeS) (parents' : ParentMap),
    (∀ e ∈ es, e ∈ node.edges) → NodesOf g stack → ParentsOKs g parents →
    dfsExpand g node visited es stack parents = some (stack', parents') →
    NodesOf g stack' ∧ ParentsOKs g parents'
  | [], stack, visited, parents, stack', parents' => by
    intro hes hstack hok h
    rw [dfsExpand] at h
    have h2 := Option.some.inj h
    rw [Prod.mk.injEq] at h2
    rw [← h2.1, ← h2.2]
    exact ⟨hstack, hok⟩
  | e :: rest, stack, visited, parents, stack', parents' => by
    intro hes hstack hok h
    rw [dfsExpand] at h
    cases hf : findNode g e.dest with
    | none => rw [hf] at h; cases h
    | some nb =>
      rw [hf] at h
      have hnb : alookup g.nodes nb.pos = some nb := by
        have := (wf_lookup hwf hf).1
        rw [this]
        exact hf
      by_cases hv : nb.pos ∈ visited
      · have h2 : dfsExpand g node visited rest stack parents
            = some (stack', parents') := by
          rw [← h]
          exact (if_pos hv).symm
        exact dfsExpand_inv hwf hnode rest stack visited parents stack' parents'
          (fun e2 he2 => hes e2 (List.mem_cons_of_mem e he2)) hstack hok h2
      · have h2 : dfsExpand g node visited rest (nb :: stack)
            (if (alookup parents nb.pos).isSome then parents
             else aupsert parents nb.pos (some node))
            = some (stack', parents') := by
          rw [← h]
          exact (if_neg hv).symm
        have hstack2 : NodesOf g (nb :: stack) := by
          intro n hn
          rcases List.mem_cons.mp hn with h1 | h1
          · subst h1
            exact hnb
          · exact hstack n h1
        have hok2 : ParentsOKs g
            (if (alookup parents nb.pos).isSome then parents
             else aupsert parents nb.pos (some node)) := by
          by_cases hps : (alookup parents nb.pos).isSome
          · rw [if_pos hps]
            exact hok
          · rw [if_neg hps]
            refine parentsOKs_aupsert hok (by rw [hnb]; rfl) ?_
            have hed := edgeTo_of_edge hnode (hes e (List.mem_cons_self e rest))
            have : nb.pos = e.dest := (wf_lookup hwf hf).1
            rw [this]
            exact hed
        exact dfsExpand_inv hwf hnode rest (nb :: stack) visited _ stack' parents'
          (fun e2 he2 => hes e2 (List.mem_cons_of_mem e he2)) hstack2 hok2 h2

theorem dfsLoop_inv {g : GraphS} (hwf : WF g) :
    ∀ (fuel : Nat) (stack : List NodeS) (visited : List Pos)
      (parents : ParentMap) (res : Option NodeS) (parents' : ParentMap),
    NodesOf g stack → ParentsOKs g parents →
    dfsLoop g fuel stack visited parents = some (res, parents') →
    ParentsOKs g parents' ∧ ∀ gn, res = some gn → gn.pos = g.goal
  | 0, _, _, _, _, _ => by intro _ _ h; cases h
  | fuel + 1, [], visited, parents, res, parents' => by
    intro hstack hok h
    rw [dfsLoop] at h
    have h2 := Option.some.inj h
    rw [Prod.mk.injEq] at h2
    rw [← h2.1, ← h2.2]
    exact ⟨hok, fun gn hgn => by cases hgn⟩
  | fuel + 1, node :: rest, visited, parents, res, parents' => by
    intro hstack hok h
    rw [dfsLoop] at h
    by_cases hg : node.is_goal
    · rw [if_pos hg] at h
      have h2 := Option.some.inj h
      rw [Prod.mk.injEq] at h2
      rw [← h2.1, ← h2.2]
      refine ⟨hok, fun gn hgn => ?_⟩
      have hng : node = gn := Option.some.inj hgn
      have hn := hstack node (List.mem_cons_self node rest)
      have hdec := (wf_lookup hwf hn).2.1
      rw [hg] at hdec
      rw [← hng]
      exact of_decide_eq_true hdec.symm
    · rw [if_neg hg] at h
      by_cases hv : node.pos ∈ visited
      · rw [if_pos hv] at h
        exact dfsLoop_inv hwf fuel rest visited parents res parents'
          (fun n hn => hstack n (List.mem_cons_of_mem node hn)) hok h
      · rw [if_neg hv] at h
        cases he : dfsExpand g node (node.pos :: visited) node.edges.reverse
            rest parents with
        | none => rw [he] at h; cases h
        | some sp =>
          rw [he] at h
          obtain ⟨stack2, parents2⟩ := sp
          have hn := hstack node (List.mem_cons_self node rest)
          obtain ⟨hstack2, hok2⟩ := dfsExpand_inv hwf hn node.edges.reverse rest
            (node.pos :: visited) parents stack2 parents2
            (fun e2 he2 => by rw [List.mem_reverse] at he2; exact he2)
            (fun n h2 => hstack n (List.mem_cons_of_mem node h2)) hok he
          exact dfsLoop_inv hwf fuel stack2 (node.pos :: visited) parents2
            res parents' hstack2 hok2 h

theorem dfs_valid {g : GraphS} (hwf : WF g) {fuel : Nat} {p : List NodeS}
    (h : dfs g fuel = some (some p)) :
    IsPath g (posList p) g.start g.goal := by
  unfold dfs at h
  cases hl : dfsLoop g fuel [g.root] [] [(g.root.pos, none)] with
  | none => rw [hl] at h; cases h
  | some st =>
    rw [hl] at h
    obtain ⟨res, parents⟩ := st
    obtain ⟨maxJ0, hmj0, hone0, hga0, hroot⟩ := id hwf
    have hrootpos : g.root.pos = g.start := (wf_lookup hwf hroot).1
    have hok0 : ParentsOKs g [(g.root.pos, none)] := by
      have hlk : ∀ q, alookup ([(g.root.pos, none)] : ParentMap) q
          = if g.root.pos = q then some (none : Option NodeS) else none :=
        fun q => rfl
      refine ⟨?_, ?_, ?_⟩
      · intro q w h2
        rw [hlk] at h2
        by_cases hq : g.root.pos = q
        · rw [← hq, hrootpos, hroot]
          rfl
        · rw [if_neg hq] at h2
          cases h2
      · intro q pn h2
        rw [hlk] at h2
        by_cases hq : g.root.pos = q
        · rw [if_pos hq] at h2
          cases Option.some.inj h2
        · rw [if_neg hq] at h2
          cases h2
      · intro q h2
        rw [hlk] at h2
        by_cases hq : g.root.pos = q
        · rw [← hq, hrootpos]
        · rw [if_neg hq] at h2
          cases h2
    have hroots : NodesOf g [g.root] := by
      intro n hn
      rw [List.mem_singleton] at hn
      subst hn
      rw [hrootpos]
      exact hroot
    obtain ⟨hok, hgoal⟩ := dfsLoop_inv hwf fuel [g.root] [] [(g.root.pos, none)]
      res parents hroots hok0 hl
    cases res with
    | none => cases Option.some.inj h
    | some gn =>
      exact getPath_valid ⟨hok.1, hok.2.1, fun q pn h1 h2 => hok.2.2 pn.pos h2⟩
        (hgoal gn rfl) h

theorem bfsExpand_inv {g : GraphS} (hwf : WF g) {node : NodeS}
    (hnode : alookup g.nodes node.pos = some node) :
    ∀ (es : List EdgeS) (queue : List NodeS) (visited : List Pos)
      (parents : ParentMap) (queue' : List NodeS) (visited' : List Pos)
      (parents' : ParentMap),
    (∀ e ∈ es, e ∈ node.edges) → NodesOf g queue → ParentsOKs g parents →
    bfsExpand g node es queue visited parents = some (queue', visited', parents') →
    NodesOf g queue' ∧ ParentsOKs g parents'
  | [], queue, visited, parents, queue', visited', parents' => by
    intro hes hq hok h
    rw [bfsExpand] at h
    have h2 := Option.some.inj h
    rw [Prod.mk.injEq] at h2
    obtain ⟨hq1, h2⟩ := h2
    rw [Prod.mk.injEq] at h2
    rw [← hq1, ← h2.2]
    exact ⟨hq, hok⟩
  | e :: rest, queue, visited, parents, queue', visited', parents' => by
    intro hes hq hok h
    rw [bfsExpand] at h
    cases hf : findNode g e.dest with
    | none => rw [hf] at h; cases h
    | some nb =>
      rw [hf] at h
      have hnb : alookup g.nodes nb.pos = some nb := by
        have := (wf_lookup hwf hf).1
        rw [this]
        exact hf
      by_cases hv : nb.pos ∈ visited
      · have h2 : bfsExpand g node rest queue visited parents
            = some (queue', visited', parents') := by
          rw [← h]
          exact (if_pos hv).symm
        exact bfsExpand_inv hwf hnode rest queue visited parents queue' visited'
          parents' (fun e2 he2 => hes e2 (List.mem_cons_of_mem e he2)) hq hok h2
      · have h2 : bfsExpand g node rest (queue ++ [nb]) (nb.pos :: visited)
            (aupsert parents nb.pos (some node))
            = some (queue', visited', parents') := by
          rw [← h]
          exact (if_neg hv).symm
        have hq2 : NodesOf g (queue ++ [nb]) := by
          intro n hn
          rcases List.mem_append.mp hn with h1 | h1
          · exact hq n h1
          · rw [List.mem_singleton] at h1
            subst h1
            exact hnb
        have hok2 : ParentsOKs g (aupsert parents nb.pos (some node)) := by
          refine parentsOKs_aupsert hok (by rw [hnb]; rfl) ?_
          have hed := edgeTo_of_edge hnode (hes e (List.mem_cons_self e rest))
          have : nb.pos = e.dest := (wf_lookup hwf hf).1
          rw [this]
          exact hed
        exact bfsExpand_inv hwf hnode rest (queue ++ [nb]) (nb.pos :: visited) _
          queue' visited' parents'
          (fun e2 he2 => hes e2 (List.mem_cons_of_mem e he2)) hq2 hok2 h2

theorem bfsLoop_inv {g : GraphS} (hwf : WF g) :
    ∀ (fuel : Nat) (queue : List NodeS) (visited : List Pos)
      (parents : ParentMap) (res : Option NodeS) (parents' : ParentMap),
    NodesOf g queue → ParentsOKs g parents →
    bfsLoop g fuel queue visited parents = some (res, parents') →
    ParentsOKs g parents' ∧ ∀ gn, res = some gn → gn.pos = g.goal
  | 0, _, _, _, _, _ => by intro _ _ h; cases h
  | fuel + 1, [], visited, parents, res, parents' => by
    intro hq hok h
    rw [bfsLoop] at h
    have h2 := Option.some.inj h
    rw [Prod.mk.injEq] at h2
    rw [← h2.1, ← h2.2]
    exact ⟨hok, fun gn hgn => by cases hgn⟩
  | fuel + 1, node :: rest, visited, parents, res, parents' => by
    intro hq hok h
    rw [bfsLoop] at h
    by_cases hg : node.is_goal
    · rw [if_pos hg] at h
      have h2 := Option.some.inj h
      rw [Prod.mk.injEq] at h2
      rw [← h2.1, ← h2.2]
      refine ⟨hok, fun gn hgn => ?_⟩
      have hng : node = gn := Option.some.inj hgn
      have hn := hq node (List.mem_cons_self node rest)
      have hdec := (wf_lookup hwf hn).2.1
      rw [hg] at hdec
      rw [← hng]
      exact of_decide_eq_true hdec.symm
    · rw [if_neg hg] at h
      cases he : bfsExpand g node node.edges rest visited parents with
      | none => rw [he] at h; cases h
      | some sp =>
        rw [he] at h
        obtain ⟨queue2, visited2, parents2⟩ := sp
        have hn := hq node (List.mem_cons_self node rest)
        obtain ⟨hq2, hok2⟩ := bfsExpand_inv hwf hn node.edges rest visited
          parents queue2 visited2 parents2 (fun e2 he2 => he2)
          (fun n h2 => hq n (List.mem_cons_of_mem node h2)) hok he
        exact bfsLoop_inv hwf fuel queue2 visited2 parents2 res parents'
          hq2 hok2 h

theorem bfs_valid {g : GraphS} (hwf : WF g) {fuel : Nat} {p : List NodeS}
    (h : bfs g fuel = some (some p)) :
    IsPath g (posList p) g.start g.goal := by
  unfold bfs at h
  cases hl : bfsLoop g fuel [g.root] [g.root.pos] [(g.root.pos, none)] with
  | none => rw [hl] at h; cases h
  | some st =>
    rw [hl] at h
    obtain ⟨res, parents⟩ := st
    obtain ⟨maxJ0, hmj0, hone0, hga0, hroot⟩ := id hwf
    have hrootpos : g.root.pos = g.start := (wf_lookup hwf hroot).1
    have hok0 : ParentsOKs g [(g.root.pos, none)] := by
      have hlk : ∀ q, alookup ([(g.root.pos, none)] : ParentMap) q
          = if g.root.pos = q then some (none : Option NodeS) else none :=
        fun q => rfl
      refine ⟨?_, ?_, ?_⟩
      · intro q w h2
        rw [hlk] at h2
        by_cases hq : g.root.pos = q
        · rw [← hq, hrootpos, hroot]
          rfl
        · rw [if_neg hq] at h2
          cases h2
      · intro q pn h2
        rw [hlk] at h2
        by_cases hq : g.root.pos = q
        · rw [if_pos hq] at h2
          cases Option.some.inj h2
        · rw [if_neg hq] at h2
          cases h2
      · intro q h2
        rw [hlk] at h2
        by_cases hq : g.root.pos = q
        · rw [← hq, hrootpos]
        · rw [if_neg hq] at h2
          cases h2
    have hroots : NodesOf g [g.root] := by
      intro n hn
      rw [List.mem_singleton] at hn
      subst hn
      rw [hrootpos]
      exact hroot
    obtain ⟨hok, hgoal⟩ := bfsLoop_inv hwf fuel [g.root] [g.root.pos]
      [(g.root.pos, none)] res parents hroots hok0 hl
    cases res with
    | none => cases Option.some.inj h
    | some gn =>
      exact getPath_valid ⟨hok.1, hok.2.1, fun q pn h1 h2 => hok.2.2 pn.pos h2⟩
        (hgoal gn rfl) h

theorem getLast_opt_mem {α : Type} :
    ∀ {l : List α} {a : α}, l.getLast? = some a → a ∈ l
  | [], a => by intro h; cases h
  | [x], a => by
    intro h
    have : x = a := by simpa using h
    rw [this]
    exact List.mem_singleton_self a
  | x :: y :: t, a => by
    intro h
    rw [List.getLast?_cons_cons] at h
    exact List.mem_cons_of_mem x (getLast_opt_mem h)

theorem ucsExpand_inv {g : GraphS} (hwf : WF g) {node : NodeS} {total : Nat}
    {path : List NodeS} (inc : EdgeS → NodeS → Nat)
    (hnode : alookup g.nodes node.pos = some node)
    (hen : UcsPathOK g (total, node, path)) :
    ∀ (es : List EdgeS) (visited : List Pos) (pq pq' : List UcsEntry),
    (∀ e ∈ es, e ∈ node.edges) → (∀ en ∈ pq, UcsPathOK g en) →
    ucsExpand g inc total path visited es pq = some pq' →
    ∀ en ∈ pq', UcsPathOK g en
  | [], visited, pq, pq' => by
    intro hes hpq h
    rw [ucsExpand] at h
    have h2 := Option.some.inj h
    rw [← h2]
    exact hpq
  | e :: rest, visited, pq, pq' => by
    intro hes hpq h
    rw [ucsExpand] at h
    cases hf : findNode g e.dest with
    | none => rw [hf] at h; cases h
    | some nb =>
      rw [hf] at h
      have hnb : alookup g.nodes nb.pos = some nb := by
        have := (wf_lookup hwf hf).1
        rw [this]
        exact hf
      by_cases hv : nb.pos ∈ visited
      · have h2 : ucsExpand g inc total path visited rest pq = some pq' := by
          rw [← h]
          exact (if_pos hv).symm
        exact ucsExpand_inv hwf inc hnode hen rest visited pq pq'
          (fun e2 he2 => hes e2 (List.mem_cons_of_mem e he2)) hpq h2
      · have h2 : ucsExpand g inc total path visited rest
            (pq ++ [(total + inc e nb, nb, path ++ [nb])]) = some pq' := by
          rw [← h]
          exact (if_neg hv).symm
        obtain ⟨hne, hlast, hchain, ⟨hd, hhd, hhds⟩, hnodes⟩ := id hen
        have hpq2 : ∀ en ∈ pq ++ [(total + inc e nb, nb, path ++ [nb])],
            UcsPathOK g en := by
          intro en hen2
          rcases List.mem_append.mp hen2 with h1 | h1
          · exact hpq en h1
          · rw [List.mem_singleton] at h1
            subst h1
            have hedge : (edgeTo g node.pos nb.pos).isSome := by
              have hed := edgeTo_of_edge hnode (hes e (List.mem_cons_self e rest))
              have : nb.pos = e.dest := (wf_lookup hwf hf).1
              rw [this]
              exact hed
            refine ⟨by simp, by simp, chainOK_snoc hchain hlast hedge,
              ⟨hd, head_append_of_some [nb] hhd, hhds⟩, ?_⟩
            intro x hx
            rcases List.mem_append.mp hx with h1 | h1
            · exact hnodes x h1
            · rw [List.mem_singleton] at h1
              subst h1
              exact hnb
        exact ucsExpand_inv hwf inc hnode hen rest visited _ pq'
          (fun e2 he2 => hes e2 (List.mem_cons_of_mem e he2)) hpq2 h2

theorem ucsLoop_inv {g : GraphS} (hwf : WF g) (inc : EdgeS → NodeS → Nat) :
    ∀ (fuel : Nat) (visited : List Pos) (pq : List UcsEntry) (p : List NodeS),
    (∀ en ∈ pq, UcsPathOK g en) →
    ucsLoop g inc fuel visited pq = some (some p) →
    IsPath g (posList p) g.start g.goal
  | 0, _, _, _ => by intro _ h; cases h
  | fuel + 1, visited, [], p => by
    intro hpq h
    rw [ucsLoop] at h
    cases Option.some.inj h
  | fuel + 1, visited, e :: pqt, p => by
    intro hpq h
    rw [ucsLoop] at h <;> try exact fun hcon => List.noConfusion hcon
    cases hp : popMinBy (fun (x : UcsEntry) => x.1) (fun a b => decide (a ≤ b))
        (e :: pqt) with
    | none =>
      rw [hp] at h
      cases Option.some.inj h
    | some mp =>
      obtain ⟨⟨total, node, path⟩, pq'⟩ := mp
      rw [hp] at h
      simp only [] at h
      have hperm := popMinBy_perm (fun (x : UcsEntry) => x.1)
        (fun a b => decide (a ≤ b)) (e :: pqt) (total, node, path) pq' hp
      have hmem : (total, node, path) ∈ e :: pqt :=
        hperm.mem_iff.mpr (List.mem_cons_self _ pq')
      have hen := hpq _ hmem
      have hnodemem : node ∈ path := by
        have := hen.2.1
        exact getLast_opt_mem this
      have hnode : alookup g.nodes node.pos = some node :=
        hen.2.2.2.2 node hnodemem
      by_cases hg : node.is_goal
      · rw [if_pos hg] at h
        have hpp : path = p := Option.some.inj (Option.some.inj h)
        subst hpp
        obtain ⟨hne, hlast, hchain, ⟨hd, hhd, hhds⟩, hnodes⟩ := hen
        have hgoalpos : node.pos = g.goal := by
          have hdec := (wf_lookup hwf hnode).2.1
          rw [hg] at hdec
          exact of_decide_eq_true hdec.symm
        refine ⟨?_, ?_, ?_, ?_, ?_⟩
        · simp only [posList, ne_eq, List.map_eq_nil_iff]
          exact hne
        · rw [show posList path = path.map (fun n => n.pos) from rfl]
          rw [List.head?_map, hhd]
          simp [hhds]
        · rw [show posList path = path.map (fun n => n.pos) from rfl]
          rw [List.getLast?_map, hlast]
          simp [hgoalpos]
        · intro x hx
          rw [show posList path = path.map (fun n => n.pos) from rfl] at hx
          rw [List.mem_map] at hx
          obtain ⟨y, hy, hyx⟩ := hx
          subst hyx
          rw [hnodes y hy]
          rfl
        · exact chainOK_pathCost _ hchain
      · rw [if_neg hg] at h
        cases he : ucsExpand g inc total path
            (if node.pos ∈ visited then visited else node.pos :: visited)
            node.edges pq' with
        | none => rw [he] at h; cases h
        | some pq2 =>
          rw [he] at h
          have hpq2 := ucsExpand_inv hwf inc hnode hen node.edges _ pq' pq2
            (fun e2 he2 => he2)
            (fun en hen2 => hpq en (hperm.mem_iff.mpr (List.mem_cons_of_mem _ hen2)))
            he
          exact ucsLoop_inv hwf inc fuel _ pq2 p hpq2 h

theorem ucsRun_valid {g : GraphS} (hwf : WF g)
    (inc : EdgeS → NodeS → Nat) {fuel : Nat} {p : List NodeS}
    (h : ucsRun g inc fuel = some (some p)) :
    IsPath g (posList p) g.start g.goal := by
  obtain ⟨maxJ0, hmj0, hone0, hga0, hroot⟩ := id hwf
  have hrootpos : g.root.pos = g.start := (wf_lookup hwf hroot).1
  refine ucsLoop_inv hwf inc fuel [] [(0, g.root, [g.root])] p ?_ h
  intro en hen
  rw [List.mem_singleton] at hen
  subst hen
  exact ⟨by simp, rfl, trivial, ⟨g.root, rfl, hrootpos⟩,
    fun x hx => by
      rw [List.mem_singleton] at hx
      subst hx
      rw [hrootpos]
      exact hroot⟩

theorem dinv_parentsOK {g : GraphS} {dist : DistMap} {parents : ParentMap}
    (h : DInv g dist parents) : ParentsOK g parents := by
  refine ⟨h.1, fun q pn hq => (h.2.1 q pn hq).1, fun q pn hq hnone => ?_⟩
  obtain ⟨d, hd⟩ := (h.2.1 q pn hq).2
  rcases h.2.2 pn.pos hnone with h1 | h1
  · exact h1
  · rw [hd] at h1
    cases Option.some.inj h1

theorem dijkstraRelax_inv {g : GraphS} (hwf : WF g) {node : NodeS}
    (hnode : alookup g.nodes node.pos = some node) :
    ∀ (es : List EdgeS) (dist : DistMap) (parents : ParentMap)
      (pq : List (Dist × NodeS)) (dist' : DistMap) (parents' : ParentMap)
      (pq' : List (Dist × NodeS)),
    (∀ e ∈ es, e ∈ node.edges) → DInv g dist parents →
    (∀ en ∈ pq, alookup g.nodes en.2.pos = some en.2) →
    dijkstraRelax g node es dist parents pq = some (dist', parents', pq') →
    DInv g dist' parents' ∧ ∀ en ∈ pq', alookup g.nodes en.2.pos = some en.2
  | [], dist, parents, pq, dist', parents', pq' => by
    intro hes hinv hpq h
    rw [dijkstraRelax] at h
    have h2 := Option.some.inj h
    rw [Prod.mk.injEq] at h2
    obtain ⟨hd1, h2⟩ := h2
    rw [Prod.mk.injEq] at h2
    rw [← hd1, ← h2.1, ← h2.2]
    exact ⟨hinv, hpq⟩
  | e :: rest, dist, parents, pq, dist', parents', pq' => by
    intro hes hinv hpq h
    rw [dijkstraRelax] at h
    cases hf : findNode g e.dest with
    | none => rw [hf] at h; cases h
    | some nb =>
      rw [hf] at h
      simp only [] at h
      have hnb : alookup g.nodes nb.pos = some nb := by
        have := (wf_lookup hwf hf).1
        rw [this]
        exact hf
      cases hdn : alookup dist node.pos with
      | none => rw [hdn] at h; cases h
      | some dn =>
        rw [hdn] at h
        simp only [] at h
        cases hdnb : alookup dist nb.pos with
        | none => rw [hdnb] at h; cases h
        | some dnb =>
          rw [hdnb] at h
          simp only [] at h
          by_cases hlt : ltD (addD dn e.length) dnb = true
          · rw [if_pos hlt] at h
            obtain ⟨nd, hnd⟩ : ∃ nd, addD dn e.length = some nd := by
              cases dn with
              | none => rw [show addD none e.length = none from rfl] at hlt; cases hlt
              | some d0 => exact ⟨d0 + e.length, rfl⟩
            obtain ⟨d0, hd0⟩ : ∃ d0, dn = some d0 := by
              cases dn with
              | none => rw [show addD none e.length = none from rfl] at hlt; cases hlt
              | some d0 => exact ⟨d0, rfl⟩
            have hinv2 : DInv g (aupsert dist nb.pos (addD dn e.length))
                (aupsert parents nb.pos (some node)) := by
              obtain ⟨hN, hE, hS⟩ := hinv
              refine ⟨?_, ?_, ?_⟩
              · intro q w h2
                by_cases hq : q = nb.pos
                · subst hq
                  rw [hnb]
                  rfl
                · rw [alookup_aupsert_ne parents nb.pos q _ hq] at h2
                  exact hN q w h2
              · intro q pn h2
                by_cases hq : q = nb.pos
                · subst hq
                  rw [alookup_aupsert_self] at h2
                  have hpn : pn = node := by
                    have := Option.some.inj h2
                    exact (Option.some.inj this).symm
                  rw [hpn]
                  constructor
                  · have hed := edgeTo_of_edge hnode
                      (hes e (List.mem_cons_self e rest))
                    have hde : nb.pos = e.dest := (wf_lookup hwf hf).1
                    rw [hde]
                    exact hed
                  · by_cases hqq : node.pos = nb.pos
                    · refine ⟨nd, ?_⟩
                      rw [hqq, alookup_aupsert_self, hnd]
                    · refine ⟨d0, ?_⟩
                      rw [alookup_aupsert_ne dist nb.pos node.pos _ hqq, hdn, hd0]
                · rw [alookup_aupsert_ne parents nb.pos q _ hq] at h2
                  obtain ⟨hed, d1, hd1⟩ := hE q pn h2
                  refine ⟨hed, ?_⟩
                  by_cases hqq : pn.pos = nb.pos
                  · refine ⟨nd, ?_⟩
                    rw [hqq, alookup_aupsert_self, hnd]
                  · refine ⟨d1, ?_⟩
                    rw [alookup_aupsert_ne dist nb.pos pn.pos _ hqq]
                    exact hd1
              · intro q h2
                by_cases hq : q = nb.pos
                · subst hq
                  rw [alookup_aupsert_self] at h2
                  cases Option.some.inj h2
                · rw [alookup_aupsert_ne parents nb.pos q _ hq] at h2
                  rcases hS q h2 with h1 | h1
                  · exact Or.inl h1
                  · refine Or.inr ?_
                    rw [alookup_aupsert_ne dist nb.pos q _ hq]
                    exact h1
            have hpq2 : ∀ en ∈ pq ++ [(addD dn e.length, nb)],
                alookup g.nodes en.2.pos = some en.2 := by
              intro en hen
              rcases List.mem_append.mp hen with h1 | h1
              · exact hpq en h1
              · rw [List.mem_singleton] at h1
                subst h1
                exact hnb
            exact dijkstraRelax_inv hwf hnode rest _ _ _ dist' parents' pq'
              (fun e2 he2 => hes e2 (List.mem_cons_of_mem e he2)) hinv2 hpq2 h
          · rw [if_neg hlt] at h
            exact dijkstraRelax_inv hwf hnode rest dist parents pq dist'
              parents' pq'
              (fun e2 he2 => hes e2 (List.mem_cons_of_mem e he2)) hinv hpq h

theorem dijkstraLoop_inv {g : GraphS} (hwf : WF g) :
    ∀ (fuel : Nat) (dist : DistMap) (parents : ParentMap)
      (pq : List (Dist × NodeS)) (res : Option NodeS) (parents' : ParentMap),
    DInv g dist parents →
    (∀ en ∈ pq, alookup g.nodes en.2.pos = some en.2) →
    dijkstraLoop g fuel dist parents pq = some (res, parents') →
    (∃ dist2, DInv g dist2 parents') ∧ ∀ gn, res = some gn → gn.pos = g.goal
  | 0, _, _, _, _, _ => by intro _ _ h; cases h
  | fuel + 1, dist, parents, [], res, parents' => by
    intro hinv hpq h
    rw [dijkstraLoop] at h
    have h2 := Option.some.inj h
    rw [Prod.mk.injEq] at h2
    rw [← h2.1, ← h2.2]
    exact ⟨⟨dist, hinv⟩, fun gn hgn => by cases hgn⟩
  | fuel + 1, dist, parents, e :: pqt, res, parents' => by
    intro hinv hpq h
    rw [dijkstraLoop] at h <;> try exact fun hcon => List.noConfusion hcon
    cases hp : popMinBy (fun (x : Dist × NodeS) => x.1) leD (e :: pqt) with
    | none =>
      rw [hp] at h
      have h2 := Option.some.inj h
      rw [Prod.mk.injEq] at h2
      rw [← h2.1, ← h2.2]
      exact ⟨⟨dist, hinv⟩, fun gn hgn => by cases hgn⟩
    | some mp =>
      obtain ⟨⟨k, node⟩, pq'⟩ := mp
      rw [hp] at h
      simp only [] at h
      have hperm := popMinBy_perm (fun (x : Dist × NodeS) => x.1) leD
        (e :: pqt) (k, node) pq' hp
      have hmem : (k, node) ∈ e :: pqt :=
        hperm.mem_iff.mpr (List.mem_cons_self _ pq')
      have hnode : alookup g.nodes node.pos = some node := hpq _ hmem
      by_cases hg : node.is_goal
      · rw [if_pos hg] at h
        have h2 := Option.some.inj h
        rw [Prod.mk.injEq] at h2
        rw [← h2.1, ← h2.2]
        refine ⟨⟨dist, hinv⟩, fun gn hgn => ?_⟩
        have hng : node = gn := Option.some.inj hgn
        have hdec := (wf_lookup hwf hnode).2.1
        rw [hg] at hdec
        rw [← hng]
        exact of_decide_eq_true hdec.symm
      · rw [if_neg hg] at h
        cases he : dijkstraRelax g node node.edges dist parents pq' with
        | none => rw [he] at h; cases h
        | some dpq =>
          rw [he] at h
          obtain ⟨dist2, parents2, pq2⟩ := dpq
          obtain ⟨hinv2, hpq2⟩ := dijkstraRelax_inv hwf hnode node.edges dist
            parents pq' dist2 parents2 pq2 (fun e2 he2 => he2) hinv
            (fun en hen => hpq en (hperm.mem_iff.mpr (List.mem_cons_of_mem _ hen)))
            he
          exact dijkstraLoop_inv hwf fuel dist2 parents2 pq2 res parents'
            hinv2 hpq2 h

theorem dijkstraSeed_fold_inv {g : GraphS} (hwf : WF g) :
    ∀ (l : List (Pos × NodeS)) (dist : DistMap) (parents : ParentMap)
      (pq : List (Dist × NodeS)),
    (∀ pn ∈ l, pn ∈ g.nodes) →
    DInv g dist parents →
    (∀ q w, alookup parents q = some w → w = none) →
    (∀ en ∈ pq, alookup g.nodes en.2.pos = some en.2) →
    DInv g (l.foldl
      (fun st pn =>
        if pn.2.pos = g.root.pos then st
        else (aupsert st.1 pn.2.pos none, aupsert st.2.1 pn.2.pos none,
              st.2.2 ++ [(none, pn.2)]))
      (dist, parents, pq)).1
      (l.foldl
      (fun st pn =>
        if pn.2.pos = g.root.pos then st
        else (aupsert st.1 pn.2.pos none, aupsert st.2.1 pn.2.pos none,
              st.2.2 ++ [(none, pn.2)]))
      (dist, parents, pq)).2.1 ∧
    ∀ en ∈ (l.foldl
      (fun st pn =>
        if pn.2.pos = g.root.pos then st
        else (aupsert st.1 pn.2.pos none, aupsert st.2.1 pn.2.pos none,
              st.2.2 ++ [(none, pn.2)]))
      (dist, parents, pq)).2.2, alookup g.nodes en.2.pos = some en.2
  | [], dist, parents, pq => by
    intro hl hinv hnone hpq
    exact ⟨hinv, hpq⟩
  | pn :: t, dist, parents, pq => by
    intro hl hinv hnone hpq
    rw [List.foldl_cons]
    by_cases hroot : pn.2.pos = g.root.pos
    · rw [if_pos hroot]
      exact dijkstraSeed_fold_inv hwf t dist parents pq
        (fun qn hqn => hl qn (List.mem_cons_of_mem pn hqn)) hinv hnone hpq
    · rw [if_neg hroot]
      have hpnn : alookup g.nodes pn.2.pos = some pn.2 := by
        obtain ⟨maxJ0, hmj0, hone0, ⟨hnd, hOK⟩, hroot0⟩ := id hwf
        have hmem := hl pn (List.mem_cons_self pn t)
        have hlk := alookup_of_mem_nodup hmem hnd
        have hpos : pn.2.pos = pn.1 := (hOK pn hmem).1
        rw [hpos]
        exact hlk
      have hinv2 : DInv g (aupsert dist pn.2.pos none)
          (aupsert parents pn.2.pos none) := by
        obtain ⟨hN, hE, hS⟩ := hinv
        refine ⟨?_, ?_, ?_⟩
        · intro q w h2
          by_cases hq : q = pn.2.pos
          · subst hq
            rw [hpnn]
            rfl
          · rw [alookup_aupsert_ne parents pn.2.pos q _ hq] at h2
            exact hN q w h2
        · intro q pn2 h2
          by_cases hq : q = pn.2.pos
          · subst hq
            rw [alookup_aupsert_self] at h2
            cases Option.some.inj h2
          · rw [alookup_aupsert_ne parents pn.2.pos q _ hq] at h2
            have := hnone q _ h2
            cases this
        · intro q h2
          by_cases hq : q = pn.2.pos
          · subst hq
            refine Or.inr ?_
            rw [alookup_aupsert_self]
          · rw [alookup_aupsert_ne parents pn.2.pos q _ hq] at h2
            rcases hS q h2 with h1 | h1
            · exact Or.inl h1
            · refine Or.inr ?_
              rw [alookup_aupsert_ne dist pn.2.pos q _ hq]
              exact h1
      have hnone2 : ∀ q w, alookup (aupsert parents pn.2.pos none) q = some w →
          w = none := by
        intro q w h2
        by_cases hq : q = pn.2.pos
        · subst hq
          rw [alookup_aupsert_self] at h2
          exact (Option.some.inj h2).symm
        · rw [alookup_aupsert_ne parents pn.2.pos q _ hq] at h2
          exact hnone q w h2
      have hpq2 : ∀ en ∈ pq ++ [((none : Dist), pn.2)],
          alookup g.nodes en.2.pos = some en.2 := by
        intro en hen
        rcases List.mem_append.mp hen with h1 | h1
        · exact hpq en h1
        · rw [List.mem_singleton] at h1
          subst h1
          exact hpnn
      exact dijkstraSeed_fold_inv hwf t _ _ _
        (fun qn hqn => hl qn (List.mem_cons_of_mem pn hqn)) hinv2 hnone2 hpq2

theorem dijkstra_valid {g : GraphS} (hwf : WF g) {fuel : Nat} {p : List NodeS}
    (h : dijkstra g fuel = some (some p)) :
    IsPath g (posList p) g.start g.goal := by
  obtain ⟨maxJ0, hmj0, hone0, hga0, hroot⟩ := id hwf
  have hrootpos : g.root.pos = g.start := (wf_lookup hwf hroot).1
  have hinv0 : DInv g [(g.root.pos, some 0)] [(g.root.pos, none)] := by
    have hlk : ∀ q, alookup ([(g.root.pos, none)] : ParentMap) q
        = if g.root.pos = q then some (none : Option NodeS) else none :=
      fun q => rfl
    refine ⟨?_, ?_, ?_⟩
    · intro q w h2
      rw [hlk] at h2
      by_cases hq : g.root.pos = q
      · rw [← hq, hrootpos, hroot]
        rfl
      · rw [if_neg hq] at h2
        cases h2
    · intro q pn h2
      rw [hlk] at h2
      by_cases hq : g.root.pos = q
      · rw [if_pos hq] at h2
        cases Option.some.inj h2
      · rw [if_neg hq] at h2
        cases h2
    · intro q h2
      rw [hlk] at h2
      by_cases hq : g.root.pos = q
      · exact Or.inl (by rw [← hq, hrootpos])
      · rw [if_neg hq] at h2
        cases h2
  have hnone0 : ∀ q w, alookup ([(g.root.pos, none)] : ParentMap) q = some w →
      w = none := by
    intro q w h2
    have hlk : alookup ([(g.root.pos, none)] : ParentMap) q
        = if g.root.pos = q then some (none : Option NodeS) else none := rfl
    rw [hlk] at h2
    by_cases hq : g.root.pos = q
    · rw [if_pos hq] at h2
      exact (Option.some.inj h2).symm
    · rw [if_neg hq] at h2
      cases h2
  have hpq0 : ∀ en ∈ [((some 0 : Dist), g.root)],
      alookup g.nodes en.2.pos = some en.2 := by
    intro en hen
    rw [List.mem_singleton] at hen
    subst hen
    rw [hrootpos]
    exact hroot
  have hseedinv := dijkstraSeed_fold_inv hwf g.nodes [(g.root.pos, some 0)]
    [(g.root.pos, none)] [((some 0 : Dist), g.root)] (fun pn hpn => hpn)
    hinv0 hnone0 hpq0
  unfold dijkstra at h
  cases hseed : dijkstraSeed g with
  | mk dist rest =>
    obtain ⟨parents0, pq0⟩ := rest
    rw [hseed] at h
    simp only [] at h
    have hseedeq : dijkstraSeed g = (dist, parents0, pq0) := hseed
    rw [show dijkstraSeed g = g.nodes.foldl
      (fun st pn =>
        if pn.2.pos = g.root.pos then st
        else (aupsert st.1 pn.2.pos none, aupsert st.2.1 pn.2.pos none,
              st.2.2 ++ [(none, pn.2)]))
      ([(g.root.pos, some 0)], [(g.root.pos, none)], [((some 0 : Dist), g.root)])
      from rfl] at hseedeq
    rw [hseedeq] at hseedinv
    cases hl : dijkstraLoop g fuel dist parents0 pq0 with
    | none => rw [hl] at h; cases h
    | some st =>
      rw [hl] at h
      obtain ⟨res, parents⟩ := st
      obtain ⟨⟨dist2, hinv2⟩, hgoal⟩ := dijkstraLoop_inv hwf fuel dist parents0
        pq0 res parents hseedinv.1 hseedinv.2 hl
      cases res with
      | none => cases Option.some.inj h
      | some gn =>
        exact getPath_valid (dinv_parentsOK hinv2) (hgoal gn rfl) h

theorem aStarRelax_inv {g : GraphS} (hwf : WF g) {node : NodeS}
    (hnode : alookup g.nodes node.pos = some node) :
    ∀ (es : List EdgeS) (gs : List (Pos × Nat)) (fs : List (Pos × Int))
      (parents : ParentMap) (pq : List (Int × NodeS))
      (gs' : List (Pos × Nat)) (fs' : List (Pos × Int)) (parents' : ParentMap)
      (pq' : List (Int × NodeS)),
    (∀ e ∈ es, e ∈ node.edges) → ParentsOKs g parents →
    (∀ en ∈ pq, alookup g.nodes en.2.pos = some en.2) →
    aStarRelax g node es gs fs parents pq = some (gs', fs', parents', pq') →
    ParentsOKs g parents' ∧ ∀ en ∈ pq', alookup g.nodes en.2.pos = some en.2
  | [], gs, fs, parents, pq, gs', fs', parents', pq' => by
    intro hes hok hpq h
    rw [aStarRelax] at h
    have h2 := Option.some.inj h
    rw [Prod.mk.injEq] at h2
    obtain ⟨_, h2⟩ := h2
    rw [Prod.mk.injEq] at h2
    obtain ⟨_, h2⟩ := h2
    rw [Prod.mk.injEq] at h2
    rw [← h2.1, ← h2.2]
    exact ⟨hok, hpq⟩
  | e :: rest, gs, fs, parents, pq, gs', fs', parents', pq' => by
    intro hes hok hpq h
    rw [aStarRelax] at h
    cases hf : findNode g e.dest with
    | none => rw [hf] at h; cases h
    | some nb =>
      rw [hf] at h
      simp only [] at h
      have hnb : alookup g.nodes nb.pos = some nb := by
        have := (wf_lookup hwf hf).1
        rw [this]
        exact hf
      cases hgn : alookup gs node.pos with
      | none => rw [hgn] at h; cases h
      | some gn =>
        rw [hgn] at h
        simp only [] at h
        split at h
        · have hok2 : ParentsOKs g (aupsert parents nb.pos (some node)) := by
            refine parentsOKs_aupsert hok (by rw [hnb]; rfl) ?_
            have hed := edgeTo_of_edge hnode (hes e (List.mem_cons_self e rest))
            have : nb.pos = e.dest := (wf_lookup hwf hf).1
            rw [this]
            exact hed
          have hpq2 : ∀ en ∈ pq ++ [(((gn + e.length : Nat) : Int)
              + nb.heuristic, nb)], alookup g.nodes en.2.pos = some en.2 := by
            intro en hen
            rcases List.mem_append.mp hen with h1 | h1
            · exact hpq en h1
            · rw [List.mem_singleton] at h1
              subst h1
              exact hnb
          exact aStarRelax_inv hwf hnode rest _ _ _ _ gs' fs' parents' pq'
            (fun e2 he2 => hes e2 (List.mem_cons_of_mem e he2)) hok2 hpq2 h
        · exact aStarRelax_inv hwf hnode rest gs fs parents pq gs' fs'
            parents' pq'
            (fun e2 he2 => hes e2 (List.mem_cons_of_mem e he2)) hok hpq h

theorem aStarLoop_inv {g : GraphS} (hwf : WF g) :
    ∀ (fuel : Nat) (visited : List Pos) (gs : List (Pos × Nat))
      (fs : List (Pos × Int)) (parents : ParentMap) (pq : List (Int × NodeS))
      (res : Option NodeS) (parents' : ParentMap),
    ParentsOKs g parents →
    (∀ en ∈ pq, alookup g.nodes en.2.pos = some en.2) →
    aStarLoop g fuel visited gs fs parents pq = some (res, parents') →
    ParentsOKs g parents' ∧ ∀ gn, res = some gn → gn.pos = g.goal
  | 0, _, _, _, _, _, _, _ => by intro _ _ h; cases h
  | fuel + 1, visited, gs, fs, parents, [], res, parents' => by
    intro hok hpq h
    rw [aStarLoop] at h
    have h2 := Option.some.inj h
    rw [Prod.mk.injEq] at h2
    rw [← h2.1, ← h2.2]
    exact ⟨hok, fun gn hgn => by cases hgn⟩
  | fuel + 1, visited, gs, fs, parents, e :: pqt, res, parents' => by
    intro hok hpq h
    rw [aStarLoop] at h <;> try exact fun hcon => List.noConfusion hcon
    cases hp : popMinBy (fun (x : Int × NodeS) => x.1)
        (fun a b => decide (a ≤ b)) (e :: pqt) with
    | none =>
      rw [hp] at h
      have h2 := Option.some.inj h
      rw [Prod.mk.injEq] at h2
      rw [← h2.1, ← h2.2]
      exact ⟨hok, fun gn hgn => by cases hgn⟩
    | some mp =>
      obtain ⟨⟨k, node⟩, pq'⟩ := mp
      rw [hp] at h
      simp only [] at h
      have hperm := popMinBy_perm (fun (x : Int × NodeS) => x.1)
        (fun a b => decide (a ≤ b)) (e :: pqt) (k, node) pq' hp
      have hmem : (k, node) ∈ e :: pqt :=
        hperm.mem_iff.mpr (List.mem_cons_self _ pq')
      have hnode : alookup g.nodes node.pos = some node := hpq _ hmem
      have hpq' : ∀ en ∈ pq', alookup g.nodes en.2.pos = some en.2 :=
        fun en hen => hpq en (hperm.mem_iff.mpr (List.mem_cons_of_mem _ hen))
      by_cases hv : node.pos ∈ visited
      · rw [if_pos hv] at h
        exact aStarLoop_inv hwf fuel visited gs fs parents pq' res parents'
          hok hpq' h
      · rw [if_neg hv] at h
        by_cases hg : node.is_goal
        · rw [if_pos hg] at h
          have h2 := Option.some.inj h
          rw [Prod.mk.injEq] at h2
          rw [← h2.1, ← h2.2]
          refine ⟨hok, fun gn hgn => ?_⟩
          have hng : node = gn := Option.some.inj hgn
          have hdec := (wf_lookup hwf hnode).2.1
          rw [hg] at hdec
          rw [← hng]
          exact of_decide_eq_true hdec.symm
        · rw [if_neg hg] at h
          cases he : aStarRelax g node node.edges gs fs parents pq' with
          | none => rw [he] at h; cases h
          | some st =>
            rw [he] at h
            obtain ⟨gs2, fs2, parents2, pq2⟩ := st
            obtain ⟨hok2, hpq2⟩ := aStarRelax_inv hwf hnode node.edges gs fs
              parents pq' gs2 fs2 parents2 pq2 (fun e2 he2 => he2) hok hpq' he
            exact aStarLoop_inv hwf fuel (node.pos :: visited) gs2 fs2
              parents2 pq2 res parents' hok2 hpq2 h

theorem a_star_valid {g : GraphS} (hwf : WF g) {fuel : Nat} {p : List NodeS}
    (h : a_star g fuel = some (some p)) :
    IsPath g (posList p) g.start g.goal := by
  obtain ⟨maxJ0, hmj0, hone0, hga0, hroot⟩ := id hwf
  have hrootpos : g.root.pos = g.start := (wf_lookup hwf hroot).1
  have hok0 : ParentsOKs g [(g.root.pos, none)] := by
    have hlk : ∀ q, alookup ([(g.root.pos, none)] : ParentMap) q
        = if g.root.pos = q then some (none : Option NodeS) else none :=
      fun q => rfl
    refine ⟨?_, ?_, ?_⟩
    · intro q w h2
      rw [hlk] at h2
      by_cases hq : g.root.pos = q
      · rw [← hq, hrootpos, hroot]
        rfl
      · rw [if_neg hq] at h2
        cases h2
    · intro q pn h2
      rw [hlk] at h2
      by_cases hq : g.root.pos = q
      · rw [if_pos hq] at h2
        cases Option.some.inj h2
      · rw [if_neg hq] at h2
        cases h2
    · intro q h2
      rw [hlk] at h2
      by_cases hq : g.root.pos = q
      · rw [← hq, hrootpos]
      · rw [if_neg hq] at h2
        cases h2
  have hpq0 : ∀ en ∈ [((0 : Int), g.root)],
      alookup g.nodes en.2.pos = some en.2 := by
    intro en hen
    rw [List.mem_singleton] at hen
    subst hen
    rw [hrootpos]
    exact hroot
  unfold a_star at h
  cases hl : aStarLoop g fuel [] [(g.root.pos, 0)]
      [(g.root.pos, g.root.heuristic)] [(g.root.pos, none)]
      [((0 : Int), g.root)] with
  | none => rw [hl] at h; cases h
  | some st =>
    rw [hl] at h
    obtain ⟨res, parents⟩ := st
    obtain ⟨hok, hgoal⟩ := aStarLoop_inv hwf fuel [] [(g.root.pos, 0)]
      [(g.root.pos, g.root.heuristic)] [(g.root.pos, none)]
      [((0 : Int), g.root)] res parents hok0 hpq0 hl
    cases res with
    | none => cases Option.some.inj h
    | some gn =>
      exact getPath_valid ⟨hok.1, hok.2.1, fun q pn h1 h2 => hok.2.2 pn.pos h2⟩
        (hgoal gn rfl) h

/-- **C1** (confirmed). Whenever graph construction succeeds, any path
returned by any of the seven strategies (`dfs`, `bfs`, the three `_ucs`
variants, `dijkstra` or `a_star`) starts at the start position, ends at the
goal position, visits only nodes of the built graph, and joins every
consecutive pair of its positions by an edge of the built graph. -/
theorem returned_paths_are_valid {m : List (List Nat)} {start goal : Pos}
    {g : GraphS} (hg : buildGraph m start goal = .ok g) :
    (∀ fuel p, dfs g fuel = some (some p) → IsPath g (posList p) start goal) ∧
    (∀ fuel p, bfs g fuel = some (some p) → IsPath g (posList p) start goal) ∧
    (∀ fuel p, ucs_by_distance g fuel = some (some p) →
      IsPath g (posList p) start goal) ∧
    (∀ fuel p, ucs_by_jumps g fuel = some (some p) →
      IsPath g (posList p) start goal) ∧
    (∀ fuel p, ucs_by_value g fuel = some (some p) →
      IsPath g (posList p) start goal) ∧
    (∀ fuel p, dijkstra g fuel = some (some p) →
      IsPath g (posList p) start goal) ∧
    (∀ fuel p, a_star g fuel = some (some p) →
      IsPath g (posList p) start goal) := by
  have hwf := buildGraph_WF hg
  obtain ⟨hm, hs, hgg, _⟩ := buildGraph_char hg
  rw [← hs, ← hgg]
  refine ⟨fun fuel p h => dfs_valid hwf h, fun fuel p h => bfs_valid hwf h,
    fun fuel p h => ucsRun_valid hwf _ h, fun fuel p h => ucsRun_valid hwf _ h,
    fun fuel p h => ucsRun_valid hwf _ h, fun fuel p h => dijkstra_valid hwf h,
    fun fuel p h => a_star_valid hwf h⟩

/-- Witness for C1 on the concrete maze `[[0]]`. -/
theorem returned_paths_are_valid_witness :
    buildGraph [[0]] (0, 0) (0, 0)
      = .ok (GraphS.mk [((0, 0), NodeS.mk (0, 0) 0 0 true [])] [[0]]
          (0, 0) (0, 0) (NodeS.mk (0, 0) 0 0 true [])) ∧
    ((∀ fuel p, dfs (GraphS.mk [((0, 0), NodeS.mk (0, 0) 0 0 true [])] [[0]]
          (0, 0) (0, 0) (NodeS.mk (0, 0) 0 0 true [])) fuel = some (some p) →
      IsPath (GraphS.mk [((0, 0), NodeS.mk (0, 0) 0 0 true [])] [[0]]
          (0, 0) (0, 0) (NodeS.mk (0, 0) 0 0 true []))
        (posList p) (0, 0) (0, 0)) ∧
     (∀ fuel p, bfs (GraphS.mk [((0, 0), NodeS.mk (0, 0) 0 0 true [])] [[0]]
          (0, 0) (0, 0) (NodeS.mk (0, 0) 0 0 true [])) fuel = some (some p) →
      IsPath (GraphS.mk [((0, 0), NodeS.mk (0, 0) 0 0 true [])] [[0]]
          (0, 0) (0, 0) (NodeS.mk (0, 0) 0 0 true []))
        (posList p) (0, 0) (0, 0)) ∧
     (∀ fuel p, ucs_by_distance (GraphS.mk
          [((0, 0), NodeS.mk (0, 0) 0 0 true [])] [[0]]
          (0, 0) (0, 0) (NodeS.mk (0, 0) 0 0 true [])) fuel = some (some p) →
      IsPath (GraphS.mk [((0, 0), NodeS.mk (0, 0) 0 0 true [])] [[0]]
          (0, 0) (0, 0) (NodeS.mk (0, 0) 0 0 true []))
        (posList p) (0, 0) (0, 0)) ∧
     (∀ fuel p, ucs_by_jumps (GraphS.mk
          [((0, 0), NodeS.mk (0, 0) 0 0 true [])] [[0]]
          (0, 0) (0, 0) (NodeS.mk (0, 0) 0 0 true [])) fuel = some (some p) →
      IsPath (GraphS.mk [((0, 0), NodeS.mk (0, 0) 0 0 true [])] [[0]]
          (0, 0) (0, 0) (NodeS.mk (0, 0) 0 0 true []))
        (posList p) (0, 0) (0, 0)) ∧
     (∀ fuel p, ucs_by_value (GraphS.mk
          [((0, 0), NodeS.mk (0, 0) 0 0 true [])] [[0]]
          (0, 0) (0, 0) (NodeS.mk (0, 0) 0 0 true [])) fuel = some (some p) →
      IsPath (GraphS.mk [((0, 0), NodeS.mk (0, 0) 0 0 true [])] [[0]]
          (0, 0) (0, 0) (NodeS.mk (0, 0) 0 0 true []))
        (posList p) (0, 0) (0, 0)) ∧
     (∀ fuel p, dijkstra (GraphS.mk
          [((0, 0), NodeS.mk (0, 0) 0 0 true [])] [[0]]
          (0, 0) (0, 0) (NodeS.mk (0, 0) 0 0 true [])) fuel = some (some p) →
      IsPath (GraphS.mk [((0, 0), NodeS.mk (0, 0) 0 0 true [])] [[0]]
          (0, 0) (0, 0) (NodeS.mk (0, 0) 0 0 true []))
        (posList p) (0, 0) (0, 0)) ∧
     (∀ fuel p, a_star (GraphS.mk
          [((0, 0), NodeS.mk (0, 0) 0 0 true [])] [[0]]
          (0, 0) (0, 0) (NodeS.mk (0, 0) 0 0 true [])) fuel = some (some p) →
      IsPath (GraphS.mk [((0, 0), NodeS.mk (0, 0) 0 0 true [])] [[0]]
          (0, 0) (0, 0) (NodeS.mk (0, 0) 0 0 true []))
        (posList p) (0, 0) (0, 0))) :=
  ⟨rfl, returned_paths_are_valid (m := [[0]]) rfl⟩

/-! ## Termination of the search loops -/

theorem filter_not_mem_mono :
    ∀ (l : List Pos) (v : List Pos) (p : Pos),
    ((l.filter (fun x => decide (x ∉ p :: v))).length
      ≤ (l.filter (fun x => decide (x ∉ v))).length)
  | [], v, p => by simp
  | a :: t, v, p => by
    have ih := filter_not_mem_mono t v p
    by_cases hav : a ∈ v
    · rw [List.filter_cons, List.filter_cons]
      rw [if_neg (by simp [hav]), if_neg (by simp [hav])]
      exact ih
    · by_cases hap : a = p
      · rw [List.filter_cons, List.filter_cons]
        rw [if_neg (by simp [hap]), if_pos (by simp [hav])]
        simp only [List.length_cons]
        omega
      · rw [List.filter_cons, List.filter_cons]
        rw [if_pos (by simp [hap, hav]), if_pos (by simp [hav])]
        simpa using ih

theorem filter_not_mem_lt :
    ∀ (l : List Pos) (v : List Pos) (p : Pos), p ∈ l → p ∉ v →
    ((l.filter (fun x => decide (x ∉ p :: v))).length
      < (l.filter (fun x => decide (x ∉ v))).length)
  | [], v, p => by simp
  | a :: t, v, p => by
    intro hp hv
    rcases List.mem_cons.mp hp with h1 | h1
    · subst h1
      rw [List.filter_cons, List.filter_cons]
      rw [if_neg (by simp), if_pos (by simp [hv])]
      have := filter_not_mem_mono t v p
      simpa using Nat.lt_succ_of_le this
    · have ih := filter_not_mem_lt t v p h1 hv
      by_cases hav : a ∈ v
      · rw [List.filter_cons, List.filter_cons]
        rw [if_neg (by simp [hav]), if_neg (by simp [hav])]
        exact ih
      · by_cases hap : a = p
        · rw [List.filter_cons, List.filter_cons]
          rw [if_neg (by simp [hap]), if_pos (by simp [hav])]
          have := filter_not_mem_mono t v p
          simp only [List.length_cons]
          omega
        · rw [List.filter_cons, List.filter_cons]
          rw [if_pos (by simp [hap, hav]), if_pos (by simp [hav])]
          simpa using ih

theorem unvis_cons_lt {g : GraphS} {visited : List Pos} {p : Pos}
    (hp : p ∈ akeys g.nodes) (hv : p ∉ visited) :
    unvis g (p :: visited) < unvis g visited :=
  filter_not_mem_lt (akeys g.nodes) visited p hp hv

theorem wf_edges_le {g : GraphS} {p : Pos} {n : NodeS} (hwf : WF g)
    (h : alookup g.nodes p = some n) : n.edges.length ≤ 4 := by
  obtain ⟨maxJ, _, _, ⟨hnd, hOK⟩, _⟩ := hwf
  exact (hOK _ (alookup_mem h)).2.2.2.2.1

theorem dfsExpand_total {g : GraphS} (hwf : WF g) {node : NodeS}
    (hnode : alookup g.nodes node.pos = some node) :
    ∀ (es : List EdgeS) (stack : List NodeS) (visited : List Pos)
      (parents : ParentMap),
    (∀ e ∈ es, e ∈ node.edges) → NodesOf g stack →
    ∃ out, dfsExpand g node visited es stack parents = some out ∧
      out.1.length ≤ stack.length + es.length ∧ NodesOf g out.1
  | [], stack, visited, parents => by
    intro hes hstack
    exact ⟨(stack, parents), rfl, by simp, hstack⟩
  | e :: rest, stack, visited, parents => by
    intro hes hstack
    have hdest : (alookup g.nodes e.dest).isSome :=
      ((wf_lookup hwf hnode).2.2 e (hes e (List.mem_cons_self e rest))).1
    rw [Option.isSome_iff_exists] at hdest
    obtain ⟨nb, hnb0⟩ := hdest
    have hnb : alookup g.nodes nb.pos = some nb := by
      have := (wf_lookup hwf hnb0).1
      rw [this]
      exact hnb0
    rw [dfsExpand]
    rw [show findNode g e.dest = some nb from hnb0]
    simp only []
    by_cases hv : nb.pos ∈ visited
    · rw [if_pos hv]
      obtain ⟨out, hout, hlen, hns⟩ := dfsExpand_total hwf hnode rest stack
        visited parents (fun e2 he2 => hes e2 (List.mem_cons_of_mem e he2))
        hstack
      refine ⟨out, hout, ?_, hns⟩
      have hcl : (e :: rest).length = rest.length + 1 := rfl
      rw [hcl]
      omega
    · rw [if_neg hv]
      have hstack2 : NodesOf g (nb :: stack) := by
        intro n hn
        rcases List.mem_cons.mp hn with h1 | h1
        · subst h1
          exact hnb
        · exact hstack n h1
      obtain ⟨out, hout, hlen, hns⟩ := dfsExpand_total hwf hnode rest
        (nb :: stack) visited _
        (fun e2 he2 => hes e2 (List.mem_cons_of_mem e he2)) hstack2
      refine ⟨out, hout, ?_, hns⟩
      rw [show (nb :: stack).length = stack.length + 1 from rfl] at hlen
      rw [show (e :: rest).length = rest.length + 1 from rfl]
      omega

theorem dfsLoop_term {g : GraphS} (hwf : WF g) :
    ∀ (fuel : Nat) (stack : List NodeS) (visited : List Pos)
      (parents : ParentMap),
    NodesOf g stack → 5 * unvis g visited + stack.length < fuel →
    ∃ r, dfsLoop g fuel stack visited parents = some r
  | 0, stack, visited, parents => by
    intro _ hlt
    omega
  | fuel + 1, [], visited, parents => by
    intro _ _
    exact ⟨(none, parents), by rw [dfsLoop]⟩
  | fuel + 1, node :: rest, visited, parents => by
    intro hstack hlt
    rw [dfsLoop]
    by_cases hg : node.is_goal
    · rw [if_pos hg]
      exact ⟨(some node, parents), rfl⟩
    · rw [if_neg hg]
      by_cases hv : node.pos ∈ visited
      · rw [if_pos hv]
        refine dfsLoop_term hwf fuel rest visited parents
          (fun n hn => hstack n (List.mem_cons_of_mem node hn)) ?_
        rw [show (node :: rest).length = rest.length + 1 from rfl] at hlt
        omega
      · rw [if_neg hv]
        have hnode := hstack node (List.mem_cons_self node rest)
        obtain ⟨out, hout, hlen, hns⟩ := dfsExpand_total hwf hnode
          node.edges.reverse rest (node.pos :: visited) parents
          (fun e2 he2 => by rw [List.mem_reverse] at he2; exact he2)
          (fun n hn => hstack n (List.mem_cons_of_mem node hn))
        rw [hout]
        obtain ⟨stack2, parents2⟩ := out
        refine dfsLoop_term hwf fuel stack2 (node.pos :: visited) parents2
          hns ?_
        have hU : unvis g (node.pos :: visited) < unvis g visited :=
          unvis_cons_lt (by
            rw [mem_akeys_iff_isSome, hnode]
            rfl) hv
        have hel : node.edges.reverse.length ≤ 4 := by
          rw [List.length_reverse]
          exact wf_edges_le hwf hnode
        rw [show (node :: rest).length = rest.length + 1 from rfl] at hlt
        have hs2 : stack2.length ≤ rest.length + 4 := by
          have hlen2 : stack2.length ≤ rest.length + node.edges.reverse.length :=
            hlen
          omega
        omega

theorem bfsExpand_total {g : GraphS} (hwf : WF g) {node : NodeS}
    (hnode : alookup g.nodes node.pos = some node) :
    ∀ (es : List EdgeS) (queue : List NodeS) (visited : List Pos)
      (parents : ParentMap),
    (∀ e ∈ es, e ∈ node.edges) → NodesOf g queue →
    ∃ out, bfsExpand g node es queue visited parents = some out ∧
      2 * unvis g out.2.1 + out.1.length
        ≤ 2 * unvis g visited + queue.length ∧
      NodesOf g out.1
  | [], queue, visited, parents => by
    intro hes hq
    exact ⟨(queue, visited, parents), rfl, by simp, hq⟩
  | e :: rest, queue, visited, parents => by
    intro hes hq
    have hdest : (alookup g.nodes e.dest).isSome :=
      ((wf_lookup hwf hnode).2.2 e (hes e (List.mem_cons_self e rest))).1
    rw [Option.isSome_iff_exists] at hdest
    obtain ⟨nb, hnb0⟩ := hdest
    have hnb : alookup g.nodes nb.pos = some nb := by
      have := (wf_lookup hwf hnb0).1
      rw [this]
      exact hnb0
    rw [bfsExpand]
    rw [show findNode g e.dest = some nb from hnb0]
    simp only []
    by_cases hv : nb.pos ∈ visited
    · rw [if_pos hv]
      exact bfsExpand_total hwf hnode rest queue visited parents
        (fun e2 he2 => hes e2 (List.mem_cons_of_mem e he2)) hq
    · rw [if_neg hv]
      have hq2 : NodesOf g (queue ++ [nb]) := by
        intro n hn
        rcases List.mem_append.mp hn with h1 | h1
        · exact hq n h1
        · rw [List.mem_singleton] at h1
          subst h1
          exact hnb
      obtain ⟨out, hout, hm, hns⟩ := bfsExpand_total hwf hnode rest
        (queue ++ [nb]) (nb.pos :: visited) _
        (fun e2 he2 => hes e2 (List.mem_cons_of_mem e he2)) hq2
      refine ⟨out, hout, ?_, hns⟩
      have hU : unvis g (nb.pos :: visited) < unvis g visited :=
        unvis_cons_lt (by
          rw [mem_akeys_iff_isSome, hnb]
          rfl) hv
      rw [show (queue ++ [nb]).length = queue.length + 1 by simp] at hm
      omega

theorem bfsLoop_term {g : GraphS} (hwf : WF g) :
    ∀ (fuel : Nat) (queue : List NodeS) (visited : List Pos)
      (parents : ParentMap),
    NodesOf g queue → 2 * unvis g visited + queue.length < fuel →
    ∃ r, bfsLoop g fuel queue visited parents = some r
  | 0, queue, visited, parents => by
    intro _ hlt
    omega
  | fuel + 1, [], visited, parents => by
    intro _ _
    exact ⟨(none, parents), by rw [bfsLoop]⟩
  | fuel + 1, node :: rest, visited, parents => by
    intro hq hlt
    rw [bfsLoop]
    by_cases hg : node.is_goal
    · rw [if_pos hg]
      exact ⟨(some node, parents), rfl⟩
    · rw [if_neg hg]
      have hnode := hq node (List.mem_cons_self node rest)
      obtain ⟨out, hout, hm, hns⟩ := bfsExpand_total hwf hnode node.edges rest
        visited parents (fun e2 he2 => he2)
        (fun n hn => hq n (List.mem_cons_of_mem node hn))
      rw [hout]
      obtain ⟨queue2, visited2, parents2⟩ := out
      refine bfsLoop_term hwf fuel queue2 visited2 parents2 hns ?_
      have hm2 : 2 * unvis g visited2 + queue2.length
          ≤ 2 * unvis g visited + rest.length := hm
      rw [show (node :: rest).length = rest.length + 1 from rfl] at hlt
      omega

theorem vcount_perm {visited : List Pos} {pq pq2 : List UcsEntry}
    (h : pq.Perm pq2) : vcount visited pq = vcount visited pq2 := by
  unfold vcount
  exact (h.filter (fun en => decide (en.2.1.pos ∈ visited))).length_eq

theorem vcount_cons_visited {visited : List Pos} {en : UcsEntry}
    {pq : List UcsEntry} (h : en.2.1.pos ∈ visited) :
    vcount visited (en :: pq) = vcount visited pq + 1 := by
  unfold vcount
  rw [List.filter_cons, if_pos (by simpa using h)]
  simp

theorem vcount_append_unvisited {visited : List Pos} {en : UcsEntry}
    {pq : List UcsEntry} (h : en.2.1.pos ∉ visited) :
    vcount visited (pq ++ [en]) = vcount visited pq := by
  unfold vcount
  rw [List.filter_append, List.filter_cons, if_neg (by simpa using h)]
  simp

theorem unvis_zero_all_visited {g : GraphS} {visited : List Pos}
    (h : unvis g visited = 0) : ∀ p ∈ akeys g.nodes, p ∈ visited := by
  intro p hp
  by_contra hv
  have : p ∈ (akeys g.nodes).filter (fun x => decide (x ∉ visited)) :=
    List.mem_filter.mpr ⟨hp, by simpa using hv⟩
  unfold unvis at h
  rw [List.length_eq_zero] at h
  rw [h] at this
  cases this

theorem ucsExpand_total {g : GraphS} (hwf : WF g) {node : NodeS}
    (inc : EdgeS → NodeS → Nat) (total : Nat) (path : List NodeS)
    (hnode : alookup g.nodes node.pos = some node) :
    ∀ (es : List EdgeS) (visited : List Pos) (pq : List UcsEntry),
    (∀ e ∈ es, e ∈ node.edges) →
    (∀ en ∈ pq, alookup g.nodes en.2.1.pos = some en.2.1) →
    ∃ pq', ucsExpand g inc total path visited es pq = some pq' ∧
      vcount visited pq' = vcount visited pq ∧
      ∀ en ∈ pq', alookup g.nodes en.2.1.pos = some en.2.1
  | [], visited, pq => by
    intro hes hpq
    exact ⟨pq, rfl, rfl, hpq⟩
  | e :: rest, visited, pq => by
    intro hes hpq
    have hdest : (alookup g.nodes e.dest).isSome :=
      ((wf_lookup hwf hnode).2.2 e (hes e (List.mem_cons_self e rest))).1
    rw [Option.isSome_iff_exists] at hdest
    obtain ⟨nb, hnb0⟩ := hdest
    have hnb : alookup g.nodes nb.pos = some nb := by
      have := (wf_lookup hwf hnb0).1
      rw [this]
      exact hnb0
    rw [ucsExpand]
    rw [show findNode g e.dest = some nb from hnb0]
    simp only []
    by_cases hv : nb.pos ∈ visited
    · rw [if_pos hv]
      exact ucsExpand_total hwf inc total path hnode rest visited pq
        (fun e2 he2 => hes e2 (List.mem_cons_of_mem e he2)) hpq
    · rw [if_neg hv]
      have hpq2 : ∀ en ∈ pq ++ [(total + inc e nb, nb, path ++ [nb])],
          alookup g.nodes en.2.1.pos = some en.2.1 := by
        intro en hen
        rcases List.mem_append.mp hen with h1 | h1
        · exact hpq en h1
        · rw [List.mem_singleton] at h1
          subst h1
          exact hnb
      obtain ⟨pq', hout, hvc, hns⟩ := ucsExpand_total hwf inc total path hnode
        rest visited _ (fun e2 he2 => hes e2 (List.mem_cons_of_mem e he2)) hpq2
      refine ⟨pq', hout, ?_, hns⟩
      rw [hvc]
      exact @vcount_append_unvisited visited (total + inc e nb, nb, path ++ [nb])
        pq hv

theorem ucsLoop_term {g : GraphS} (hwf : WF g) (inc : EdgeS → NodeS → Nat) :
    ∀ (u v : Nat) (visited : List Pos) (pq : List UcsEntry),
    (∀ en ∈ pq, alookup g.nodes en.2.1.pos = some en.2.1) →
    unvis g visited ≤ u → vcount visited pq ≤ v →
    ∃ fuel r, ucsLoop g inc fuel visited pq = some r := by
  intro u
  induction u with
  | zero =>
    intro v
    induction v with
    | zero =>
      intro visited pq hpq hu hv
      cases pq with
      | nil => exact ⟨1, none, by rw [ucsLoop]⟩
      | cons e pqt =>
        exfalso
        cases hp : popMinBy (fun (x : UcsEntry) => x.1)
            (fun a b => decide (a ≤ b)) (e :: pqt) with
        | none =>
          rw [popMinBy_none_iff] at hp
          cases hp
        | some mp =>
          obtain ⟨⟨total, node, path⟩, pq'⟩ := mp
          have hperm := popMinBy_perm (fun (x : UcsEntry) => x.1)
            (fun a b => decide (a ≤ b)) (e :: pqt) (total, node, path) pq' hp
          have hmem : (total, node, path) ∈ e :: pqt :=
            hperm.mem_iff.mpr (List.mem_cons_self _ pq')
          have hnode := hpq _ hmem
          have hvis : node.pos ∈ visited :=
            unvis_zero_all_visited (Nat.le_zero.mp hu) node.pos
              (by rw [mem_akeys_iff_isSome, hnode]; rfl)
          have := @vcount_perm visited _ _ hperm
          rw [@vcount_cons_visited visited (total, node, path) _ hvis] at this
          omega
    | succ v ihv =>
      intro visited pq hpq hu hv
      cases pq with
      | nil => exact ⟨1, none, by rw [ucsLoop]⟩
      | cons e pqt =>
        cases hp : popMinBy (fun (x : UcsEntry) => x.1)
            (fun a b => decide (a ≤ b)) (e :: pqt) with
        | none =>
          rw [popMinBy_none_iff] at hp
          cases hp
        | some mp =>
          obtain ⟨⟨total, node, path⟩, pq'⟩ := mp
          have hperm := popMinBy_perm (fun (x : UcsEntry) => x.1)
            (fun a b => decide (a ≤ b)) (e :: pqt) (total, node, path) pq' hp
          have hmem : (total, node, path) ∈ e :: pqt :=
            hperm.mem_iff.mpr (List.mem_cons_self _ pq')
          have hnode := hpq _ hmem
          have hpq' : ∀ en ∈ pq', alookup g.nodes en.2.1.pos = some en.2.1 :=
            fun en hen => hpq en (hperm.mem_iff.mpr (List.mem_cons_of_mem _ hen))
          have hvis : node.pos ∈ visited :=
            unvis_zero_all_visited (Nat.le_zero.mp hu) node.pos
              (by rw [mem_akeys_iff_isSome, hnode]; rfl)
          by_cases hg : node.is_goal
          · refine ⟨1, some path, ?_⟩
            rw [ucsLoop] <;> try exact fun hcon => List.noConfusion hcon
            rw [hp]
            simp only []
            rw [if_pos hvis, if_pos hg]
          · obtain ⟨pq2, hexp, hvc, hns⟩ := ucsExpand_total hwf inc total path
              hnode node.edges visited pq' (fun e2 he2 => he2) hpq'
            have hvcnt : vcount visited pq2 ≤ v := by
              have h1 := @vcount_perm visited _ _ hperm
              rw [@vcount_cons_visited visited (total, node, path) _ hvis] at h1
              omega
            obtain ⟨fuel, r, hloop⟩ := ihv visited pq2 hns hu hvcnt
            refine ⟨fuel + 1, r, ?_⟩
            rw [ucsLoop] <;> try exact fun hcon => List.noConfusion hcon
            rw [hp]
            simp only []
            rw [if_pos hvis, if_neg hg, hexp]
            exact hloop
  | succ u ihu =>
    intro v
    induction v with
    | zero =>
      intro visited pq hpq hu hv
      cases pq with
      | nil => exact ⟨1, none, by rw [ucsLoop]⟩
      | cons e pqt =>
        cases hp : popMinBy (fun (x : UcsEntry) => x.1)
            (fun a b => decide (a ≤ b)) (e :: pqt) with
        | none =>
          rw [popMinBy_none_iff] at hp
          cases hp
        | some mp =>
          obtain ⟨⟨total, node, path⟩, pq'⟩ := mp
          have hperm := popMinBy_perm (fun (x : UcsEntry) => x.1)
            (fun a b => decide (a ≤ b)) (e :: pqt) (total, node, path) pq' hp
          have hmem : (total, node, path) ∈ e :: pqt :=
            hperm.mem_iff.mpr (List.mem_cons_self _ pq')
          have hnode := hpq _ hmem
          have hpq' : ∀ en ∈ pq', alookup g.nodes en.2.1.pos = some en.2.1 :=
            fun en hen => hpq en (hperm.mem_iff.mpr (List.mem_cons_of_mem _ hen))
          have hunvis : node.pos ∉ visited := by
            intro hvis
            have h1 := @vcount_perm visited _ _ hperm
            rw [@vcount_cons_visited visited (total, node, path) _ hvis] at h1
            omega
          by_cases hg : node.is_goal
          · refine ⟨1, some path, ?_⟩
            rw [ucsLoop] <;> try exact fun hcon => List.noConfusion hcon
            rw [hp]
            simp only []
            rw [if_neg hunvis, if_pos hg]
          · obtain ⟨pq2, hexp, hvc, hns⟩ := ucsExpand_total hwf inc total path
              hnode node.edges (node.pos :: visited) pq' (fun e2 he2 => he2) hpq'
            have hU : unvis g (node.pos :: visited) ≤ u := by
              have := unvis_cons_lt (g := g)
                (by rw [mem_akeys_iff_isSome, hnode]; rfl) hunvis
              omega
            obtain ⟨fuel, r, hloop⟩ := ihu (vcount (node.pos :: visited) pq2)
              (node.pos :: visited) pq2 hns hU (Nat.le_refl _)
            refine ⟨fuel + 1, r, ?_⟩
            rw [ucsLoop] <;> try exact fun hcon => List.noConfusion hcon
            rw [hp]
            simp only []
            rw [if_neg hunvis, if_neg hg, hexp]
            exact hloop
    | succ v ihv =>
      intro visited pq hpq hu hv
      cases pq with
      | nil => exact ⟨1, none, by rw [ucsLoop]⟩
      | cons e pqt =>
        cases hp : popMinBy (fun (x : UcsEntry) => x.1)
            (fun a b => decide (a ≤ b)) (e :: pqt) with
        | none =>
          rw [popMinBy_none_iff] at hp
          cases hp
        | some mp =>
          obtain ⟨⟨total, node, path⟩, pq'⟩ := mp
          have hperm := popMinBy_perm (fun (x : UcsEntry) => x.1)
            (fun a b => decide (a ≤ b)) (e :: pqt) (total, node, path) pq' hp
          have hmem : (total, node, path) ∈ e :: pqt :=
            hperm.mem_iff.mpr (List.mem_cons_self _ pq')
          have hnode := hpq _ hmem
          have hpq' : ∀ en ∈ pq', alookup g.nodes en.2.1.pos = some en.2.1 :=
            fun en hen => hpq en (hperm.mem_iff.mpr (List.mem_cons_of_mem _ hen))
          by_cases hg : node.is_goal
          · refine ⟨1, some path, ?_⟩
            rw [ucsLoop] <;> try exact fun hcon => List.noConfusion hcon
            rw [hp]
            simp only []
            by_cases hvis : node.pos ∈ visited
            · rw [if_pos hvis, if_pos hg]
            · rw [if_neg hvis, if_pos hg]
          · by_cases hvis : node.pos ∈ visited
            · obtain ⟨pq2, hexp, hvc, hns⟩ := ucsExpand_total hwf inc total path
                hnode node.edges visited pq' (fun e2 he2 => he2) hpq'
              have hvcnt : vcount visited pq2 ≤ v := by
                have h1 := @vcount_perm visited _ _ hperm
                rw [@vcount_cons_visited visited (total, node, path) _ hvis] at h1
                omega
              obtain ⟨fuel, r, hloop⟩ := ihv visited pq2 hns hu hvcnt
              refine ⟨fuel + 1, r, ?_⟩
              rw [ucsLoop] <;> try exact fun hcon => List.noConfusion hcon
              rw [hp]
              simp only []
              rw [if_pos hvis, if_neg hg, hexp]
              exact hloop
            · obtain ⟨pq2, hexp, hvc, hns⟩ := ucsExpand_total hwf inc total path
                hnode node.edges (node.pos :: visited) pq'
                (fun e2 he2 => he2) hpq'
              have hU : unvis g (node.pos :: visited) ≤ u := by
                have := unvis_cons_lt (g := g)
                  (by rw [mem_akeys_iff_isSome, hnode]; rfl) hvis
                omega
              obtain ⟨fuel, r, hloop⟩ := ihu (vcount (node.pos :: visited) pq2)
                (node.pos :: visited) pq2 hns hU (Nat.le_refl _)
              refine ⟨fuel + 1, r, ?_⟩
              rw [ucsLoop] <;> try exact fun hcon => List.noConfusion hcon
              rw [hp]
              simp only []
              rw [if_neg hvis, if_neg hg, hexp]
              exact hloop

theorem aupsert_length_lookup {α : Type} :
    ∀ (l : List (Pos × α)) (p : Pos) (v w : α), alookup l p = some v →
    (aupsert l p w).length = l.length
  | [], p, v, w => by intro h; cases h
  | (q, x) :: t, p, v, w => by
    intro h
    unfold alookup at h
    unfold aupsert
    by_cases hq : q = p
    · rw [if_pos hq]
      rfl
    · rw [if_neg hq]
      rw [if_neg hq] at h
      rw [show ((q, x) :: aupsert t p w).length = (aupsert t p w).length + 1
        from rfl]
      rw [show ((q, x) :: t).length = t.length + 1 from rfl]
      rw [aupsert_length_lookup t p v w h]

theorem dinfCount_aupsert :
    ∀ (l : DistMap) (p : Pos) (v w : Dist), alookup l p = some v →
    dinfCount (aupsert l p w) + (if v = none then 1 else 0)
      = dinfCount l + (if w = none then 1 else 0)
  | [], p, v, w => by intro h; cases h
  | (q, x) :: t, p, v, w => by
    intro h
    unfold alookup at h
    unfold aupsert
    by_cases hq : q = p
    · rw [if_pos hq]
      rw [if_pos hq] at h
      have hv : x = v := Option.some.inj h
      unfold dinfCount
      rw [List.filter_cons, List.filter_cons]
      have hcr : decide ((q, x).2 = none) = decide (v = none) := by simp [hv]
      have hcl : decide ((p, w).2 = none) = decide (w = none) := by simp
      rw [hcr, hcl]
      by_cases hvn : v = none
      · rw [if_pos (show decide (v = none) = true by simp [hvn])]
        rw [if_pos hvn]
        by_cases hwn : w = none
        · rw [if_pos (show decide (w = none) = true by simp [hwn])]
          rw [if_pos hwn]
          simp only [List.length_cons]
        · rw [if_neg (show ¬ decide (w = none) = true by simp [hwn])]
          rw [if_neg hwn]
          simp only [List.length_cons]
      · rw [if_neg (show ¬ decide (v = none) = true by simp [hvn])]
        rw [if_neg hvn]
        by_cases hwn : w = none
        · rw [if_pos (show decide (w = none) = true by simp [hwn])]
          rw [if_pos hwn]
          simp only [List.length_cons]
        · rw [if_neg (show ¬ decide (w = none) = true by simp [hwn])]
          rw [if_neg hwn]
    · rw [if_neg hq]
      rw [if_neg hq] at h
      have ih := dinfCount_aupsert t p v w h
      unfold dinfCount at ih ⊢
      rw [List.filter_cons, List.filter_cons]
      by_cases hxn : x = none
      · have hc : decide ((q, x).2 = none) = true := by simp [hxn]
        rw [if_pos hc, if_pos hc]
        simp only [List.length_cons]
        omega
      · have hc : ¬ decide ((q, x).2 = none) = true := by simp [hxn]
        rw [if_neg hc, if_neg hc]
        omega

theorem dpot_aupsert (W : Nat) :
    ∀ (l : DistMap) (p : Pos) (v w : Dist), alookup l p = some v →
    dpot W (aupsert l p w) + dval W v = dpot W l + dval W w
  | [], p, v, w => by intro h; cases h
  | (q, x) :: t, p, v, w => by
    intro h
    unfold alookup at h
    unfold aupsert
    by_cases hq : q = p
    · rw [if_pos hq]
      rw [if_pos hq] at h
      have hv : x = v := Option.some.inj h
      unfold dpot
      rw [List.map_cons, List.map_cons, List.sum_cons, List.sum_cons]
      have hcr : dval W (q, x).2 = dval W v := congrArg (dval W) hv
      have hcl : dval W (p, w).2 = dval W w := rfl
      rw [hcr, hcl]
      omega
    · rw [if_neg hq]
      rw [if_neg hq] at h
      have ih := dpot_aupsert W t p v w h
      unfold dpot at ih ⊢
      rw [List.map_cons, List.map_cons, List.sum_cons, List.sum_cons]
      omega

theorem dinfCount_le_length (dist : DistMap) : dinfCount dist ≤ dist.length :=
  List.length_filter_le _ dist

theorem wf_edge_len_le {g : GraphS} {maxJ : Nat} (hwf : WF g)
    (hmj : maxJump g.matrix = .ok maxJ) {p : Pos} {n : NodeS}
    (h : alookup g.nodes p = some n) : ∀ e ∈ n.edges, e.length ≤ maxJ := by
  obtain ⟨maxJ0, hmj0, hone0, ⟨hnd, hOK⟩, hroot⟩ := hwf
  have heq : maxJ0 = maxJ := by
    rw [hmj0] at hmj
    exact Except.ok.inj hmj
  subst heq
  intro e he
  have hok := hOK _ (alookup_mem h)
  have hlen : e.length = n.value := (hok.2.2.2.2.2 e he).2.1
  have hcell : cellAt g.matrix p = some n.value := hok.2.2.2.1
  rw [hlen]
  exact maxJump_cell_le hmj0 hcell

theorem dijkstraRelax_total {g : GraphS} {maxJ : Nat} (hwf : WF g)
    (hmj : maxJump g.matrix = .ok maxJ) (W : Nat) {node : NodeS}
    (hnode : alookup g.nodes node.pos = some node) :
    ∀ (es : List EdgeS) (dist : DistMap) (parents : ParentMap)
      (pq : List (Dist × NodeS)),
    (∀ e ∈ es, e ∈ node.edges) →
    (∀ p ∈ akeys g.nodes, (alookup dist p).isSome) →
    (∀ p d, alookup dist p = some (some d) → d + dinfCount dist * maxJ ≤ W) →
    (∀ en ∈ pq, alookup g.nodes en.2.pos = some en.2) →
    ∃ out, dijkstraRelax g node es dist parents pq = some out ∧
      (∀ p ∈ akeys g.nodes, (alookup out.1 p).isSome) ∧
      (∀ p d, alookup out.1 p = some (some d) →
        d + dinfCount out.1 * maxJ ≤ W) ∧
      (∀ en ∈ out.2.2, alookup g.nodes en.2.pos = some en.2) ∧
      2 * dpot W out.1 + out.2.2.length ≤ 2 * dpot W dist + pq.length
  | [], dist, parents, pq => by
    intro hes hcov hdb hpq
    exact ⟨(dist, parents, pq), rfl, hcov, hdb, hpq, by simp⟩
  | e :: rest, dist, parents, pq => by
    intro hes hcov hdb hpq
    have hdest : (alookup g.nodes e.dest).isSome :=
      ((wf_lookup hwf hnode).2.2 e (hes e (List.mem_cons_self e rest))).1
    rw [Option.isSome_iff_exists] at hdest
    obtain ⟨nb, hnb0⟩ := hdest
    have hnb : alookup g.nodes nb.pos = some nb := by
      have := (wf_lookup hwf hnb0).1
      rw [this]
      exact hnb0
    have hlen : e.length ≤ maxJ :=
      wf_edge_len_le hwf hmj hnode e (hes e (List.mem_cons_self e rest))
    have hdn : (alookup dist node.pos).isSome :=
      hcov node.pos (by rw [mem_akeys_iff_isSome, hnode]; rfl)
    rw [Option.isSome_iff_exists] at hdn
    obtain ⟨dn, hdn⟩ := hdn
    have hdnb : (alookup dist nb.pos).isSome :=
      hcov nb.pos (by rw [mem_akeys_iff_isSome, hnb]; rfl)
    rw [Option.isSome_iff_exists] at hdnb
    obtain ⟨dnb, hdnb⟩ := hdnb
    rw [dijkstraRelax]
    rw [show findNode g e.dest = some nb from hnb0]
    try simp only []
    rw [hdn]
    try simp only []
    rw [hdnb]
    try simp only []
    by_cases hlt : ltD (addD dn e.length) dnb = true
    · rw [if_pos hlt]
      obtain ⟨d0, hd0⟩ : ∃ d0, dn = some d0 := by
        cases dn with
        | none => rw [show addD none e.length = none from rfl] at hlt; cases hlt
        | some d0 => exact ⟨d0, rfl⟩
      subst hd0
      have hnew : addD (some d0) e.length = some (d0 + e.length) := rfl
      have hcnt := dinfCount_aupsert dist nb.pos dnb
        (addD (some d0) e.length) hdnb
      have hcnt0 : (if addD (some d0) e.length = none then 1 else 0) = 0 := by
        rw [hnew]
        simp
      have hcnt2 : dinfCount (aupsert dist nb.pos (addD (some d0) e.length))
          + (if dnb = none then 1 else 0) = dinfCount dist := by
        omega
      have hdb0 := hdb node.pos d0 hdn
      have hcov2 : ∀ p ∈ akeys g.nodes,
          (alookup (aupsert dist nb.pos (addD (some d0) e.length)) p).isSome :=
        fun p hp => isSome_mono_aupsert dist nb.pos p _ (hcov p hp)
      have hdb2 : ∀ p d, alookup (aupsert dist nb.pos
          (addD (some d0) e.length)) p = some (some d) →
          d + dinfCount (aupsert dist nb.pos (addD (some d0) e.length)) * maxJ
            ≤ W := by
        intro p d hpd
        by_cases hp : p = nb.pos
        · subst hp
          rw [alookup_aupsert_self, hnew] at hpd
          have hd : d = d0 + e.length :=
            (Option.some.inj (Option.some.inj hpd)).symm
          subst hd
          cases hdnbv : dnb with
          | none =>
            rw [hdnbv] at hcnt2
            rw [if_pos rfl] at hcnt2
            have hC : dinfCount (aupsert dist nb.pos
                (addD (some d0) e.length)) + 1 = dinfCount dist := by omega
            have hmul : dinfCount (aupsert dist nb.pos
                (addD (some d0) e.length)) * maxJ + maxJ
                = dinfCount dist * maxJ := by
              rw [← hC]
              ring
            omega
          | some dv =>
            rw [hdnbv] at hcnt2 hlt hdnb
            rw [if_neg (by simp)] at hcnt2
            have hltv : d0 + e.length < dv := by
              rw [hnew] at hlt
              simpa only [ltD, decide_eq_true_eq] using hlt
            have hdvb := hdb nb.pos dv hdnb
            have hC : dinfCount (aupsert dist nb.pos
                (addD (some d0) e.length)) = dinfCount dist := by omega
            rw [hC]
            omega
        · rw [alookup_aupsert_ne dist nb.pos p _ hp] at hpd
          have := hdb p d hpd
          have hcle : dinfCount (aupsert dist nb.pos
              (addD (some d0) e.length)) ≤ dinfCount dist := by
            by_cases hdn2 : dnb = none
            · rw [if_pos hdn2] at hcnt2
              omega
            · rw [if_neg hdn2] at hcnt2
              omega
          have hmul : dinfCount (aupsert dist nb.pos
              (addD (some d0) e.length)) * maxJ
              ≤ dinfCount dist * maxJ := Nat.mul_le_mul_right maxJ hcle
          omega
      have hpq2 : ∀ en ∈ pq ++ [(addD (some d0) e.length, nb)],
          alookup g.nodes en.2.pos = some en.2 := by
        intro en hen
        rcases List.mem_append.mp hen with h1 | h1
        · exact hpq en h1
        · rw [List.mem_singleton] at h1
          subst h1
          exact hnb
      obtain ⟨out, hout, hc3, hd3, hp3, hm3⟩ := dijkstraRelax_total hwf hmj W
        hnode rest (aupsert dist nb.pos (addD (some d0) e.length))
        (aupsert parents nb.pos (some node))
        (pq ++ [(addD (some d0) e.length, nb)])
        (fun e2 he2 => hes e2 (List.mem_cons_of_mem e he2)) hcov2 hdb2 hpq2
      refine ⟨out, hout, hc3, hd3, hp3, ?_⟩
      have hpot := dpot_aupsert W dist nb.pos dnb
        (addD (some d0) e.length) hdnb
      have ho2 : dval W (addD (some d0) e.length) = d0 + e.length := rfl
      have hnewle : d0 + e.length ≤ W := by
        have := hdb2 nb.pos (d0 + e.length)
          (by rw [alookup_aupsert_self, hnew])
        omega
      have hdrop : dval W dnb ≥ d0 + e.length + 1 := by
        cases hdnbv : dnb with
        | none =>
          rw [show dval W none = W + 1 from rfl]
          omega
        | some dv =>
          rw [show dval W (some dv) = dv from rfl]
          rw [hdnbv] at hlt
          have hltv : d0 + e.length < dv := by
            rw [hnew] at hlt
            simpa only [ltD, decide_eq_true_eq] using hlt
          omega
      rw [show (pq ++ [(addD (some d0) e.length, nb)]).length
        = pq.length + 1 by simp] at hm3
      have ho : dval W (some (d0 + e.length)) = d0 + e.length := rfl
      omega
    · rw [if_neg hlt]
      exact dijkstraRelax_total hwf hmj W hnode rest dist parents pq
        (fun e2 he2 => hes e2 (List.mem_cons_of_mem e he2)) hcov hdb hpq

theorem dijkstraLoop_term {g : GraphS} {maxJ : Nat} (hwf : WF g)
    (hmj : maxJump g.matrix = .ok maxJ) (W : Nat) :
    ∀ (fuel : Nat) (dist : DistMap) (parents : ParentMap)
      (pq : List (Dist × NodeS)),
    (∀ p ∈ akeys g.nodes, (alookup dist p).isSome) →
    (∀ p d, alookup dist p = some (some d) → d + dinfCount dist * maxJ ≤ W) →
    (∀ en ∈ pq, alookup g.nodes en.2.pos = some en.2) →
    2 * dpot W dist + pq.length < fuel →
    ∃ r, dijkstraLoop g fuel dist parents pq = some r
  | 0, dist, parents, pq => by
    intro _ _ _ hlt
    omega
  | fuel + 1, dist, parents, [] => by
    intro _ _ _ _
    exact ⟨(none, parents), by rw [dijkstraLoop]⟩
  | fuel + 1, dist, parents, e :: pqt => by
    intro hcov hdb hpq hlt
    rw [dijkstraLoop] <;> try exact fun hcon => List.noConfusion hcon
    cases hp : popMinBy (fun (x : Dist × NodeS) => x.1) leD (e :: pqt) with
    | none => exact ⟨(none, parents), rfl⟩
    | some mp =>
      obtain ⟨⟨k, node⟩, pq'⟩ := mp
      simp only []
      have hperm := popMinBy_perm (fun (x : Dist × NodeS) => x.1) leD
        (e :: pqt) (k, node) pq' hp
      have hmem : (k, node) ∈ e :: pqt :=
        hperm.mem_iff.mpr (List.mem_cons_self _ pq')
      have hnode : alookup g.nodes node.pos = some node := hpq _ hmem
      have hpq' : ∀ en ∈ pq', alookup g.nodes en.2.pos = some en.2 :=
        fun en hen => hpq en (hperm.mem_iff.mpr (List.mem_cons_of_mem _ hen))
      have hlenpq : pq'.length + 1 = (e :: pqt).length := by
        have := hperm.length_eq
        rw [this]
        rfl
      by_cases hg : node.is_goal
      · rw [if_pos hg]
        exact ⟨(some node, parents), rfl⟩
      · rw [if_neg hg]
        obtain ⟨out, hout, hc2, hd2, hp2, hm2⟩ := dijkstraRelax_total hwf hmj
          W hnode node.edges dist parents pq' (fun e2 he2 => he2) hcov hdb hpq'
        rw [hout]
        obtain ⟨dist2, parents2, pq2⟩ := out
        refine dijkstraLoop_term hwf hmj W fuel dist2 parents2 pq2 hc2 hd2
          hp2 ?_
        have hm2b : 2 * dpot W dist2 + pq2.length
            ≤ 2 * dpot W dist + pq'.length := hm2
        rw [show (e :: pqt).length = pqt.length + 1 from rfl] at hlenpq hlt
        omega

theorem pathCost_snoc {g : GraphS} :
    ∀ (p : List Pos) (u v : Pos), (pathCost g p).isSome →
    p.getLast? = some u → (edgeTo g u v).isSome →
    (pathCost g (p ++ [v])).isSome
  | [], u, v => by intro _ hl _; cases hl
  | [x], u, v => by
    intro _ hl he
    have hx : x = u := by simpa using hl
    subst hx
    show ((edgeTo g x v).bind fun l => (pathCost g [v]).map (l + ·)).isSome
    rw [Option.isSome_iff_exists] at he
    obtain ⟨l1, hl1⟩ := he
    rw [hl1]
    rfl
  | x :: y :: t, u, v => by
    intro hc hl he
    have hstep : pathCost g (x :: y :: t)
        = (edgeTo g x y).bind fun l => (pathCost g (y :: t)).map (l + ·) := rfl
    rw [hstep] at hc
    cases hxy : edgeTo g x y with
    | none => rw [hxy] at hc; cases hc
    | some l1 =>
      rw [hxy] at hc
      cases hyt : pathCost g (y :: t) with
      | none => rw [hyt] at hc; cases hc
      | some c1 =>
        have hrec := pathCost_snoc (y :: t) u v (by rw [hyt]; rfl)
          (by rw [List.getLast?_cons_cons] at hl; exact hl) he
        show ((edgeTo g x y).bind
          fun l => (pathCost g ((y :: t) ++ [v])).map (l + ·)).isSome
        rw [hxy]
        rw [Option.isSome_iff_exists] at hrec
        obtain ⟨c2, hc2⟩ := hrec
        rw [hc2]
        rfl

theorem isPath_snoc {g : GraphS} {p : List Pos} {a u v : Pos}
    (hp : IsPath g p a u) (he : (edgeTo g u v).isSome)
    (hv : (alookup g.nodes v).isSome) : IsPath g (p ++ [v]) a v := by
  obtain ⟨hne, hhead, hlast, hnodes, hcost⟩ := hp
  refine ⟨by simp, head_append_of_some [v] hhead, by simp, ?_, ?_⟩
  · intro x hx
    rcases List.mem_append.mp hx with h1 | h1
    · exact hnodes x h1
    · rw [List.mem_singleton] at h1
      subst h1
      exact hv
  · exact pathCost_snoc p u v hcost hlast he

theorem seed_fold_facts (g : GraphS) :
    ∀ (l : List (Pos × NodeS))
      (st : DistMap × ParentMap × List (Dist × NodeS)),
    (∀ q, (alookup (l.foldl
        (fun st pn =>
          if pn.2.pos = g.root.pos then st
          else (aupsert st.1 pn.2.pos none, aupsert st.2.1 pn.2.pos none,
                st.2.2 ++ [(none, pn.2)])) st).1 q).isSome
      ∨ ¬ (alookup st.1 q).isSome) ∧
    (∀ q, (alookup (l.foldl
        (fun st pn =>
          if pn.2.pos = g.root.pos then st
          else (aupsert st.1 pn.2.pos none, aupsert st.2.1 pn.2.pos none,
                st.2.2 ++ [(none, pn.2)])) st).2.1 q).isSome
      ∨ ¬ (alookup st.2.1 q).isSome) ∧
    (∀ pn ∈ l, pn.2.pos = g.root.pos ∨
      ((alookup (l.foldl
        (fun st pn =>
          if pn.2.pos = g.root.pos then st
          else (aupsert st.1 pn.2.pos none, aupsert st.2.1 pn.2.pos none,
                st.2.2 ++ [(none, pn.2)])) st).1 pn.2.pos).isSome ∧
       (alookup (l.foldl
        (fun st pn =>
          if pn.2.pos = g.root.pos then st
          else (aupsert st.1 pn.2.pos none, aupsert st.2.1 pn.2.pos none,
                st.2.2 ++ [(none, pn.2)])) st).2.1 pn.2.pos).isSome)) ∧
    (∀ q w, alookup (l.foldl
        (fun st pn =>
          if pn.2.pos = g.root.pos then st
          else (aupsert st.1 pn.2.pos none, aupsert st.2.1 pn.2.pos none,
                st.2.2 ++ [(none, pn.2)])) st).1 q = some w →
      alookup st.1 q = some w ∨ w = none) ∧
    (∀ q w, alookup (l.foldl
        (fun st pn =>
          if pn.2.pos = g.root.pos then st
          else (aupsert st.1 pn.2.pos none, aupsert st.2.1 pn.2.pos none,
                st.2.2 ++ [(none, pn.2)])) st).2.1 q = some w →
      alookup st.2.1 q = some w ∨ w = none)
  | [], st => by
    refine ⟨fun q => ?_, fun q => ?_,
      fun pn hpn => absurd hpn (List.not_mem_nil pn),
      fun q w h => Or.inl h, fun q w h => Or.inl h⟩
    · by_cases h : (alookup st.1 q).isSome
      · exact Or.inl h
      · exact Or.inr h
    · by_cases h : (alookup st.2.1 q).isSome
      · exact Or.inl h
      · exact Or.inr h
  | pn :: t, st => by
    rw [List.foldl_cons]
    by_cases hroot : pn.2.pos = g.root.pos
    · rw [if_pos hroot]
      obtain ⟨h1, h2, h3, h4, h5⟩ := seed_fold_facts g t st
      refine ⟨h1, h2, ?_, h4, h5⟩
      intro qn hqn
      rcases List.mem_cons.mp hqn with hq | hq
      · subst hq
        exact Or.inl hroot
      · exact h3 qn hq
    · rw [if_neg hroot]
      obtain ⟨h1, h2, h3, h4, h5⟩ := seed_fold_facts g t
        (aupsert st.1 pn.2.pos none, aupsert st.2.1 pn.2.pos none,
         st.2.2 ++ [(none, pn.2)])
      refine ⟨?_, ?_, ?_, ?_, ?_⟩
      · intro q
        rcases h1 q with ha | ha
        · exact Or.inl ha
        · refine Or.inr fun hs => ha ?_
          exact isSome_mono_aupsert st.1 pn.2.pos q none hs
      · intro q
        rcases h2 q with ha | ha
        · exact Or.inl ha
        · refine Or.inr fun hs => ha ?_
          exact isSome_mono_aupsert st.2.1 pn.2.pos q none hs
      · intro qn hqn
        rcases List.mem_cons.mp hqn with hq | hq
        · subst hq
          refine Or.inr ⟨?_, ?_⟩
          · rcases h1 qn.2.pos with ha | ha
            · exact ha
            · exact absurd (show (alookup (aupsert st.1 qn.2.pos none)
                qn.2.pos).isSome by rw [alookup_aupsert_self]; rfl) ha
          · rcases h2 qn.2.pos with ha | ha
            · exact ha
            · exact absurd (show (alookup (aupsert st.2.1 qn.2.pos none)
                qn.2.pos).isSome by rw [alookup_aupsert_self]; rfl) ha
        · exact h3 qn hq
      · intro q w h
        rcases h4 q w h with ha | ha
        · by_cases hq : q = pn.2.pos
          · subst hq
            rw [alookup_aupsert_self] at ha
            exact Or.inr (Option.some.inj ha).symm
          · rw [alookup_aupsert_ne st.1 pn.2.pos q _ hq] at ha
            exact Or.inl ha
        · exact Or.inr ha
      · intro q w h
        rcases h5 q w h with ha | ha
        · by_cases hq : q = pn.2.pos
          · subst hq
            rw [alookup_aupsert_self] at ha
            exact Or.inr (Option.some.inj ha).symm
          · rw [alookup_aupsert_ne st.2.1 pn.2.pos q _ hq] at ha
            exact Or.inl ha
        · exact Or.inr ha

theorem dijkstraRelax_pq_arena {g : GraphS} (hwf : WF g) {node : NodeS}
    (hnode : alookup g.nodes node.pos = some node) :
    ∀ (es : List EdgeS) (dist : DistMap) (parents : ParentMap)
      (pq : List (Dist × NodeS))
      (out : DistMap × ParentMap × List (Dist × NodeS)),
    (∀ e ∈ es, e ∈ node.edges) →
    (∀ en ∈ pq, alookup g.nodes en.2.pos = some en.2) →
    dijkstraRelax g node es dist parents pq = some out →
    ∀ en ∈ out.2.2, alookup g.nodes en.2.pos = some en.2
  | [], dist, parents, pq, out => by
    intro hes hpq h
    rw [dijkstraRelax] at h
    have h2 := Option.some.inj h
    rw [← h2]
    exact hpq
  | e :: rest, dist, parents, pq, out => by
    intro hes hpq h
    rw [dijkstraRelax] at h
    cases hf : findNode g e.dest with
    | none => rw [hf] at h; cases h
    | some nb =>
      rw [hf] at h
      simp only [] at h
      have hnb : alookup g.nodes nb.pos = some nb := by
        have := (wf_lookup hwf hf).1
        rw [this]
        exact hf
      cases hdn : alookup dist node.pos with
      | none => rw [hdn] at h; cases h
      | some dn =>
        rw [hdn] at h
        simp only [] at h
        cases hdnb : alookup dist nb.pos with
        | none => rw [hdnb] at h; cases h
        | some dnb =>
          rw [hdnb] at h
          simp only [] at h
          by_cases hlt : ltD (addD dn e.length) dnb = true
          · rw [if_pos hlt] at h
            have hpq2 : ∀ en ∈ pq ++ [(addD dn e.length, nb)],
                alookup g.nodes en.2.pos = some en.2 := by
              intro en hen
              rcases List.mem_append.mp hen with h1 | h1
              · exact hpq en h1
              · rw [List.mem_singleton] at h1
                subst h1
                exact hnb
            exact dijkstraRelax_pq_arena hwf hnode rest _ _ _ out
              (fun e2 he2 => hes e2 (List.mem_cons_of_mem e he2)) hpq2 h
          · rw [if_neg hlt] at h
            exact dijkstraRelax_pq_arena hwf hnode rest dist parents pq out
              (fun e2 he2 => hes e2 (List.mem_cons_of_mem e he2)) hpq h

theorem dijkstraRelax_npinv {g : GraphS} (hwf : WF g) {node : NodeS}
    (hnode : alookup g.nodes node.pos = some node) :
    ∀ (es : List EdgeS) (dist : DistMap) (parents : ParentMap)
      (pq : List (Dist × NodeS)) (out : DistMap × ParentMap × List (Dist × NodeS)),
    (∀ e ∈ es, e ∈ node.edges) →
    (∀ q pn, alookup parents q = some (some pn) →
      ∃ path, IsPath g path g.start q) →
    (∀ p d, alookup dist p = some (some d) →
      ∃ path, IsPath g path g.start p) →
    (∀ p ∈ akeys g.nodes, (alookup parents p).isSome) →
    dijkstraRelax g node es dist parents pq = some out →
    (∀ q pn, alookup out.2.1 q = some (some pn) →
      ∃ path, IsPath g path g.start q) ∧
    (∀ p d, alookup out.1 p = some (some d) →
      ∃ path, IsPath g path g.start p) ∧
    (∀ p ∈ akeys g.nodes, (alookup out.2.1 p).isSome)
  | [], dist, parents, pq, out => by
    intro hes hN1 hN2 hN3 h
    rw [dijkstraRelax] at h
    have h2 := Option.some.inj h
    rw [← h2]
    exact ⟨hN1, hN2, hN3⟩
  | e :: rest, dist, parents, pq, out => by
    intro hes hN1 hN2 hN3 h
    rw [dijkstraRelax] at h
    cases hf : findNode g e.dest with
    | none => rw [hf] at h; cases h
    | some nb =>
      rw [hf] at h
      simp only [] at h
      have hnb : alookup g.nodes nb.pos = some nb := by
        have := (wf_lookup hwf hf).1
        rw [this]
        exact hf
      cases hdn : alookup dist node.pos with
      | none => rw [hdn] at h; cases h
      | some dn =>
        rw [hdn] at h
        simp only [] at h
        cases hdnb : alookup dist nb.pos with
        | none => rw [hdnb] at h; cases h
        | some dnb =>
          rw [hdnb] at h
          simp only [] at h
          by_cases hlt : ltD (addD dn e.length) dnb = true
          · rw [if_pos hlt] at h
            obtain ⟨d0, hd0⟩ : ∃ d0, dn = some d0 := by
              cases dn with
              | none =>
                rw [show addD none e.length = none from rfl] at hlt
                cases hlt
              | some d0 => exact ⟨d0, rfl⟩
            subst hd0
            obtain ⟨path0, hpath0⟩ := hN2 node.pos d0 hdn
            have hedge : (edgeTo g node.pos nb.pos).isSome := by
              have hed := edgeTo_of_edge hnode (hes e (List.mem_cons_self e rest))
              have : nb.pos = e.dest := (wf_lookup hwf hf).1
              rw [this]
              exact hed
            have hreach : ∃ path, IsPath g path g.start nb.pos :=
              ⟨path0 ++ [nb.pos],
                isPath_snoc hpath0 hedge (by rw [hnb]; rfl)⟩
            have hN1b : ∀ q pn, alookup (aupsert parents nb.pos (some node)) q
                = some (some pn) → ∃ path, IsPath g path g.start q := by
              intro q pn hq
              by_cases hqq : q = nb.pos
              · subst hqq
                exact hreach
              · rw [alookup_aupsert_ne parents nb.pos q _ hqq] at hq
                exact hN1 q pn hq
            have hN2b : ∀ p d, alookup (aupsert dist nb.pos
                (addD (some d0) e.length)) p = some (some d) →
                ∃ path, IsPath g path g.start p := by
              intro p d hp
              by_cases hpp : p = nb.pos
              · subst hpp
                exact hreach
              · rw [alookup_aupsert_ne dist nb.pos p _ hpp] at hp
                exact hN2 p d hp
            have hN3b : ∀ p ∈ akeys g.nodes,
                (alookup (aupsert parents nb.pos (some node)) p).isSome :=
              fun p hp => isSome_mono_aupsert parents nb.pos p _ (hN3 p hp)
            exact dijkstraRelax_npinv hwf hnode rest _ _ _ out
              (fun e2 he2 => hes e2 (List.mem_cons_of_mem e he2))
              hN1b hN2b hN3b h
          · rw [if_neg hlt] at h
            exact dijkstraRelax_npinv hwf hnode rest dist parents pq out
              (fun e2 he2 => hes e2 (List.mem_cons_of_mem e he2))
              hN1 hN2 hN3 h

theorem dijkstraLoop_npinv {g : GraphS} (hwf : WF g) :
    ∀ (fuel : Nat) (dist : DistMap) (parents : ParentMap)
      (pq : List (Dist × NodeS)) (res : Option NodeS) (parents' : ParentMap),
    (∀ q pn, alookup parents q = some (some pn) →
      ∃ path, IsPath g path g.start q) →
    (∀ p d, alookup dist p = some (some d) →
      ∃ path, IsPath g path g.start p) →
    (∀ p ∈ akeys g.nodes, (alookup parents p).isSome) →
    (∀ en ∈ pq, alookup g.nodes en.2.pos = some en.2) →
    dijkstraLoop g fuel dist parents pq = some (res, parents') →
    (∀ q pn, alookup parents' q = some (some pn) →
      ∃ path, IsPath g path g.start q) ∧
    (∀ p ∈ akeys g.nodes, (alookup parents' p).isSome) ∧
    ∀ gn, res = some gn → gn.pos = g.goal ∧ alookup g.nodes gn.pos = some gn
  | 0, _, _, _, _, _ => by intro _ _ _ _ h; cases h
  | fuel + 1, dist, parents, [], res, parents' => by
    intro hN1 hN2 hN3 hpq h
    rw [dijkstraLoop] at h
    have h2 := Option.some.inj h
    rw [Prod.mk.injEq] at h2
    rw [← h2.1, ← h2.2]
    exact ⟨hN1, hN3, fun gn hgn => by cases hgn⟩
  | fuel + 1, dist, parents, e :: pqt, res, parents' => by
    intro hN1 hN2 hN3 hpq h
    rw [dijkstraLoop] at h <;> try exact fun hcon => List.noConfusion hcon
    cases hp : popMinBy (fun (x : Dist × NodeS) => x.1) leD (e :: pqt) with
    | none =>
      rw [hp] at h
      have h2 := Option.some.inj h
      rw [Prod.mk.injEq] at h2
      rw [← h2.1, ← h2.2]
      exact ⟨hN1, hN3, fun gn hgn => by cases hgn⟩
    | some mp =>
      obtain ⟨⟨k, node⟩, pq'⟩ := mp
      rw [hp] at h
      simp only [] at h
      have hperm := popMinBy_perm (fun (x : Dist × NodeS) => x.1) leD
        (e :: pqt) (k, node) pq' hp
      have hmem : (k, node) ∈ e :: pqt :=
        hperm.mem_iff.mpr (List.mem_cons_self _ pq')
      have hnode : alookup g.nodes node.pos = some node := hpq _ hmem
      have hpq' : ∀ en ∈ pq', alookup g.nodes en.2.pos = some en.2 :=
        fun en hen => hpq en (hperm.mem_iff.mpr (List.mem_cons_of_mem _ hen))
      by_cases hg : node.is_goal
      · rw [if_pos hg] at h
        have h2 := Option.some.inj h
        rw [Prod.mk.injEq] at h2
        rw [← h2.1, ← h2.2]
        refine ⟨hN1, hN3, fun gn hgn => ?_⟩
        have hng : node = gn := Option.some.inj hgn
        have hdec := (wf_lookup hwf hnode).2.1
        rw [hg] at hdec
        rw [← hng]
        exact ⟨of_decide_eq_true hdec.symm, hnode⟩
      · rw [if_neg hg] at h
        cases he : dijkstraRelax g node node.edges dist parents pq' with
        | none => rw [he] at h; cases h
        | some dpq =>
          rw [he] at h
          obtain ⟨hn1, hn2, hn3⟩ := dijkstraRelax_npinv hwf hnode node.edges
            dist parents pq' dpq (fun e2 he2 => he2) hN1 hN2 hN3 he
          obtain ⟨dist2, parents2, pq2⟩ := dpq
          have hpq2 : ∀ en ∈ pq2, alookup g.nodes en.2.pos = some en.2 :=
            dijkstraRelax_pq_arena hwf hnode node.edges dist parents pq'
              (dist2, parents2, pq2) (fun e2 he2 => he2) hpq' he
          exact dijkstraLoop_npinv hwf fuel dist2 parents2 pq2 res parents'
            hn1 hn2 hn3 hpq2 h

theorem gsum_aupsert :
    ∀ (l : List (Pos × Nat)) (p : Pos) (v w : Nat), alookup l p = some v →
    gsum (aupsert l p w) + v = gsum l + w
  | [], p, v, w => by intro h; cases h
  | (q, x) :: t, p, v, w => by
    intro h
    unfold alookup at h
    unfold aupsert
    by_cases hq : q = p
    · rw [if_pos hq]
      rw [if_pos hq] at h
      have hv : x = v := Option.some.inj h
      unfold gsum
      rw [List.map_cons, List.map_cons, List.sum_cons, List.sum_cons]
      have hx : (q, x).2 = v := hv
      rw [show ((p, w).2 : Nat) = w from rfl, hx]
      omega
    · rw [if_neg hq]
      rw [if_neg hq] at h
      have ih := gsum_aupsert t p v w h
      unfold gsum at ih ⊢
      rw [List.map_cons, List.map_cons, List.sum_cons, List.sum_cons]
      omega

theorem gsum_aupsert_new :
    ∀ (l : List (Pos × Nat)) (p : Pos) (w : Nat), alookup l p = none →
    gsum (aupsert l p w) = gsum l + w
  | [], p, w => by
    intro _
    unfold gsum aupsert
    simp
  | (q, x) :: t, p, w => by
    intro h
    unfold alookup at h
    unfold aupsert
    by_cases hq : q = p
    · rw [if_pos hq] at h
      cases h
    · rw [if_neg hq]
      rw [if_neg hq] at h
      have ih := gsum_aupsert_new t p w h
      unfold gsum at ih ⊢
      rw [List.map_cons, List.map_cons, List.sum_cons, List.sum_cons]
      omega

theorem gmissing_aupsert_mem {g : GraphS} (gs : List (Pos × Nat)) (p : Pos)
    (w : Nat) (hp : p ∈ akeys gs) :
    gmissing g (aupsert gs p w) = gmissing g gs := by
  unfold gmissing
  have hk := akeys_aupsert_mem gs p w hp
  rw [List.filter_congr]
  intro x _
  rw [hk]

theorem gmissing_aupsert_new {g : GraphS} (gs : List (Pos × Nat)) (p : Pos)
    (w : Nat) (hp : p ∉ akeys gs) (hpn : p ∈ akeys g.nodes) :
    gmissing g (aupsert gs p w) < gmissing g gs := by
  unfold gmissing
  have hk := akeys_aupsert_not_mem gs p w hp
  have hcongr : (akeys g.nodes).filter
      (fun x => decide (x ∉ akeys (aupsert gs p w)))
      = (akeys g.nodes).filter (fun x => decide (x ∉ p :: akeys gs)) := by
    apply List.filter_congr
    intro x _
    rw [hk]
    simp only [decide_eq_decide]
    constructor
    · intro hx hc
      rcases List.mem_cons.mp hc with h1 | h1
      · exact hx (by rw [h1]; simp)
      · exact hx (by simp [h1])
    · intro hx hc
      rcases List.mem_append.mp hc with h1 | h1
      · exact hx (List.mem_cons_of_mem p h1)
      · rw [List.mem_singleton] at h1
        exact hx (h1 ▸ List.mem_cons_self p (akeys gs))
  rw [hcongr]
  exact filter_not_mem_lt (akeys g.nodes) (akeys gs) p hpn hp

theorem gmissing_aupsert_le {g : GraphS} (gs : List (Pos × Nat)) (p : Pos)
    (w : Nat) (hpn : p ∈ akeys g.nodes) :
    gmissing g (aupsert gs p w) ≤ gmissing g gs := by
  by_cases hp : p ∈ akeys gs
  · rw [gmissing_aupsert_mem gs p w hp]
  · exact Nat.le_of_lt (gmissing_aupsert_new gs p w hp hpn)

theorem aStarRelax_total {g : GraphS} {maxJ : Nat} (hwf : WF g)
    (hmj : maxJump g.matrix = .ok maxJ) (W : Nat) {node : NodeS}
    (hnode : alookup g.nodes node.pos = some node) :
    ∀ (es : List EdgeS) (gs : List (Pos × Nat)) (fs : List (Pos × Int))
      (parents : ParentMap) (pq : List (Int × NodeS)),
    (∀ e ∈ es, e ∈ node.edges) →
    (alookup gs node.pos).isSome →
    (∀ p d, alookup gs p = some d → d + gmissing g gs * maxJ ≤ W) →
    (∀ en ∈ pq, alookup g.nodes en.2.pos = some en.2 ∧
      (alookup gs en.2.pos).isSome) →
    ∃ out, aStarRelax g node es gs fs parents pq = some out ∧
      (∀ p d, alookup out.1 p = some d →
        d + gmissing g out.1 * maxJ ≤ W) ∧
      (∀ en ∈ out.2.2.2, alookup g.nodes en.2.pos = some en.2 ∧
        (alookup out.1 en.2.pos).isSome) ∧
      (∀ q, (alookup gs q).isSome → (alookup out.1 q).isSome) ∧
      2 * apot W g out.1 + out.2.2.2.length ≤ 2 * apot W g gs + pq.length
  | [], gs, fs, parents, pq => by
    intro hes hgn hdb hpq
    exact ⟨(gs, fs, parents, pq), rfl, hdb, hpq, fun q hq => hq, by simp⟩
  | e :: rest, gs, fs, parents, pq => by
    intro hes hgn hdb hpq
    have hdest : (alookup g.nodes e.dest).isSome :=
      ((wf_lookup hwf hnode).2.2 e (hes e (List.mem_cons_self e rest))).1
    rw [Option.isSome_iff_exists] at hdest
    obtain ⟨nb, hnb0⟩ := hdest
    have hnb : alookup g.nodes nb.pos = some nb := by
      have := (wf_lookup hwf hnb0).1
      rw [this]
      exact hnb0
    have hnbk : nb.pos ∈ akeys g.nodes := by
      rw [mem_akeys_iff_isSome, hnb]
      rfl
    have hlen : e.length ≤ maxJ :=
      wf_edge_len_le hwf hmj hnode e (hes e (List.mem_cons_self e rest))
    rw [Option.isSome_iff_exists] at hgn
    obtain ⟨gn, hgnv⟩ := hgn
    rw [aStarRelax]
    rw [show findNode g e.dest = some nb from hnb0]
    try simp only []
    rw [hgnv]
    try simp only []
    have hgnb := hdb node.pos gn hgnv
    cases hgnb2 : alookup gs nb.pos with
    | none =>
      try simp only []
      rw [if_pos trivial]
      have hnbnk : nb.pos ∉ akeys gs := by
        rw [mem_akeys_iff_isSome, hgnb2]
        simp
      have hgm := gmissing_aupsert_new (g := g) gs nb.pos (gn + e.length)
        hnbnk hnbk
      have hdb2 : ∀ p d, alookup (aupsert gs nb.pos (gn + e.length)) p
          = some d →
          d + gmissing g (aupsert gs nb.pos (gn + e.length)) * maxJ ≤ W := by
        intro p d hp
        have hgmle : gmissing g (aupsert gs nb.pos (gn + e.length)) + 1
            ≤ gmissing g gs := hgm
        have hmul : gmissing g (aupsert gs nb.pos (gn + e.length)) * maxJ
            + maxJ ≤ gmissing g gs * maxJ := by
          have := Nat.mul_le_mul_right maxJ hgmle
          calc gmissing g (aupsert gs nb.pos (gn + e.length)) * maxJ + maxJ
              = (gmissing g (aupsert gs nb.pos (gn + e.length)) + 1) * maxJ :=
                by ring
            _ ≤ gmissing g gs * maxJ := this
        by_cases hpp : p = nb.pos
        · subst hpp
          rw [alookup_aupsert_self] at hp
          have hd : d = gn + e.length := (Option.some.inj hp).symm
          subst hd
          omega
        · rw [alookup_aupsert_ne gs nb.pos p _ hpp] at hp
          have := hdb p d hp
          omega
      have hpq2 : ∀ en ∈ pq ++
          [(((gn + e.length : Nat) : Int) + nb.heuristic, nb)],
          alookup g.nodes en.2.pos = some en.2 ∧
          (alookup (aupsert gs nb.pos (gn + e.length)) en.2.pos).isSome := by
        intro en hen
        rcases List.mem_append.mp hen with h1 | h1
        · exact ⟨(hpq en h1).1,
            isSome_mono_aupsert gs nb.pos en.2.pos _ (hpq en h1).2⟩
        · rw [List.mem_singleton] at h1
          subst h1
          exact ⟨hnb, by rw [alookup_aupsert_self]; rfl⟩
      obtain ⟨out, hout, hdb3, hpq3, hmono3, hm3⟩ := aStarRelax_total hwf hmj
        W hnode rest (aupsert gs nb.pos (gn + e.length)) _ _ _
        (fun e2 he2 => hes e2 (List.mem_cons_of_mem e he2))
        (isSome_mono_aupsert gs nb.pos node.pos _ (by rw [hgnv]; rfl))
        hdb2 hpq2
      refine ⟨out, hout, hdb3,
        hpq3, fun q hq => hmono3 q (isSome_mono_aupsert gs nb.pos q _ hq), ?_⟩
      have hnewle : gn + e.length ≤ W := by
        have := hdb2 nb.pos (gn + e.length) (by rw [alookup_aupsert_self])
        omega
      have hsum := gsum_aupsert_new gs nb.pos (gn + e.length)
        (by rw [mem_akeys_iff_isSome] at hnbk; exact
          Option.not_isSome_iff_eq_none.mp (by rw [hgnb2]; simp))
      unfold apot at hm3 ⊢
      have hWgm : (W + 1) * gmissing g (aupsert gs nb.pos (gn + e.length))
          + (W + 1) ≤ (W + 1) * gmissing g gs := by
        have hle : gmissing g (aupsert gs nb.pos (gn + e.length)) + 1
            ≤ gmissing g gs := hgm
        calc (W + 1) * gmissing g (aupsert gs nb.pos (gn + e.length)) + (W + 1)
            = (W + 1) * (gmissing g (aupsert gs nb.pos (gn + e.length)) + 1) :=
              by ring
          _ ≤ (W + 1) * gmissing g gs := Nat.mul_le_mul_left (W + 1) hle
      rw [show (pq ++ [(((gn + e.length : Nat) : Int) + nb.heuristic, nb)]).length
        = pq.length + 1 by simp] at hm3
      omega
    | some gnb =>
      try simp only []
      by_cases hlt : gn + e.length < gnb
      · rw [if_pos (by simpa using hlt)]
        have hnbik : nb.pos ∈ akeys gs := by
          rw [mem_akeys_iff_isSome, hgnb2]
          rfl
        have hgm := gmissing_aupsert_mem (g := g) gs nb.pos (gn + e.length)
          hnbik
        have hdb2 : ∀ p d, alookup (aupsert gs nb.pos (gn + e.length)) p
            = some d →
            d + gmissing g (aupsert gs nb.pos (gn + e.length)) * maxJ ≤ W := by
          intro p d hp
          rw [hgm]
          by_cases hpp : p = nb.pos
          · subst hpp
            rw [alookup_aupsert_self] at hp
            have hd : d = gn + e.length := (Option.some.inj hp).symm
            subst hd
            have := hdb nb.pos gnb hgnb2
            omega
          · rw [alookup_aupsert_ne gs nb.pos p _ hpp] at hp
            exact hdb p d hp
        have hpq2 : ∀ en ∈ pq ++
            [(((gn + e.length : Nat) : Int) + nb.heuristic, nb)],
            alookup g.nodes en.2.pos = some en.2 ∧
            (alookup (aupsert gs nb.pos (gn + e.length)) en.2.pos).isSome := by
          intro en hen
          rcases List.mem_append.mp hen with h1 | h1
          · exact ⟨(hpq en h1).1,
              isSome_mono_aupsert gs nb.pos en.2.pos _ (hpq en h1).2⟩
          · rw [List.mem_singleton] at h1
            subst h1
            exact ⟨hnb, by rw [alookup_aupsert_self]; rfl⟩
        obtain ⟨out, hout, hdb3, hpq3, hmono3, hm3⟩ := aStarRelax_total hwf
          hmj W hnode rest (aupsert gs nb.pos (gn + e.length)) _ _ _
          (fun e2 he2 => hes e2 (List.mem_cons_of_mem e he2))
          (isSome_mono_aupsert gs nb.pos node.pos _ (by rw [hgnv]; rfl))
          hdb2 hpq2
        refine ⟨out, hout, hdb3,
          hpq3, fun q hq => hmono3 q (isSome_mono_aupsert gs nb.pos q _ hq), ?_⟩
        have hsum := gsum_aupsert gs nb.pos gnb (gn + e.length) hgnb2
        unfold apot at hm3 ⊢
        rw [hgm] at hm3
        rw [show (pq ++
          [(((gn + e.length : Nat) : Int) + nb.heuristic, nb)]).length
          = pq.length + 1 by simp] at hm3
        omega
      · rw [if_neg (by simpa using hlt)]
        exact aStarRelax_total hwf hmj W hnode rest gs fs parents pq
          (fun e2 he2 => hes e2 (List.mem_cons_of_mem e he2))
          (by rw [hgnv]; rfl) hdb hpq

theorem aStarLoop_term {g : GraphS} {maxJ : Nat} (hwf : WF g)
    (hmj : maxJump g.matrix = .ok maxJ) (W : Nat) :
    ∀ (fuel : Nat) (visited : List Pos) (gs : List (Pos × Nat))
      (fs : List (Pos × Int)) (parents : ParentMap) (pq : List (Int × NodeS)),
    (∀ p d, alookup gs p = some d → d + gmissing g gs * maxJ ≤ W) →
    (∀ en ∈ pq, alookup g.nodes en.2.pos = some en.2 ∧
      (alookup gs en.2.pos).isSome) →
    2 * apot W g gs + pq.length < fuel →
    ∃ r, aStarLoop g fuel visited gs fs parents pq = some r
  | 0, visited, gs, fs, parents, pq => by
    intro _ _ hlt
    omega
  | fuel + 1, visited, gs, fs, parents, [] => by
    intro _ _ _
    exact ⟨(none, parents), by rw [aStarLoop]⟩
  | fuel + 1, visited, gs, fs, parents, e :: pqt => by
    intro hdb hpq hlt
    rw [aStarLoop] <;> try exact fun hcon => List.noConfusion hcon
    cases hp : popMinBy (fun (x : Int × NodeS) => x.1)
        (fun a b => decide (a ≤ b)) (e :: pqt) with
    | none => exact ⟨(none, parents), rfl⟩
    | some mp =>
      obtain ⟨⟨k, node⟩, pq'⟩ := mp
      simp only []
      have hperm := popMinBy_perm (fun (x : Int × NodeS) => x.1)
        (fun a b => decide (a ≤ b)) (e :: pqt) (k, node) pq' hp
      have hmem : (k, node) ∈ e :: pqt :=
        hperm.mem_iff.mpr (List.mem_cons_self _ pq')
      have hnode : alookup g.nodes node.pos = some node := (hpq _ hmem).1
      have hgn : (alookup gs node.pos).isSome := (hpq _ hmem).2
      have hpq' : ∀ en ∈ pq', alookup g.nodes en.2.pos = some en.2 ∧
          (alookup gs en.2.pos).isSome :=
        fun en hen => hpq en (hperm.mem_iff.mpr (List.mem_cons_of_mem _ hen))
      have hlenpq : pq'.length + 1 = (e :: pqt).length := by
        have := hperm.length_eq
        rw [this]
        rfl
      by_cases hv : node.pos ∈ visited
      · rw [if_pos hv]
        refine aStarLoop_term hwf hmj W fuel visited gs fs parents pq' hdb
          hpq' ?_
        rw [show (e :: pqt).length = pqt.length + 1 from rfl] at hlenpq hlt
        omega
      · rw [if_neg hv]
        by_cases hg : node.is_goal
        · rw [if_pos hg]
          exact ⟨(some node, parents), rfl⟩
        · rw [if_neg hg]
          obtain ⟨out, hout, hdb2, hpq2, hmono2, hm2⟩ := aStarRelax_total hwf
            hmj W hnode node.edges gs fs parents pq' (fun e2 he2 => he2) hgn
            hdb hpq'
          rw [hout]
          obtain ⟨gs2, fs2, parents2, pq2⟩ := out
          refine aStarLoop_term hwf hmj W fuel (node.pos :: visited) gs2 fs2
            parents2 pq2 hdb2 hpq2 ?_
          have hm2b : 2 * apot W g gs2 + pq2.length
              ≤ 2 * apot W g gs + pq'.length := hm2
          rw [show (e :: pqt).length = pqt.length + 1 from rfl] at hlenpq hlt
          omega

theorem dfsExpand_reach {g : GraphS} (hwf : WF g) {node : NodeS}
    (hnode : alookup g.nodes node.pos = some node)
    (hr : ∃ p, IsPath g p g.start node.pos) :
    ∀ (es : List EdgeS) (stack : List NodeS) (visited : List Pos)
      (parents : ParentMap) (out : List NodeS × ParentMap),
    (∀ e ∈ es, e ∈ node.edges) →
    (∀ n ∈ stack, alookup g.nodes n.pos = some n ∧
      ∃ p, IsPath g p g.start n.pos) →
    dfsExpand g node visited es stack parents = some out →
    ∀ n ∈ out.1, alookup g.nodes n.pos = some n ∧
      ∃ p, IsPath g p g.start n.pos
  | [], stack, visited, parents, out => by
    intro hes hstack h
    rw [dfsExpand] at h
    have h2 := Option.some.inj h
    rw [← h2]
    exact hstack
  | e :: rest, stack, visited, parents, out => by
    intro hes hstack h
    rw [dfsExpand] at h
    cases hf : findNode g e.dest with
    | none => rw [hf] at h; cases h
    | some nb =>
      rw [hf] at h
      simp only [] at h
      have hnb : alookup g.nodes nb.pos = some nb := by
        have := (wf_lookup hwf hf).1
        rw [this]
        exact hf
      by_cases hv : nb.pos ∈ visited
      · rw [if_pos hv] at h
        exact dfsExpand_reach hwf hnode hr rest stack visited parents out
          (fun e2 he2 => hes e2 (List.mem_cons_of_mem e he2)) hstack h
      · rw [if_neg hv] at h
        have hedge : (edgeTo g node.pos nb.pos).isSome := by
          have hed := edgeTo_of_edge hnode (hes e (List.mem_cons_self e rest))
          have : nb.pos = e.dest := (wf_lookup hwf hf).1
          rw [this]
          exact hed
        have hstack2 : ∀ n ∈ nb :: stack, alookup g.nodes n.pos = some n ∧
            ∃ p, IsPath g p g.start n.pos := by
          intro n hn
          rcases List.mem_cons.mp hn with h1 | h1
          · subst h1
            obtain ⟨p0, hp0⟩ := hr
            exact ⟨hnb, p0 ++ [n.pos],
              isPath_snoc hp0 hedge (by rw [hnb]; rfl)⟩
          · exact hstack n h1
        exact dfsExpand_reach hwf hnode hr rest (nb :: stack) visited _ out
          (fun e2 he2 => hes e2 (List.mem_cons_of_mem e he2)) hstack2 h

theorem dfsLoop_noreach {g : GraphS} (hwf : WF g) (hnr : ¬ Reach g) :
    ∀ (fuel : Nat) (stack : List NodeS) (visited : List Pos)
      (parents : ParentMap) (res : Option NodeS) (parents' : ParentMap),
    (∀ n ∈ stack, alookup g.nodes n.pos = some n ∧
      ∃ p, IsPath g p g.start n.pos) →
    dfsLoop g fuel stack visited parents = some (res, parents') →
    res = none
  | 0, _, _, _, _, _ => by intro _ h; cases h
  | fuel + 1, [], visited, parents, res, parents' => by
    intro _ h
    rw [dfsLoop] at h
    have h2 := Option.some.inj h
    rw [Prod.mk.injEq] at h2
    exact h2.1.symm
  | fuel + 1, node :: rest, visited, parents, res, parents' => by
    intro hstack h
    rw [dfsLoop] at h
    by_cases hg : node.is_goal
    · exfalso
      obtain ⟨hnode, p0, hp0⟩ := hstack node (List.mem_cons_self node rest)
      have hdec := (wf_lookup hwf hnode).2.1
      rw [hg] at hdec
      have hpos : node.pos = g.goal := of_decide_eq_true hdec.symm
      exact hnr ⟨p0, by rw [← hpos]; exact hp0⟩
    · rw [if_neg hg] at h
      by_cases hv : node.pos ∈ visited
      · rw [if_pos hv] at h
        exact dfsLoop_noreach hwf hnr fuel rest visited parents res parents'
          (fun n hn => hstack n (List.mem_cons_of_mem node hn)) h
      · rw [if_neg hv] at h
        cases he : dfsExpand g node (node.pos :: visited) node.edges.reverse
            rest parents with
        | none => rw [he] at h; cases h
        | some sp =>
          rw [he] at h
          obtain ⟨hnode, hr⟩ := hstack node (List.mem_cons_self node rest)
          have hout := dfsExpand_reach hwf hnode hr node.edges.reverse rest
            (node.pos :: visited) parents sp
            (fun e2 he2 => by rw [List.mem_reverse] at he2; exact he2)
            (fun n hn => hstack n (List.mem_cons_of_mem node hn)) he
          obtain ⟨stack2, parents2⟩ := sp
          exact dfsLoop_noreach hwf hnr fuel stack2 (node.pos :: visited)
            parents2 res parents' hout h

theorem bfsExpand_reach {g : GraphS} (hwf : WF g) {node : NodeS}
    (hnode : alookup g.nodes node.pos = some node)
    (hr : ∃ p, IsPath g p g.start node.pos) :
    ∀ (es : List EdgeS) (queue : List NodeS) (visited : List Pos)
      (parents : ParentMap) (out : List NodeS × List Pos × ParentMap),
    (∀ e ∈ es, e ∈ node.edges) →
    (∀ n ∈ queue, alookup g.nodes n.pos = some n ∧
      ∃ p, IsPath g p g.start n.pos) →
    bfsExpand g node es queue visited parents = some out →
    ∀ n ∈ out.1, alookup g.nodes n.pos = some n ∧
      ∃ p, IsPath g p g.start n.pos
  | [], queue, visited, parents, out => by
    intro hes hq h
    rw [bfsExpand] at h
    have h2 := Option.some.inj h
    rw [← h2]
    exact hq
  | e :: rest, queue, visited, parents, out => by
    intro hes hq h
    rw [bfsExpand] at h
    cases hf : findNode g e.dest with
    | none => rw [hf] at h; cases h
    | some nb =>
      rw [hf] at h
      simp only [] at h
      have hnb : alookup g.nodes nb.pos = some nb := by
        have := (wf_lookup hwf hf).1
        rw [this]
        exact hf
      by_cases hv : nb.pos ∈ visited
      · rw [if_pos hv] at h
        exact bfsExpand_reach hwf hnode hr rest queue visited parents out
          (fun e2 he2 => hes e2 (List.mem_cons_of_mem e he2)) hq h
      · rw [if_neg hv] at h
        have hedge : (edgeTo g node.pos nb.pos).isSome := by
          have hed := edgeTo_of_edge hnode (hes e (List.mem_cons_self e rest))
          have : nb.pos = e.dest := (wf_lookup hwf hf).1
          rw [this]
          exact hed
        have hq2 : ∀ n ∈ queue ++ [nb], alookup g.nodes n.pos = some n ∧
            ∃ p, IsPath g p g.start n.pos := by
          intro n hn
          rcases List.mem_append.mp hn with h1 | h1
          · exact hq n h1
          · rw [List.mem_singleton] at h1
            subst h1
            obtain ⟨p0, hp0⟩ := hr
            exact ⟨hnb, p0 ++ [n.pos],
              isPath_snoc hp0 hedge (by rw [hnb]; rfl)⟩
        exact bfsExpand_reach hwf hnode hr rest (queue ++ [nb])
          (nb.pos :: visited) _ out
          (fun e2 he2 => hes e2 (List.mem_cons_of_mem e he2)) hq2 h

theorem bfsLoop_noreach {g : GraphS} (hwf : WF g) (hnr : ¬ Reach g) :
    ∀ (fuel : Nat) (queue : List NodeS) (visited : List Pos)
      (parents : ParentMap) (res : Option NodeS) (parents' : ParentMap),
    (∀ n ∈ queue, alookup g.nodes n.pos = some n ∧
      ∃ p, IsPath g p g.start n.pos) →
    bfsLoop g fuel queue visited parents = some (res, parents') →
    res = none
  | 0, _, _, _, _, _ => by intro _ h; cases h
  | fuel + 1, [], visited, parents, res, parents' => by
    intro _ h
    rw [bfsLoop] at h
    have h2 := Option.some.inj h
    rw [Prod.mk.injEq] at h2
    exact h2.1.symm
  | fuel + 1, node :: rest, visited, parents, res, parents' => by
    intro hq h
    rw [bfsLoop] at h
    by_cases hg : node.is_goal
    · exfalso
      obtain ⟨hnode, p0, hp0⟩ := hq node (List.mem_cons_self node rest)
      have hdec := (wf_lookup hwf hnode).2.1
      rw [hg] at hdec
      have hpos : node.pos = g.goal := of_decide_eq_true hdec.symm
      exact hnr ⟨p0, by rw [← hpos]; exact hp0⟩
    · rw [if_neg hg] at h
      cases he : bfsExpand g node node.edges rest visited parents with
      | none => rw [he] at h; cases h
      | some sp =>
        rw [he] at h
        obtain ⟨hnode, hr⟩ := hq node (List.mem_cons_self node rest)
        have hout := bfsExpand_reach hwf hnode hr node.edges rest visited
          parents sp (fun e2 he2 => he2)
          (fun n hn => hq n (List.mem_cons_of_mem node hn)) he
        obtain ⟨queue2, visited2, parents2⟩ := sp
        exact bfsLoop_noreach hwf hnr fuel queue2 visited2 parents2 res
          parents' hout h

theorem aStarRelax_reach {g : GraphS} (hwf : WF g) {node : NodeS}
    (hnode : alookup g.nodes node.pos = some node)
    (hr : ∃ p, IsPath g p g.start node.pos) :
    ∀ (es : List EdgeS) (gs : List (Pos × Nat)) (fs : List (Pos × Int))
      (parents : ParentMap) (pq : List (Int × NodeS))
      (out : List (Pos × Nat) × List (Pos × Int) × ParentMap ×
        List (Int × NodeS)),
    (∀ e ∈ es, e ∈ node.edges) →
    (∀ en ∈ pq, alookup g.nodes en.2.pos = some en.2 ∧
      ∃ p, IsPath g p g.start en.2.pos) →
    aStarRelax g node es gs fs parents pq = some out →
    ∀ en ∈ out.2.2.2, alookup g.nodes en.2.pos = some en.2 ∧
      ∃ p, IsPath g p g.start en.2.pos
  | [], gs, fs, parents, pq, out => by
    intro hes hpq h
    rw [aStarRelax] at h
    have h2 := Option.some.inj h
    rw [← h2]
    exact hpq
  | e :: rest, gs, fs, parents, pq, out => by
    intro hes hpq h
    rw [aStarRelax] at h
    cases hf : findNode g e.dest with
    | none => rw [hf] at h; cases h
    | some nb =>
      rw [hf] at h
      simp only [] at h
      have hnb : alookup g.nodes nb.pos = some nb := by
        have := (wf_lookup hwf hf).1
        rw [this]
        exact hf
      cases hgn : alookup gs node.pos with
      | none => rw [hgn] at h; cases h
      | some gn =>
        rw [hgn] at h
        simp only [] at h
        split at h
        · have hedge : (edgeTo g node.pos nb.pos).isSome := by
            have hed := edgeTo_of_edge hnode (hes e (List.mem_cons_self e rest))
            have : nb.pos = e.dest := (wf_lookup hwf hf).1
            rw [this]
            exact hed
          have hpq2 : ∀ en ∈ pq ++
              [(((gn + e.length : Nat) : Int) + nb.heuristic, nb)],
              alookup g.nodes en.2.pos = some en.2 ∧
              ∃ p, IsPath g p g.start en.2.pos := by
            intro en hen
            rcases List.mem_append.mp hen with h1 | h1
            · exact hpq en h1
            · rw [List.mem_singleton] at h1
              subst h1
              obtain ⟨p0, hp0⟩ := hr
              exact ⟨hnb, p0 ++ [nb.pos],
                isPath_snoc hp0 hedge (by rw [hnb]; rfl)⟩
          exact aStarRelax_reach hwf hnode hr rest _ _ _ _ out
            (fun e2 he2 => hes e2 (List.mem_cons_of_mem e he2)) hpq2 h
        · exact aStarRelax_reach hwf hnode hr rest gs fs parents pq out
            (fun e2 he2 => hes e2 (List.mem_cons_of_mem e he2)) hpq h

theorem aStarLoop_noreach {g : GraphS} (hwf : WF g) (hnr : ¬ Reach g) :
    ∀ (fuel : Nat) (visited : List Pos) (gs : List (Pos × Nat))
      (fs : List (Pos × Int)) (parents : ParentMap) (pq : List (Int × NodeS))
      (res : Option NodeS) (parents' : ParentMap),
    (∀ en ∈ pq, alookup g.nodes en.2.pos = some en.2 ∧
      ∃ p, IsPath g p g.start en.2.pos) →
    aStarLoop g fuel visited gs fs parents pq = some (res, parents') →
    res = none
  | 0, _, _, _, _, _, _, _ => by intro _ h; cases h
  | fuel + 1, visited, gs, fs, parents, [], res, parents' => by
    intro _ h
    rw [aStarLoop] at h
    have h2 := Option.some.inj h
    rw [Prod.mk.injEq] at h2
    exact h2.1.symm
  | fuel + 1, visited, gs, fs, parents, e :: pqt, res, parents' => by
    intro hpq h
    rw [aStarLoop] at h <;> try exact fun hcon => List.noConfusion hcon
    cases hp : popMinBy (fun (x : Int × NodeS) => x.1)
        (fun a b => decide (a ≤ b)) (e :: pqt) with
    | none =>
      rw [hp] at h
      have h2 := Option.some.inj h
      rw [Prod.mk.injEq] at h2
      exact h2.1.symm
    | some mp =>
      obtain ⟨⟨k, node⟩, pq'⟩ := mp
      rw [hp] at h
      simp only [] at h
      have hperm := popMinBy_perm (fun (x : Int × NodeS) => x.1)
        (fun a b => decide (a ≤ b)) (e :: pqt) (k, node) pq' hp
      have hmem : (k, node) ∈ e :: pqt :=
        hperm.mem_iff.mpr (List.mem_cons_self _ pq')
      have hnode : alookup g.nodes node.pos = some node := (hpq _ hmem).1
      have hr : ∃ p, IsPath g p g.start node.pos := (hpq _ hmem).2
      have hpq' : ∀ en ∈ pq', alookup g.nodes en.2.pos = some en.2 ∧
          ∃ p, IsPath g p g.start en.2.pos :=
        fun en hen => hpq en (hperm.mem_iff.mpr (List.mem_cons_of_mem _ hen))
      by_cases hv : node.pos ∈ visited
      · rw [if_pos hv] at h
        exact aStarLoop_noreach hwf hnr fuel visited gs fs parents pq' res
          parents' hpq' h
      · rw [if_neg hv] at h
        by_cases hg : node.is_goal
        · exfalso
          obtain ⟨p0, hp0⟩ := hr
          have hdec := (wf_lookup hwf hnode).2.1
          rw [hg] at hdec
          have hpos : node.pos = g.goal := of_decide_eq_true hdec.symm
          exact hnr ⟨p0, by rw [← hpos]; exact hp0⟩
        · rw [if_neg hg] at h
          cases he : aStarRelax g node node.edges gs fs parents pq' with
          | none => rw [he] at h; cases h
          | some st =>
            rw [he] at h
            have hout := aStarRelax_reach hwf hnode hr node.edges gs fs
              parents pq' st (fun e2 he2 => he2) hpq' he
            obtain ⟨gs2, fs2, parents2, pq2⟩ := st
            exact aStarLoop_noreach hwf hnr fuel (node.pos :: visited) gs2
              fs2 parents2 pq2 res parents' hout h

theorem start_self_path {g : GraphS} (hwf : WF g) :
    IsPath g [g.start] g.start g.start := by
  obtain ⟨maxJ, hmj, hone, hga, hroot⟩ := id hwf
  refine ⟨by simp, rfl, rfl, ?_, by rfl⟩
  intro x hx
  rw [List.mem_singleton] at hx
  subst hx
  rw [hroot]
  rfl

theorem dfs_no_path {g : GraphS} (hwf : WF g) (hnr : ¬ Reach g) :
    Returns (dfs g) none := by
  obtain ⟨maxJ, hmj, hone, hga, hroot⟩ := id hwf
  have hrootpos : g.root.pos = g.start := (wf_lookup hwf hroot).1
  have hstackinv : ∀ n ∈ [g.root], alookup g.nodes n.pos = some n ∧
      ∃ p, IsPath g p g.start n.pos := by
    intro n hn
    rw [List.mem_singleton] at hn
    subst hn
    rw [hrootpos]
    exact ⟨hroot, [g.start], start_self_path hwf⟩
  obtain ⟨r, hloop⟩ := dfsLoop_term hwf (5 * unvis g [] + 2) [g.root] []
    [(g.root.pos, none)] (fun n hn => (hstackinv n hn).1)
    (by rw [show ([g.root] : List NodeS).length = 1 from rfl]; omega)
  obtain ⟨res, parents'⟩ := r
  have hres : res = none :=
    dfsLoop_noreach hwf hnr (5 * unvis g [] + 2) [g.root] []
      [(g.root.pos, none)] res parents' hstackinv hloop
  subst hres
  refine ⟨5 * unvis g [] + 2, ?_⟩
  unfold dfs
  rw [hloop]
  rfl

theorem bfs_no_path {g : GraphS} (hwf : WF g) (hnr : ¬ Reach g) :
    Returns (bfs g) none := by
  obtain ⟨maxJ, hmj, hone, hga, hroot⟩ := id hwf
  have hrootpos : g.root.pos = g.start := (wf_lookup hwf hroot).1
  have hqinv : ∀ n ∈ [g.root], alookup g.nodes n.pos = some n ∧
      ∃ p, IsPath g p g.start n.pos := by
    intro n hn
    rw [List.mem_singleton] at hn
    subst hn
    rw [hrootpos]
    exact ⟨hroot, [g.start], start_self_path hwf⟩
  obtain ⟨r, hloop⟩ := bfsLoop_term hwf (2 * unvis g [g.root.pos] + 2)
    [g.root] [g.root.pos] [(g.root.pos, none)]
    (fun n hn => (hqinv n hn).1)
    (by rw [show ([g.root] : List NodeS).length = 1 from rfl]; omega)
  obtain ⟨res, parents'⟩ := r
  have hres : res = none :=
    bfsLoop_noreach hwf hnr (2 * unvis g [g.root.pos] + 2) [g.root]
      [g.root.pos] [(g.root.pos, none)] res parents' hqinv hloop
  subst hres
  refine ⟨2 * unvis g [g.root.pos] + 2, ?_⟩
  unfold bfs
  rw [hloop]
  rfl

theorem ucsRun_no_path {g : GraphS} (hwf : WF g) (hnr : ¬ Reach g)
    (inc : EdgeS → NodeS → Nat) : Returns (ucsRun g inc) none := by
  obtain ⟨maxJ, hmj, hone, hga, hroot⟩ := id hwf
  have hrootpos : g.root.pos = g.start := (wf_lookup hwf hroot).1
  obtain ⟨fuel, r, hloop⟩ := ucsLoop_term hwf inc (unvis g [])
    (vcount [] [(0, g.root, [g.root])]) [] [(0, g.root, [g.root])]
    (by
      intro en hen
      rw [List.mem_singleton] at hen
      subst hen
      rw [hrootpos]
      exact hroot)
    (Nat.le_refl _) (Nat.le_refl _)
  cases r with
  | some p =>
    exfalso
    have hvalid := ucsRun_valid hwf inc
      (show ucsRun g inc fuel = some (some p) from hloop)
    exact hnr ⟨posList p, hvalid⟩
  | none => exact ⟨fuel, hloop⟩

theorem a_star_no_path {g : GraphS} (hwf : WF g) (hnr : ¬ Reach g) :
    Returns (a_star g) none := by
  obtain ⟨maxJ, hmj, hone, hga, hroot⟩ := id hwf
  have hrootpos : g.root.pos = g.start := (wf_lookup hwf hroot).1
  have hdb0 : ∀ p d, alookup ([(g.root.pos, 0)] : List (Pos × Nat)) p
      = some d →
      d + gmissing g [(g.root.pos, 0)] * maxJ
        ≤ (akeys g.nodes).length * maxJ := by
    intro p d hp
    have hlk : alookup ([(g.root.pos, 0)] : List (Pos × Nat)) p
        = if g.root.pos = p then some 0 else none := rfl
    rw [hlk] at hp
    by_cases hq : g.root.pos = p
    · rw [if_pos hq] at hp
      have hd : d = 0 := (Option.some.inj hp).symm
      subst hd
      have hfil : gmissing g [(g.root.pos, 0)] ≤ (akeys g.nodes).length :=
        List.length_filter_le _ _
      simpa using Nat.mul_le_mul_right maxJ hfil
    · rw [if_neg hq] at hp
      cases hp
  have hpq0 : ∀ en ∈ [((0 : Int), g.root)],
      alookup g.nodes en.2.pos = some en.2 ∧
      (alookup ([(g.root.pos, 0)] : List (Pos × Nat)) en.2.pos).isSome := by
    intro en hen
    rw [List.mem_singleton] at hen
    subst hen
    refine ⟨by rw [hrootpos]; exact hroot, ?_⟩
    have hlk : alookup ([(g.root.pos, 0)] : List (Pos × Nat)) g.root.pos
        = some 0 := by
      unfold alookup
      rw [if_pos rfl]
    rw [hlk]
    rfl
  obtain ⟨r, hloop⟩ := aStarLoop_term hwf hmj ((akeys g.nodes).length * maxJ)
    (2 * apot ((akeys g.nodes).length * maxJ) g [(g.root.pos, 0)] + 2)
    [] [(g.root.pos, 0)] [(g.root.pos, g.root.heuristic)]
    [(g.root.pos, none)] [((0 : Int), g.root)] hdb0 hpq0
    (by rw [show ([((0 : Int), g.root)] : List (Int × NodeS)).length = 1
      from rfl]; omega)
  obtain ⟨res, parents'⟩ := r
  have hres : res = none := by
    refine aStarLoop_noreach hwf hnr _ [] [(g.root.pos, 0)]
      [(g.root.pos, g.root.heuristic)] [(g.root.pos, none)]
      [((0 : Int), g.root)] res parents' ?_ hloop
    intro en hen
    rw [List.mem_singleton] at hen
    subst hen
    refine ⟨by rw [hrootpos]; exact hroot, ?_⟩
    rw [hrootpos]
    exact ⟨[g.start], start_self_path hwf⟩
  subst hres
  refine ⟨2 * apot ((akeys g.nodes).length * maxJ) g [(g.root.pos, 0)] + 2, ?_⟩
  unfold a_star
  rw [hloop]
  rfl

theorem dijkstra_no_path {g : GraphS} (hwf : WF g) (hnr : ¬ Reach g) :
    Returns (dijkstra g) none := by
  obtain ⟨maxJ, hmj, hone, hga, hroot⟩ := id hwf
  have hrootpos : g.root.pos = g.start := (wf_lookup hwf hroot).1
  have hseedrfl : dijkstraSeed g = g.nodes.foldl
      (fun st pn =>
        if pn.2.pos = g.root.pos then st
        else (aupsert st.1 pn.2.pos none, aupsert st.2.1 pn.2.pos none,
              st.2.2 ++ [(none, pn.2)]))
      ([(g.root.pos, some 0)], [(g.root.pos, none)],
        [((some 0 : Dist), g.root)]) := rfl
  obtain ⟨h1, h2, h3, h4, h5⟩ := seed_fold_facts g g.nodes
    ([(g.root.pos, some 0)], [(g.root.pos, none)], [((some 0 : Dist), g.root)])
  rw [← hseedrfl] at h1 h2 h3 h4 h5
  have hinv0 : DInv g [(g.root.pos, some 0)] [(g.root.pos, none)] := by
    have hlk : ∀ q, alookup ([(g.root.pos, none)] : ParentMap) q
        = if g.root.pos = q then some (none : Option NodeS) else none :=
      fun q => rfl
    refine ⟨?_, ?_, ?_⟩
    · intro q w hq
      rw [hlk] at hq
      by_cases hqr : g.root.pos = q
      · rw [← hqr, hrootpos, hroot]
        rfl
      · rw [if_neg hqr] at hq
        cases hq
    · intro q pn hq
      rw [hlk] at hq
      by_cases hqr : g.root.pos = q
      · rw [if_pos hqr] at hq
        cases Option.some.inj hq
      · rw [if_neg hqr] at hq
        cases hq
    · intro q hq
      rw [hlk] at hq
      by_cases hqr : g.root.pos = q
      · exact Or.inl (by rw [← hqr, hrootpos])
      · rw [if_neg hqr] at hq
        cases hq
  have hnone0 : ∀ q w, alookup ([(g.root.pos, none)] : ParentMap) q = some w →
      w = none := by
    intro q w hq
    have hlk : alookup ([(g.root.pos, none)] : ParentMap) q
        = if g.root.pos = q then some (none : Option NodeS) else none := rfl
    rw [hlk] at hq
    by_cases hqr : g.root.pos = q
    · rw [if_pos hqr] at hq
      exact (Option.some.inj hq).symm
    · rw [if_neg hqr] at hq
      cases hq
  have hpq0a : ∀ en ∈ [((some 0 : Dist), g.root)],
      alookup g.nodes en.2.pos = some en.2 := by
    intro en hen
    rw [List.mem_singleton] at hen
    subst hen
    rw [hrootpos]
    exact hroot
  have hseedinv := dijkstraSeed_fold_inv hwf g.nodes [(g.root.pos, some 0)]
    [(g.root.pos, none)] [((some 0 : Dist), g.root)] (fun pn hpn => hpn)
    hinv0 hnone0 hpq0a
  rw [← hseedrfl] at hseedinv
  cases hseed : dijkstraSeed g with
  | mk dist0 rest0 =>
  obtain ⟨parents0, pq0⟩ := rest0
  rw [hseed] at h1 h2 h3 h4 h5 hseedinv
  simp only [] at h1 h2 h3 h4 h5 hseedinv
  have hpqA : ∀ en ∈ pq0, alookup g.nodes en.2.pos = some en.2 := hseedinv.2
  have hcovD : ∀ p ∈ akeys g.nodes, (alookup dist0 p).isSome := by
    intro p hp
    obtain ⟨pn, hpn, hpn1⟩ := List.mem_map.mp hp
    have hpos : pn.2.pos = pn.1 := (hga.2 pn hpn).1
    rcases h3 pn hpn with hcase | hcase
    · have hq : p = g.root.pos := by rw [← hpn1, ← hpos, hcase]
      rcases h1 p with ha | ha
      · exact ha
      · exfalso
        apply ha
        rw [hq]
        rw [show alookup ([(g.root.pos, (some 0 : Dist))]) g.root.pos
          = some (some 0) from by unfold alookup; rw [if_pos rfl]]
        rfl
    · rw [← hpn1, ← hpos]
      exact hcase.1
  have hcovP : ∀ p ∈ akeys g.nodes, (alookup parents0 p).isSome := by
    intro p hp
    obtain ⟨pn, hpn, hpn1⟩ := List.mem_map.mp hp
    have hpos : pn.2.pos = pn.1 := (hga.2 pn hpn).1
    rcases h3 pn hpn with hcase | hcase
    · have hq : p = g.root.pos := by rw [← hpn1, ← hpos, hcase]
      rcases h2 p with ha | ha
      · exact ha
      · exfalso
        apply ha
        rw [hq]
        rw [show alookup ([(g.root.pos, (none : Option NodeS))]) g.root.pos
          = some none from by unfold alookup; rw [if_pos rfl]]
        rfl
    · rw [← hpn1, ← hpos]
      exact hcase.2
  have hvalD : ∀ q d, alookup dist0 q = some (some d) →
      q = g.root.pos ∧ d = 0 := by
    intro q d hq
    rcases h4 q (some d) hq with ha | ha
    · have ha2 : (if g.root.pos = q then some ((some 0 : Dist)) else none)
          = some (some d) := ha
      by_cases hqr : g.root.pos = q
      · rw [if_pos hqr] at ha2
        have := Option.some.inj ha2
        exact ⟨hqr.symm, by simpa using (Option.some.inj this).symm⟩
      · rw [if_neg hqr] at ha2
        cases ha2
    · cases ha
  have hvalP : ∀ q pn, alookup parents0 q = some (some pn) → False := by
    intro q pn hq
    rcases h5 q (some pn) hq with ha | ha
    · have ha2 : (if g.root.pos = q then some ((none : Option NodeS))
          else none) = some (some pn) := ha
      by_cases hqr : g.root.pos = q
      · rw [if_pos hqr] at ha2
        cases Option.some.inj ha2
      · rw [if_neg hqr] at ha2
        cases ha2
    · cases ha
  have hdb0 : ∀ p d, alookup dist0 p = some (some d) →
      d + dinfCount dist0 * maxJ ≤ dist0.length * maxJ := by
    intro p d hp
    obtain ⟨_, hd0⟩ := hvalD p d hp
    subst hd0
    simpa using Nat.mul_le_mul_right maxJ (dinfCount_le_length dist0)
  have hN1 : ∀ q pn, alookup parents0 q = some (some pn) →
      ∃ path, IsPath g path g.start q :=
    fun q pn hq => (hvalP q pn hq).elim
  have hN2 : ∀ p d, alookup dist0 p = some (some d) →
      ∃ path, IsPath g path g.start p := by
    intro p d hp
    obtain ⟨hq, _⟩ := hvalD p d hp
    rw [hq, hrootpos]
    exact ⟨[g.start], start_self_path hwf⟩
  obtain ⟨r, hloop⟩ := dijkstraLoop_term hwf hmj (dist0.length * maxJ)
    (2 * dpot (dist0.length * maxJ) dist0 + pq0.length + 1) dist0 parents0
    pq0 hcovD hdb0 hpqA (by omega)
  obtain ⟨res, parents'⟩ := r
  obtain ⟨hn1, hn3, hgoal⟩ := dijkstraLoop_npinv hwf
    (2 * dpot (dist0.length * maxJ) dist0 + pq0.length + 1) dist0 parents0
    pq0 res parents' hN1 hN2 hcovP hpqA hloop
  refine ⟨2 * dpot (dist0.length * maxJ) dist0 + pq0.length + 1, ?_⟩
  unfold dijkstra
  rw [hseed]
  simp only []
  rw [hloop]
  cases res with
  | none => rfl
  | some gn =>
    obtain ⟨hgpos, hgar⟩ := hgoal gn rfl
    have hcov' : (alookup parents' gn.pos).isSome :=
      hn3 gn.pos (by rw [mem_akeys_iff_isSome, hgar]; rfl)
    rw [Option.isSome_iff_exists] at hcov'
    obtain ⟨w, hw⟩ := hcov'
    cases w with
    | none =>
      show getPath parents' (some gn)
        (2 * dpot (dist0.length * maxJ) dist0 + pq0.length + 1) = some none
      simp only [getPath]
      rw [hw]
    | some pn =>
      exfalso
      obtain ⟨path, hpath⟩ := hn1 gn.pos pn hw
      exact hnr ⟨path, by rw [← hgpos]; exact hpath⟩

/-- **C5** (confirmed). When the goal is unreachable from the start, every
one of the strategies (`dfs`, `bfs`, the three `_ucs` variants, `dijkstra`,
`a_star`) terminates and returns the absence value `None`; none of them
signals the no-path outcome through an exception (in particular no
dictionary lookup misses, which would raise `KeyError`). -/
theorem unreachable_returns_none {m : List (List Nat)} {start goal : Pos}
    {g : GraphS} (hg : buildGraph m start goal = .ok g) (hnr : ¬ Reach g) :
    Returns (dfs g) none ∧ Returns (bfs g) none ∧
    Returns (ucs_by_distance g) none ∧ Returns (ucs_by_jumps g) none ∧
    Returns (ucs_by_value g) none ∧ Returns (dijkstra g) none ∧
    Returns (a_star g) none := by
  have hwf := buildGraph_WF hg
  exact ⟨dfs_no_path hwf hnr, bfs_no_path hwf hnr, ucsRun_no_path hwf hnr _,
    ucsRun_no_path hwf hnr _, ucsRun_no_path hwf hnr _,
    dijkstra_no_path hwf hnr, a_star_no_path hwf hnr⟩

/-- Witness for C5 on the maze `[[2, 0], [0, 0]]` with goal `(1, 1)`, which
is unreachable because the start cell's jumps all leave the board. -/
theorem unreachable_returns_none_witness :
    buildGraph [[2, 0], [0, 0]] (0, 0) (1, 1) = .ok (GraphS.mk [(((0 : Int), (0 : Int)), NodeS.mk (0, 0) 2 2 false []), (((0 : Int), (1 : Int)), NodeS.mk (0, 1) 0 1 false []), (((1 : Int), (0 : Int)), NodeS.mk (1, 0) 0 1 false []), (((1 : Int), (1 : Int)), NodeS.mk (1, 1) 0 0 true [])] [[2, 0], [0, 0]] (0, 0) (1, 1) (NodeS.mk (0, 0) 2 2 false [])) ∧
    ¬ Reach (GraphS.mk [(((0 : Int), (0 : Int)), NodeS.mk (0, 0) 2 2 false []), (((0 : Int), (1 : Int)), NodeS.mk (0, 1) 0 1 false []), (((1 : Int), (0 : Int)), NodeS.mk (1, 0) 0 1 false []), (((1 : Int), (1 : Int)), NodeS.mk (1, 1) 0 0 true [])] [[2, 0], [0, 0]] (0, 0) (1, 1) (NodeS.mk (0, 0) 2 2 false [])) ∧
    (Returns (dfs (GraphS.mk [(((0 : Int), (0 : Int)), NodeS.mk (0, 0) 2 2 false []), (((0 : Int), (1 : Int)), NodeS.mk (0, 1) 0 1 false []), (((1 : Int), (0 : Int)), NodeS.mk (1, 0) 0 1 false []), (((1 : Int), (1 : Int)), NodeS.mk (1, 1) 0 0 true [])] [[2, 0], [0, 0]] (0, 0) (1, 1) (NodeS.mk (0, 0) 2 2 false []))) none ∧
     Returns (bfs (GraphS.mk [(((0 : Int), (0 : Int)), NodeS.mk (0, 0) 2 2 false []), (((0 : Int), (1 : Int)), NodeS.mk (0, 1) 0 1 false []), (((1 : Int), (0 : Int)), NodeS.mk (1, 0) 0 1 false []), (((1 : Int), (1 : Int)), NodeS.mk (1, 1) 0 0 true [])] [[2, 0], [0, 0]] (0, 0) (1, 1) (NodeS.mk (0, 0) 2 2 false []))) none ∧
     Returns (ucs_by_distance (GraphS.mk [(((0 : Int), (0 : Int)), NodeS.mk (0, 0) 2 2 false []), (((0 : Int), (1 : Int)), NodeS.mk (0, 1) 0 1 false []), (((1 : Int), (0 : Int)), NodeS.mk (1, 0) 0 1 false []), (((1 : Int), (1 : Int)), NodeS.mk (1, 1) 0 0 true [])] [[2, 0], [0, 0]] (0, 0) (1, 1) (NodeS.mk (0, 0) 2 2 false []))) none ∧
     Returns (ucs_by_jumps (GraphS.mk [(((0 : Int), (0 : Int)), NodeS.mk (0, 0) 2 2 false []), (((0 : Int), (1 : Int)), NodeS.mk (0, 1) 0 1 false []), (((1 : Int), (0 : Int)), NodeS.mk (1, 0) 0 1 false []), (((1 : Int), (1 : Int)), NodeS.mk (1, 1) 0 0 true [])] [[2, 0], [0, 0]] (0, 0) (1, 1) (NodeS.mk (0, 0) 2 2 false []))) none ∧
     Returns (ucs_by_value (GraphS.mk [(((0 : Int), (0 : Int)), NodeS.mk (0, 0) 2 2 false []), (((0 : Int), (1 : Int)), NodeS.mk (0, 1) 0 1 false []), (((1 : Int), (0 : Int)), NodeS.mk (1, 0) 0 1 false []), (((1 : Int), (1 : Int)), NodeS.mk (1, 1) 0 0 true [])] [[2, 0], [0, 0]] (0, 0) (1, 1) (NodeS.mk (0, 0) 2 2 false []))) none ∧
     Returns (dijkstra (GraphS.mk [(((0 : Int), (0 : Int)), NodeS.mk (0, 0) 2 2 false []), (((0 : Int), (1 : Int)), NodeS.mk (0, 1) 0 1 false []), (((1 : Int), (0 : Int)), NodeS.mk (1, 0) 0 1 false []), (((1 : Int), (1 : Int)), NodeS.mk (1, 1) 0 0 true [])] [[2, 0], [0, 0]] (0, 0) (1, 1) (NodeS.mk (0, 0) 2 2 false []))) none ∧
     Returns (a_star (GraphS.mk [(((0 : Int), (0 : Int)), NodeS.mk (0, 0) 2 2 false []), (((0 : Int), (1 : Int)), NodeS.mk (0, 1) 0 1 false []), (((1 : Int), (0 : Int)), NodeS.mk (1, 0) 0 1 false []), (((1 : Int), (1 : Int)), NodeS.mk (1, 1) 0 0 true [])] [[2, 0], [0, 0]] (0, 0) (1, 1) (NodeS.mk (0, 0) 2 2 false []))) none) := by
  have hnr : ¬ Reach (GraphS.mk [(((0 : Int), (0 : Int)), NodeS.mk (0, 0) 2 2 false []), (((0 : Int), (1 : Int)), NodeS.mk (0, 1) 0 1 false []), (((1 : Int), (0 : Int)), NodeS.mk (1, 0) 0 1 false []), (((1 : Int), (1 : Int)), NodeS.mk (1, 1) 0 0 true [])] [[2, 0], [0, 0]] (0, 0) (1, 1) (NodeS.mk (0, 0) 2 2 false [])) := by
    rintro ⟨p, hne, hhead, hlast, hnodes, hcost⟩
    cases p with
    | nil => exact hne rfl
    | cons x t =>
      have hx : x = ((0 : Int), (0 : Int)) := by simpa using hhead
      cases t with
      | nil =>
        have hl : x = ((1 : Int), (1 : Int)) := by simpa using hlast
        rw [hx] at hl
        simp at hl
      | cons y t2 =>
        subst hx
        have hstep : pathCost (GraphS.mk [(((0 : Int), (0 : Int)), NodeS.mk (0, 0) 2 2 false []), (((0 : Int), (1 : Int)), NodeS.mk (0, 1) 0 1 false []), (((1 : Int), (0 : Int)), NodeS.mk (1, 0) 0 1 false []), (((1 : Int), (1 : Int)), NodeS.mk (1, 1) 0 0 true [])] [[2, 0], [0, 0]] (0, 0) (1, 1) (NodeS.mk (0, 0) 2 2 false [])) (((0 : Int), (0 : Int)) :: y :: t2)
            = (edgeTo (GraphS.mk [(((0 : Int), (0 : Int)), NodeS.mk (0, 0) 2 2 false []), (((0 : Int), (1 : Int)), NodeS.mk (0, 1) 0 1 false []), (((1 : Int), (0 : Int)), NodeS.mk (1, 0) 0 1 false []), (((1 : Int), (1 : Int)), NodeS.mk (1, 1) 0 0 true [])] [[2, 0], [0, 0]] (0, 0) (1, 1) (NodeS.mk (0, 0) 2 2 false [])) (0, 0) y).bind fun l =>
              (pathCost (GraphS.mk [(((0 : Int), (0 : Int)), NodeS.mk (0, 0) 2 2 false []), (((0 : Int), (1 : Int)), NodeS.mk (0, 1) 0 1 false []), (((1 : Int), (0 : Int)), NodeS.mk (1, 0) 0 1 false []), (((1 : Int), (1 : Int)), NodeS.mk (1, 1) 0 0 true [])] [[2, 0], [0, 0]] (0, 0) (1, 1) (NodeS.mk (0, 0) 2 2 false [])) (y :: t2)).map (l + ·) := rfl
        have hedge : edgeTo (GraphS.mk [(((0 : Int), (0 : Int)), NodeS.mk (0, 0) 2 2 false []), (((0 : Int), (1 : Int)), NodeS.mk (0, 1) 0 1 false []), (((1 : Int), (0 : Int)), NodeS.mk (1, 0) 0 1 false []), (((1 : Int), (1 : Int)), NodeS.mk (1, 1) 0 0 true [])] [[2, 0], [0, 0]] (0, 0) (1, 1) (NodeS.mk (0, 0) 2 2 false [])) ((0 : Int), (0 : Int)) y = none := rfl
        rw [hstep, hedge] at hcost
        simp at hcost
  exact ⟨rfl, hnr, @unreachable_returns_none [[2, 0], [0, 0]]
    ((0 : Int), (0 : Int)) ((1 : Int), (1 : Int))
    (GraphS.mk [(((0 : Int), (0 : Int)), NodeS.mk (0, 0) 2 2 false []), (((0 : Int), (1 : Int)), NodeS.mk (0, 1) 0 1 false []), (((1 : Int), (0 : Int)), NodeS.mk (1, 0) 0 1 false []), (((1 : Int), (1 : Int)), NodeS.mk (1, 1) 0 0 true [])] [[2, 0], [0, 0]] (0, 0) (1, 1) (NodeS.mk (0, 0) 2 2 false [])) rfl hnr⟩

/-! ## Order facts about `leD`, and exact path-cost algebra shared by the
optimality proofs -/

theorem leD_refl (a : Dist) : leD a a = true := by
  cases a with
  | none => rfl
  | some x => simp [leD, ltD]

theorem leD_none_right (a : Dist) : leD a none = true := by
  cases a with
  | none => rfl
  | some x => rfl

theorem leD_some_some {a b : Nat} : leD (some a) (some b) = true ↔ a ≤ b := by
  simp [leD, ltD]

theorem leD_none_left {b : Nat} : leD none (some b) = false := rfl

theorem leD_trans {a b c : Dist} (h1 : leD a b = true) (h2 : leD b c = true) :
    leD a c = true := by
  cases a <;> cases b <;> cases c <;> simp_all [leD, ltD] <;> omega

theorem leD_total (a b : Dist) : leD a b = true ∨ leD b a = true := by
  cases a <;> cases b <;> simp [leD, ltD] <;> omega

theorem leD_some_right {x : Dist} {k : Nat} (h : leD x (some k) = true) :
    ∃ y, x = some y ∧ y ≤ k := by
  cases x with
  | none => cases h
  | some y => exact ⟨y, rfl, leD_some_some.mp h⟩

theorem ltD_to_leD {a b : Dist} (h : ltD a b = true) : leD a b = true := by
  cases a <;> cases b <;> simp_all [leD, ltD] <;> omega

theorem not_ltD_leD {a b : Dist} (h : ltD a b = false) : leD b a = true := by
  unfold leD
  rw [h]
  rfl

theorem edgeTo_of_edge_len {g : GraphS} {node : NodeS} {e : EdgeS} (hwf : WF g)
    (hn : alookup g.nodes node.pos = some node) (he : e ∈ node.edges) :
    edgeTo g node.pos e.dest = some e.length := by
  obtain ⟨maxJ, _, _, ⟨hnd, hOK⟩, _⟩ := hwf
  have hok := hOK _ (alookup_mem hn)
  unfold edgeTo
  rw [hn, Option.some_bind]
  have hf : (node.edges.find? (fun x => decide (x.dest = e.dest))).isSome := by
    rw [List.find?_isSome]
    exact ⟨e, he, by simp⟩
  rw [Option.isSome_iff_exists] at hf
  obtain ⟨x, hx⟩ := hf
  rw [hx]
  have hxmem : x ∈ node.edges := List.mem_of_find?_eq_some hx
  have hxlen : x.length = node.value := (hok.2.2.2.2.2 x hxmem).2.1
  have helen : e.length = node.value := (hok.2.2.2.2.2 e he).2.1
  simp [hxlen, helen]

theorem wf_edge_one_le {g : GraphS} {node : NodeS} {e : EdgeS} (hwf : WF g)
    (hn : alookup g.nodes node.pos = some node) (he : e ∈ node.edges) :
    1 ≤ e.length := by
  obtain ⟨maxJ, _, _, ⟨hnd, hOK⟩, _⟩ := hwf
  have hok := hOK _ (alookup_mem hn)
  have h1 := (hok.2.2.2.2.2 e he).2.1
  have h2 := (hok.2.2.2.2.2 e he).2.2
  omega

theorem edgeTo_mem_edge {g : GraphS} {u v : Pos} {len : Nat}
    (h : edgeTo g u v = some len) :
    ∃ n e, alookup g.nodes u = some n ∧ e ∈ n.edges ∧ e.dest = v ∧
      e.length = len := by
  unfold edgeTo at h
  cases hl : alookup g.nodes u with
  | none => rw [hl] at h; cases h
  | some n =>
    rw [hl, Option.some_bind] at h
    cases hf : n.edges.find? (fun x => decide (x.dest = v)) with
    | none => rw [hf] at h; cases h
    | some e =>
      rw [hf] at h
      have hd : e.dest = v := by
        have := List.find?_some hf
        simpa using this
      have hm : e ∈ n.edges := List.mem_of_find?_eq_some hf
      have hlen : e.length = len := by simpa using h
      exact ⟨n, e, rfl, hm, hd, hlen⟩

theorem pathCost_cons_parts {g : GraphS} {u v : Pos} {t : List Pos} {c : Nat}
    (h : pathCost g (u :: v :: t) = some c) :
    ∃ l1 c', edgeTo g u v = some l1 ∧ pathCost g (v :: t) = some c' ∧
      c = l1 + c' := by
  have hstep : pathCost g (u :: v :: t)
      = (edgeTo g u v).bind fun l => (pathCost g (v :: t)).map (l + ·) := rfl
  rw [hstep] at h
  cases hxy : edgeTo g u v with
  | none => rw [hxy] at h; cases h
  | some l1 =>
    rw [hxy, Option.some_bind] at h
    cases hyy : pathCost g (v :: t) with
    | none => rw [hyy] at h; cases h
    | some c' =>
      rw [hyy] at h
      refine ⟨l1, c', rfl, rfl, ?_⟩
      have : l1 + c' = c := by simpa using h
      omega

theorem pathCost_snoc_exact {g : GraphS} :
    ∀ (p : List Pos) (u v : Pos) (c len : Nat), pathCost g p = some c →
    p.getLast? = some u → edgeTo g u v = some len →
    pathCost g (p ++ [v]) = some (c + len)
  | [], u, v, c, len => by intro _ hl _; cases hl
  | [x], u, v, c, len => by
    intro hc hl he
    have hx : x = u := by simpa using hl
    rw [← hx] at he
    have hc0 : c = 0 := by
      have h0 : pathCost g [x] = some 0 := rfl
      rw [h0] at hc
      exact (Option.some.inj hc).symm
    show (edgeTo g x v).bind (fun l => (pathCost g [v]).map (l + ·))
      = some (c + len)
    rw [he]
    show some (len + 0) = some (c + len)
    rw [hc0]
    simp
  | x :: y :: t, u, v, c, len => by
    intro hc hl he
    obtain ⟨l1, c1, hxy, hyt, hcv⟩ := pathCost_cons_parts hc
    have hl2 : (y :: t).getLast? = some u := by
      rw [List.getLast?_cons_cons] at hl
      exact hl
    have hrec := pathCost_snoc_exact (y :: t) u v c1 len hyt hl2 he
    show (edgeTo g x y).bind
      (fun l => (pathCost g ((y :: t) ++ [v])).map (l + ·)) = some (c + len)
    rw [hxy, Option.some_bind, hrec]
    show some (l1 + (c1 + len)) = some (c + len)
    rw [hcv, Nat.add_assoc]

theorem pathCost_split {g : GraphS} :
    ∀ (xs : List Pos) (y : Pos) (ys : List Pos) (c : Nat),
    pathCost g (xs ++ y :: ys) = some c →
    ∃ c1 c2, pathCost g (xs ++ [y]) = some c1 ∧ pathCost g (y :: ys) = some c2 ∧
      c = c1 + c2
  | [], y, ys, c => by
    intro hc
    exact ⟨0, c, rfl, hc, (Nat.zero_add c).symm⟩
  | [x], y, ys, c => by
    intro hc
    rw [show ([x] ++ y :: ys) = x :: y :: ys from rfl] at hc
    obtain ⟨l1, c2, hxy, hyy, hcv⟩ := pathCost_cons_parts hc
    refine ⟨l1 + 0, c2, ?_, hyy, by omega⟩
    show (edgeTo g x y).bind (fun l => (pathCost g [y]).map (l + ·))
      = some (l1 + 0)
    rw [hxy]
    rfl
  | x1 :: x2 :: xt, y, ys, c => by
    intro hc
    rw [show ((x1 :: x2 :: xt) ++ y :: ys) = x1 :: x2 :: (xt ++ y :: ys)
      from rfl] at hc
    obtain ⟨l1, c', hxy, hyy, hcv⟩ := pathCost_cons_parts hc
    obtain ⟨c1, c2, h1, h2, h3⟩ := pathCost_split (x2 :: xt) y ys c' hyy
    refine ⟨l1 + c1, c2, ?_, h2, by omega⟩
    show (edgeTo g x1 x2).bind
      (fun l => (pathCost g ((x2 :: xt) ++ [y])).map (l + ·)) = some (l1 + c1)
    rw [hxy, Option.some_bind, h1]
    rfl

theorem pathCost_unsnoc {g : GraphS} :
    ∀ (l : List Pos) (u v : Pos) (c : Nat), l.getLast? = some u →
    pathCost g (l ++ [v]) = some c →
    ∃ c0 len, pathCost g l = some c0 ∧ edgeTo g u v = some len ∧ c = c0 + len
  | [], u, v, c => by intro hl _; cases hl
  | [x], u, v, c => by
    intro hl hc
    have hx : x = u := by simpa using hl
    rw [hx] at hc
    rw [show ([u] ++ [v]) = u :: [v] from rfl] at hc
    obtain ⟨l1, c', hxy, hyy, hcv⟩ := pathCost_cons_parts hc
    have h0 : c' = 0 := by
      have h1 : pathCost g [v] = some 0 := rfl
      rw [h1] at hyy
      exact (Option.some.inj hyy).symm
    exact ⟨0, l1, rfl, hxy, by omega⟩
  | x :: y :: t, u, v, c => by
    intro hl hc
    rw [show ((x :: y :: t) ++ [v]) = x :: y :: (t ++ [v]) from rfl] at hc
    obtain ⟨l1, c', hxy, hyy, hcv⟩ := pathCost_cons_parts hc
    have hl2 : (y :: t).getLast? = some u := by
      rw [List.getLast?_cons_cons] at hl
      exact hl
    obtain ⟨c0, len, h1, h2, h3⟩ := pathCost_unsnoc (y :: t) u v c' hl2 hyy
    refine ⟨l1 + c0, len, ?_, h2, by omega⟩
    show (edgeTo g x y).bind (fun l => (pathCost g (y :: t)).map (l + ·))
      = some (l1 + c0)
    rw [hxy, Option.some_bind, h1]
    rfl

theorem isPath_prefix {g : GraphS} {P1 : List Pos} {w : Pos} {P2 : List Pos}
    {a b : Pos} (h : IsPath g (P1 ++ w :: P2) a b) : IsPath g (P1 ++ [w]) a w := by
  obtain ⟨hne, hhead, hlast, hmem, hcost⟩ := h
  refine ⟨by simp, ?_, by simp, ?_, ?_⟩
  · cases P1 with
    | nil => simpa using hhead
    | cons p t => simpa using hhead
  · intro x hx
    apply hmem
    rcases List.mem_append.mp hx with h1 | h1
    · exact List.mem_append.mpr (Or.inl h1)
    · rw [List.mem_singleton] at h1
      subst h1
      exact List.mem_append.mpr (Or.inr (List.mem_cons_self _ _))
  · rw [Option.isSome_iff_exists] at hcost
    obtain ⟨c, hc⟩ := hcost
    obtain ⟨c1, c2, h1, _, _⟩ := pathCost_split P1 w P2 c hc
    rw [h1]
    rfl

theorem isPath_tail {g : GraphS} {a b : Pos} {t : List Pos} {s z : Pos}
    (h : IsPath g (a :: b :: t) s z) : IsPath g (b :: t) b z := by
  obtain ⟨_, _, hlast, hmem, hcost⟩ := h
  refine ⟨by simp, rfl, ?_, ?_, ?_⟩
  · rw [List.getLast?_cons_cons] at hlast
    exact hlast
  · intro x hx
    exact hmem x (List.mem_cons_of_mem a hx)
  · rw [Option.isSome_iff_exists] at hcost
    obtain ⟨c, hc⟩ := hcost
    obtain ⟨l1, c', _, hyy, _⟩ := pathCost_cons_parts hc
    rw [hyy]
    rfl

theorem first_not_mem_split {S : List Pos} :
    ∀ (l : List Pos) (z : Pos), l.getLast? = some z → z ∉ S →
    ∃ l1 x l2, l = l1 ++ x :: l2 ∧ (∀ w ∈ l1, w ∈ S) ∧ x ∉ S
  | [], z => by intro hl _; cases hl
  | [a], z => by
    intro hl hz
    have ha : a = z := by simpa using hl
    subst ha
    exact ⟨[], a, [], rfl, ⟨fun w hw => absurd hw (List.not_mem_nil w), hz⟩⟩
  | a :: b :: t, z => by
    intro hl hz
    by_cases ha : a ∈ S
    · have hl2 : (b :: t).getLast? = some z := by
        rw [List.getLast?_cons_cons] at hl
        exact hl
      obtain ⟨l1, x, l2, heq, h1, h2⟩ := first_not_mem_split (b :: t) z hl2 hz
      refine ⟨a :: l1, x, l2, by rw [show (a :: l1) ++ x :: l2
        = a :: (l1 ++ x :: l2) from rfl, ← heq], ?_, h2⟩
      intro w hw
      rcases List.mem_cons.mp hw with h | h
      · rw [h]; exact ha
      · exact h1 w h
    · exact ⟨[], a, b :: t, rfl, ⟨fun w hw => absurd hw (List.not_mem_nil w), ha⟩⟩

theorem getLast_opt_append {α : Type} :
    ∀ (l1 l2 : List α), l2 ≠ [] → (l1 ++ l2).getLast? = l2.getLast?
  | [], l2 => by intro _; rfl
  | a :: t, l2 => by
    intro h2
    have hrec := getLast_opt_append t l2 h2
    cases ht : t ++ l2 with
    | nil =>
      exfalso
      rcases List.append_eq_nil.mp ht with ⟨_, h⟩
      exact h2 h
    | cons c r =>
      rw [show (a :: t) ++ l2 = a :: (t ++ l2) from rfl, ht,
        List.getLast?_cons_cons, ← ht, hrec]

/-! ## Optimality of `ucs_by_distance` -/

theorem ucsExpand_mem {g : GraphS} (inc : EdgeS → NodeS → Nat) {total : Nat}
    {path : List NodeS} :
    ∀ (es : List EdgeS) (visited : List Pos) (pq pq2 : List UcsEntry),
    ucsExpand g inc total path visited es pq = some pq2 →
    (∀ en ∈ pq, en ∈ pq2) ∧
    (∀ en ∈ pq2, en ∈ pq ∨ ∃ e ∈ es, ∃ nb, findNode g e.dest = some nb ∧
      nb.pos ∉ visited ∧ en = (total + inc e nb, nb, path ++ [nb])) ∧
    (∀ e ∈ es, ∀ nb, findNode g e.dest = some nb → nb.pos ∉ visited →
      (total + inc e nb, nb, path ++ [nb]) ∈ pq2)
  | [], visited, pq, pq2 => by
    intro h
    rw [ucsExpand] at h
    have h2 := Option.some.inj h
    subst h2
    exact ⟨fun en hen => hen, fun en hen => Or.inl hen,
      fun e he => absurd he (List.not_mem_nil e)⟩
  | e :: rest, visited, pq, pq2 => by
    intro h
    rw [ucsExpand] at h
    cases hf : findNode g e.dest with
    | none => rw [hf] at h; cases h
    | some nb =>
      rw [hf] at h
      simp only [] at h
      by_cases hv : nb.pos ∈ visited
      · rw [if_pos hv] at h
        obtain ⟨h1, h2, h3⟩ := ucsExpand_mem inc rest visited pq pq2 h
        refine ⟨h1, ?_, ?_⟩
        · intro en hen
          rcases h2 en hen with ha | ⟨e2, he2, nb2, hf2, hv2, heq⟩
          · exact Or.inl ha
          · exact Or.inr ⟨e2, List.mem_cons_of_mem e he2, nb2, hf2, hv2, heq⟩
        · intro e2 he2 nb2 hf2 hv2
          rcases List.mem_cons.mp he2 with h4 | h4
          · subst h4
            rw [hf2] at hf
            have hnb : nb2 = nb := Option.some.inj hf
            rw [hnb] at hv2
            exact absurd hv hv2
          · exact h3 e2 h4 nb2 hf2 hv2
      · rw [if_neg hv] at h
        obtain ⟨h1, h2, h3⟩ := ucsExpand_mem inc rest visited _ pq2 h
        refine ⟨?_, ?_, ?_⟩
        · intro en hen
          exact h1 en (List.mem_append.mpr (Or.inl hen))
        · intro en hen
          rcases h2 en hen with ha | ⟨e2, he2, nb2, hf2, hv2, heq⟩
          · rcases List.mem_append.mp ha with hb | hb
            · exact Or.inl hb
            · rw [List.mem_singleton] at hb
              exact Or.inr ⟨e, List.mem_cons_self e rest, nb, hf, hv, hb⟩
          · exact Or.inr ⟨e2, List.mem_cons_of_mem e he2, nb2, hf2, hv2, heq⟩
        · intro e2 he2 nb2 hf2 hv2
          rcases List.mem_cons.mp he2 with h4 | h4
          · subst h4
            rw [hf2] at hf
            have hnb : nb2 = nb := Option.some.inj hf
            rw [hnb]
            exact h1 _ (List.mem_append.mpr (Or.inr (List.mem_singleton_self _)))
          · exact h3 e2 h4 nb2 hf2 hv2

theorem ucsLoop_opt {g : GraphS} (hwf : WF g) :
    ∀ (fuel : Nat) (visited : List Pos) (pq : List UcsEntry)
      (r : Option (List NodeS)),
    (∀ en ∈ pq, UcsPathOK g en) →
    (∀ en ∈ pq, UcsKeyOK g en) →
    FrontierOK g visited pq →
    VisitedOK g visited pq →
    g.goal ∉ visited →
    ucsLoop g (fun e _ => e.length) fuel visited pq = some r →
    (r = none → ∀ P c, IsPath g P g.start g.goal → pathCost g P = some c →
      False) ∧
    (∀ p, r = some p → ∃ c, pathCost g (posList p) = some c ∧
      ∀ P cq, IsPath g P g.start g.goal → pathCost g P = some cq → c ≤ cq)
  | 0, visited, pq, r => by intro _ _ _ _ _ h; cases h
  | fuel + 1, visited, [], r => by
    intro hok hkey hfr hvi hgv h
    rw [ucsLoop] at h
    have h2 := Option.some.inj h
    subst h2
    refine ⟨fun _ P c hP hc => ?_, fun p hp => by cases hp⟩
    obtain ⟨P1, w, P2, _, _, _, en, hen, _⟩ := hfr g.goal P c hgv hP hc
    exact absurd hen (List.not_mem_nil en)
  | fuel + 1, visited, e0 :: pqt, r => by
    intro hok hkey hfr hvi hgv h
    rw [ucsLoop] at h <;> try exact fun hcon => List.noConfusion hcon
    cases hp : popMinBy (fun (x : UcsEntry) => x.1) (fun a b => decide (a ≤ b))
        (e0 :: pqt) with
    | none =>
      rw [popMinBy_none_iff] at hp
      cases hp
    | some mp =>
      obtain ⟨⟨total, node, path⟩, pq'⟩ := mp
      rw [hp] at h
      simp only [] at h
      have hperm := popMinBy_perm (fun (x : UcsEntry) => x.1)
        (fun a b => decide (a ≤ b)) (e0 :: pqt) (total, node, path) pq' hp
      have hmem : (total, node, path) ∈ e0 :: pqt :=
        hperm.mem_iff.mpr (List.mem_cons_self _ pq')
      have htot : ∀ a b : Nat, decide (a ≤ b) = true ∨ decide (b ≤ a) = true := by
        intro a b
        rcases Nat.le_total a b with hab | hab
        · exact Or.inl (decide_eq_true hab)
        · exact Or.inr (decide_eq_true hab)
      have htrans : ∀ a b c : Nat, decide (a ≤ b) = true →
          decide (b ≤ c) = true → decide (a ≤ c) = true := by
        intro a b c h1 h2
        exact decide_eq_true
          (Nat.le_trans (of_decide_eq_true h1) (of_decide_eq_true h2))
      have hmin := popMinBy_min (fun (x : UcsEntry) => x.1)
        (fun a b => decide (a ≤ b)) htot htrans (e0 :: pqt)
        (total, node, path) pq' hp
      have hen0 := hok _ hmem
      have hkey0 : pathCost g (posList path) = some total := hkey _ hmem
      have hnodemem : node ∈ path := getLast_opt_mem hen0.2.1
      have hnode : alookup g.nodes node.pos = some node :=
        hen0.2.2.2.2 node hnodemem
      have hmem' : ∀ en ∈ pq', en ∈ e0 :: pqt :=
        fun en hen => hperm.mem_iff.mpr (List.mem_cons_of_mem _ hen)
      have hok' : ∀ en ∈ pq', UcsPathOK g en := fun en hen => hok en (hmem' en hen)
      have hkey' : ∀ en ∈ pq', UcsKeyOK g en := fun en hen => hkey en (hmem' en hen)
      by_cases hg : node.is_goal
      · rw [if_pos hg] at h
        have hr : some path = r := Option.some.inj h
        rw [← hr]
        refine ⟨fun hcon => Option.noConfusion hcon, fun p hpq => ?_⟩
        have hpp : path = p := Option.some.inj hpq
        rw [← hpp]
        refine ⟨total, hkey0, ?_⟩
        intro P cq hP hc
        obtain ⟨P1, w, P2, hsplit, hP1, hwni, en, hen, hpos, c1, hc1, hk1, h1c⟩ :=
          hfr g.goal P cq hgv hP hc
        have hminen : total ≤ en.1 := of_decide_eq_true (hmin en hen)
        omega
      · rw [if_neg hg] at h
        have hngoal : node.pos ≠ g.goal := fun hcon => by
          have hdec := (wf_lookup hwf hnode).2.1
          rw [hcon] at hdec
          simp at hdec
          exact hg hdec
        cases he : ucsExpand g (fun e _ => e.length) total path
            (if node.pos ∈ visited then visited else node.pos :: visited)
            node.edges pq' with
        | none => rw [he] at h; cases h
        | some pq2 =>
          rw [he] at h
          obtain ⟨hsup, hchar, hpush⟩ := ucsExpand_mem (fun e _ => e.length)
            node.edges _ pq' pq2 he
          have hok2 : ∀ en ∈ pq2, UcsPathOK g en :=
            ucsExpand_inv hwf _ hnode hen0 node.edges _ pq' pq2
              (fun e2 he2 => he2) hok' he
          have hkey2 : ∀ en ∈ pq2, UcsKeyOK g en := by
            intro en hen
            rcases hchar en hen with ha | ⟨e, hee, nb, hf, hnv, heq⟩
            · exact hkey' en ha
            · rw [heq]
              show pathCost g (posList (path ++ [nb])) = some (total + e.length)
              have hnbpos : nb.pos = e.dest := (wf_lookup hwf hf).1
              have hlastp : (posList path).getLast? = some node.pos := by
                rw [show posList path = path.map (fun n => n.pos) from rfl,
                  List.getLast?_map, hen0.2.1]
                rfl
              have hedge : edgeTo g node.pos nb.pos = some e.length := by
                rw [hnbpos]
                exact edgeTo_of_edge_len hwf hnode hee
              have hsn := pathCost_snoc_exact (posList path) node.pos nb.pos
                total e.length hkey0 hlastp hedge
              rw [show posList (path ++ [nb]) = posList path ++ [nb.pos] from by
                simp [posList]]
              exact hsn
          by_cases hv : node.pos ∈ visited
          · rw [if_pos hv] at h
            have hfr2 : FrontierOK g visited pq2 := by
              intro z P c hz hP hc
              obtain ⟨P1, w, P2, hsplit, hP1, hwni, en, hen, hpos, c1, hc1,
                hk1, h1c⟩ := hfr z P c hz hP hc
              refine ⟨P1, w, P2, hsplit, hP1, hwni, en, ?_, hpos, c1, hc1,
                hk1, h1c⟩
              have hne : en ≠ (total, node, path) := by
                intro hcon
                rw [hcon] at hpos
                exact hwni (by rw [← hpos]; exact hv)
              have hen' : en ∈ (total, node, path) :: pq' := hperm.mem_iff.mp hen
              rcases List.mem_cons.mp hen' with hcon | hgood
              · exact absurd hcon hne
              · exact hsup en hgood
            have hvi2 : VisitedOK g visited pq2 := by
              intro v hvv
              obtain ⟨n, hn, kv, hbound, hedges⟩ := hvi v hvv
              refine ⟨n, hn, kv, hbound, ?_⟩
              intro e hee
              rcases hedges e hee with ha | ⟨en, hen, hpos, hkb⟩
              · exact Or.inl ha
              · have hen' : en ∈ (total, node, path) :: pq' := hperm.mem_iff.mp hen
                rcases List.mem_cons.mp hen' with hcon | hgood
                · rw [hcon] at hpos
                  exact Or.inl (by rw [← hpos]; exact hv)
                · exact Or.inr ⟨en, hsup en hgood, hpos, hkb⟩
            exact ucsLoop_opt hwf fuel visited pq2 r hok2 hkey2 hfr2 hvi2 hgv h
          · rw [if_neg hv] at h
            have hchar2 := hchar
            have hpush2 := hpush
            rw [if_neg hv] at hchar2 hpush2
            have hb : ∀ q c, IsPath g q g.start node.pos →
                pathCost g q = some c → total ≤ c := by
              intro q c hq hc
              obtain ⟨P1, w, P2, hsplit, hP1, hwni, en, hen, hpos, c1, hc1,
                hk1, h1c⟩ := hfr node.pos q c hv hq hc
              have hminen : total ≤ en.1 := of_decide_eq_true (hmin en hen)
              omega
            have hgv2 : g.goal ∉ node.pos :: visited := by
              intro hcon
              rcases List.mem_cons.mp hcon with h1 | h1
              · exact hngoal h1.symm
              · exact hgv h1
            have hvi2 : VisitedOK g (node.pos :: visited) pq2 := by
              intro v hvv
              rcases List.mem_cons.mp hvv with h1 | h1
              · rw [h1]
                refine ⟨node, hnode, total, hb, ?_⟩
                intro e hee
                have hfs : (alookup g.nodes e.dest).isSome :=
                  ((wf_lookup hwf hnode).2.2 e hee).1
                rw [Option.isSome_iff_exists] at hfs
                obtain ⟨nb, hnb⟩ := hfs
                by_cases hdv : e.dest ∈ node.pos :: visited
                · exact Or.inl hdv
                · right
                  have hnv : nb.pos ∉ node.pos :: visited := by
                    rw [(wf_lookup hwf hnb).1]
                    exact hdv
                  have hin := hpush2 e hee nb hnb hnv
                  exact ⟨(total + e.length, nb, path ++ [nb]), hin,
                    (wf_lookup hwf hnb).1, Nat.le_refl _⟩
              · obtain ⟨n, hn, kv, hbound, hedges⟩ := hvi v h1
                refine ⟨n, hn, kv, hbound, ?_⟩
                intro e hee
                rcases hedges e hee with ha | ⟨en, hen, hpos, hkb⟩
                · exact Or.inl (List.mem_cons_of_mem _ ha)
                · have hen' : en ∈ (total, node, path) :: pq' :=
                    hperm.mem_iff.mp hen
                  rcases List.mem_cons.mp hen' with hcon | hgood
                  · rw [hcon] at hpos
                    exact Or.inl (by rw [← hpos]; exact List.mem_cons_self _ _)
                  · exact Or.inr ⟨en, hsup en hgood, hpos, hkb⟩
            have hfr2 : FrontierOK g (node.pos :: visited) pq2 := by
              intro z P c hz hP hc
              have hzv : z ∉ visited := fun hcon => hz (List.mem_cons_of_mem _ hcon)
              obtain ⟨P1, w, P2, hsplit, hP1, hwni, en, hen, hpos, c1, hc1,
                hk1, h1c⟩ := hfr z P c hzv hP hc
              by_cases hw : w = node.pos
              · have hlastP : P.getLast? = some z := hP.2.2.1
                have hlast2 : (w :: P2).getLast? = some z := by
                  rw [hsplit] at hlastP
                  rw [← getLast_opt_append P1 (w :: P2) (by simp)]
                  exact hlastP
                obtain ⟨Q1, w', Q2, hq, hQ1, hw'⟩ :=
                  first_not_mem_split (w :: P2) z hlast2 hz
                have hQ1ne : Q1 ≠ [] := by
                  intro hcon
                  rw [hcon] at hq
                  have hww : w = w' := by
                    have hqq : w = w' ∧ P2 = Q2 := by simpa using hq
                    exact hqq.1
                  apply hw'
                  rw [← hww, hw]
                  exact List.mem_cons_self _ _
                obtain ⟨u, hu⟩ := Option.isSome_iff_exists.mp
                  (List.getLast?_isSome.mpr hQ1ne)
                have huv : u ∈ node.pos :: visited := hQ1 u (getLast_opt_mem hu)
                have hsplit2 : P = (P1 ++ Q1) ++ w' :: Q2 := by
                  rw [hsplit, hq, List.append_assoc]
                have hcsplit : pathCost g ((P1 ++ Q1) ++ w' :: Q2) = some c := by
                  rw [← hsplit2]
                  exact hc
                obtain ⟨d1, d2, hd1, hd2, hdsum⟩ :=
                  pathCost_split (P1 ++ Q1) w' Q2 c hcsplit
                have hlastPQ : (P1 ++ Q1).getLast? = some u := by
                  rw [getLast_opt_append P1 Q1 hQ1ne]
                  exact hu
                obtain ⟨c0, len, hc0, hlen, hd1sum⟩ :=
                  pathCost_unsnoc (P1 ++ Q1) u w' d1 hlastPQ hd1
                obtain ⟨nu, hnu, ku, hbu, heu⟩ := hvi2 u huv
                obtain ⟨n', e', hn', he'mem, he'dest, he'len⟩ := edgeTo_mem_edge hlen
                have hn'eq : n' = nu := by
                  rw [hnu] at hn'
                  exact (Option.some.inj hn').symm
                rw [hn'eq] at he'mem
                rcases heu e' he'mem with hvis' | ⟨en2, hen2, hpos2, hkb2⟩
                · exact absurd (he'dest ▸ hvis') hw'
                · have hbu' : ku ≤ c0 := by
                    apply hbu (P1 ++ Q1) c0 ?_ hc0
                    have hPQne : P1 ++ Q1 ≠ [] := by
                      intro hcon
                      rw [hcon] at hlastPQ
                      cases hlastPQ
                    have hgl : (P1 ++ Q1).getLast hPQne = u := by
                      have hgl2 := List.getLast?_eq_getLast (P1 ++ Q1) hPQne
                      rw [hgl2] at hlastPQ
                      exact Option.some.inj hlastPQ
                    have hdrop : (P1 ++ Q1).dropLast ++ [u] = P1 ++ Q1 := by
                      rw [← hgl]
                      exact List.dropLast_append_getLast hPQne
                    have hsplit3 : P = (P1 ++ Q1).dropLast ++ u :: (w' :: Q2) := by
                      conv_lhs => rw [hsplit2, ← hdrop]
                      rw [List.append_assoc]
                      rfl
                    have hpref := isPath_prefix (by rw [← hsplit3]; exact hP)
                    rw [hdrop] at hpref
                    exact hpref
                  refine ⟨P1 ++ Q1, w', Q2, hsplit2, ?_, hw', en2, hen2,
                    by rw [hpos2, he'dest], d1, hd1, ?_, ?_⟩
                  · intro x hx
                    rcases List.mem_append.mp hx with hxa | hxa
                    · exact List.mem_cons_of_mem _ (hP1 x hxa)
                    · exact hQ1 x hxa
                  · rw [he'len] at hkb2
                    omega
                  · omega
              · refine ⟨P1, w, P2, hsplit, ?_, ?_, en, ?_, hpos, c1, hc1,
                  hk1, h1c⟩
                · intro x hx
                  exact List.mem_cons_of_mem _ (hP1 x hx)
                · intro hcon
                  rcases List.mem_cons.mp hcon with hc1x | hc1x
                  · exact hw hc1x
                  · exact hwni hc1x
                · have hne : en ≠ (total, node, path) := by
                    intro hcon
                    rw [hcon] at hpos
                    exact hw hpos.symm
                  have hen' : en ∈ (total, node, path) :: pq' :=
                    hperm.mem_iff.mp hen
                  rcases List.mem_cons.mp hen' with hcon | hgood
                  · exact absurd hcon hne
                  · exact hsup en hgood
            exact ucsLoop_opt hwf fuel (node.pos :: visited) pq2 r hok2 hkey2
              hfr2 hvi2 hgv2 h

theorem ucs_distance_minimal {g : GraphS} (hwf : WF g) (hre : Reach g) :
    ∃ p c, Returns (ucs_by_distance g) (some p) ∧
      pathCost g (posList p) = some c ∧
      ∀ P cq, IsPath g P g.start g.goal → pathCost g P = some cq → c ≤ cq := by
  obtain ⟨maxJ0, hmj0, hone0, hga0, hroot⟩ := id hwf
  have hrootpos : g.root.pos = g.start := (wf_lookup hwf hroot).1
  have hpqa : ∀ en ∈ [((0 : Nat), g.root, [g.root])],
      alookup g.nodes en.2.1.pos = some en.2.1 := by
    intro en hen
    rw [List.mem_singleton] at hen
    rw [hen, hrootpos]
    exact hroot
  obtain ⟨fuel, r, hterm⟩ := ucsLoop_term hwf (fun e _ => e.length)
    (unvis g []) (vcount [] [(0, g.root, [g.root])]) []
    [(0, g.root, [g.root])] hpqa (Nat.le_refl _) (Nat.le_refl _)
  have hok0 : ∀ en ∈ [((0 : Nat), g.root, [g.root])], UcsPathOK g en := by
    intro en hen
    rw [List.mem_singleton] at hen
    rw [hen]
    exact ⟨by simp, rfl, trivial, ⟨g.root, rfl, hrootpos⟩,
      fun x hx => by
        rw [List.mem_singleton] at hx
        rw [hx, hrootpos]
        exact hroot⟩
  have hkey0 : ∀ en ∈ [((0 : Nat), g.root, [g.root])], UcsKeyOK g en := by
    intro en hen
    rw [List.mem_singleton] at hen
    rw [hen]
    rfl
  have hfr0 : FrontierOK g [] [(0, g.root, [g.root])] := by
    intro z P c hz hP hc
    cases P with
    | nil => exact absurd rfl hP.1
    | cons p0 P2 =>
      have hp0 : p0 = g.start := by
        have hh := hP.2.1
        simpa using hh
      rw [hp0]
      refine ⟨[], g.start, P2, rfl, fun x hx => absurd hx (List.not_mem_nil x),
        List.not_mem_nil _, (0, g.root, [g.root]), List.mem_singleton_self _,
        hrootpos, 0, rfl, Nat.le_refl 0, Nat.zero_le c⟩
  have hvi0 : VisitedOK g [] [(0, g.root, [g.root])] :=
    fun v hv => absurd hv (List.not_mem_nil v)
  obtain ⟨hnone, hsome⟩ := ucsLoop_opt hwf fuel [] [(0, g.root, [g.root])] r
    hok0 hkey0 hfr0 hvi0 (List.not_mem_nil _) hterm
  cases r with
  | none =>
    exfalso
    obtain ⟨P, hP⟩ := hre
    have hcs := hP.2.2.2.2
    rw [Option.isSome_iff_exists] at hcs
    obtain ⟨c, hc⟩ := hcs
    exact hnone rfl P c hP hc
  | some p =>
    obtain ⟨c, hc, hmin⟩ := hsome p rfl
    exact ⟨p, c, ⟨fuel, hterm⟩, hc, hmin⟩

/-! ## Optimality of `dijkstra` -/

theorem dijkstra_path_bound {g : GraphS} {dist : DistMap}
    {pq : List (Dist × NodeS)} (hB : DRelaxedOr g dist pq) :
    ∀ (P : List Pos) (a z : Pos) (c da : Nat),
    IsPath g P a z → pathCost g P = some c →
    alookup dist a = some (some da) →
    (∃ dz, alookup dist z = some (some dz) ∧ dz ≤ da + c) ∨
    (∃ en ∈ pq, leD en.1 (some (da + c)) = true)
  | [], a, z, c, da => by intro hP _ _; exact absurd rfl hP.1
  | [x], a, z, c, da => by
    intro hP hc hda
    have hxa : x = a := by
      have hh := hP.2.1
      simpa using hh
    have hxz : x = z := by
      have hh := hP.2.2.1
      simpa using hh
    rw [hxa] at hxz
    left
    refine ⟨da, ?_, Nat.le_add_right da c⟩
    rw [← hxz]
    exact hda
  | x :: y :: t, a, z, c, da => by
    intro hP hc hda
    have hxa : x = a := by
      have hh := hP.2.1
      simpa using hh
    obtain ⟨l1, c', hxy, hyt, hcv⟩ := pathCost_cons_parts hc
    have hax : (alookup g.nodes x).isSome :=
      hP.2.2.2.1 x (List.mem_cons_self _ _)
    rw [Option.isSome_iff_exists] at hax
    obtain ⟨n, hn⟩ := hax
    rw [hxa] at hn hxy
    rcases hB a n da hn hda with ⟨en, hen, hpos, hkey⟩ | hrel
    · right
      refine ⟨en, hen, leD_trans hkey ?_⟩
      exact leD_some_some.mpr (Nat.le_add_right da c)
    · obtain ⟨n2, e, hn2, hemem, hedest, helen⟩ := edgeTo_mem_edge hxy
      have hn2eq : n2 = n := by
        rw [hn] at hn2
        exact (Option.some.inj hn2).symm
      rw [hn2eq] at hemem
      obtain ⟨dz, hdz, hdzle⟩ := hrel e hemem
      rw [hedest] at hdz
      rw [helen] at hdzle
      obtain ⟨db, hdb, hdble⟩ := leD_some_right hdzle
      rw [hdb] at hdz
      have htail : IsPath g (y :: t) y z := isPath_tail hP
      rcases dijkstra_path_bound hB (y :: t) y z c' db htail hyt hdz with
        ⟨dzz, hdzz, hle⟩ | ⟨en, hen, hkey⟩
      · left
        exact ⟨dzz, hdzz, by omega⟩
      · right
        exact ⟨en, hen, leD_trans hkey (leD_some_some.mpr (by omega))⟩

theorem pathWalk_term_dist {g : GraphS} {dist : DistMap} {parents : ParentMap}
    (hPL : DParentsLe g dist parents)
    (hcov : ∀ p, (alookup g.nodes p).isSome → (alookup parents p).isSome) :
    ∀ (fuel : Nat) (d : Nat) (cur : NodeS) (acc : List NodeS),
    (alookup g.nodes cur.pos).isSome →
    alookup dist cur.pos = some (some d) → d < fuel →
    ∃ r, pathWalk parents fuel (some cur) acc = some r
  | 0, d, cur, acc => by intro _ _ h; omega
  | fuel + 1, d, cur, acc => by
    intro hcur hd hlt
    have hstep : pathWalk parents (fuel + 1) (some cur) acc
        = match alookup parents cur.pos with
          | none => none
          | some par => pathWalk parents fuel par (acc ++ [cur]) := rfl
    rw [hstep]
    cases hl : alookup parents cur.pos with
    | none =>
      exfalso
      have hsome := hcov cur.pos hcur
      rw [hl] at hsome
      cases hsome
    | some par =>
      cases par with
      | none =>
        refine ⟨(acc ++ [cur]).reverse, ?_⟩
        show pathWalk parents fuel none (acc ++ [cur]) = _
        cases fuel with
        | zero => rfl
        | succ m => rfl
      | some pn =>
        obtain ⟨len, dq, dp, hedge, hlen, hdq, hdp, hsum⟩ := hPL cur.pos pn hl
        have hdeq : d = dq := by
          rw [hd] at hdq
          exact Option.some.inj (Option.some.inj hdq)
        have hpn : (alookup g.nodes pn.pos).isSome :=
          edgeTo_node (by rw [hedge]; rfl)
        have hlt2 : dp < fuel := by omega
        obtain ⟨r, hr⟩ := pathWalk_term_dist hPL hcov fuel dp pn (acc ++ [cur])
          hpn hdp hlt2
        exact ⟨r, hr⟩

theorem pchain_cost_le {g : GraphS} {dist : DistMap} {parents : ParentMap}
    (hPL : DParentsLe g dist parents) :
    ∀ (l : List NodeS), pchain parents l →
    ∀ hd lst dh dl, l.head? = some hd → l.getLast? = some lst →
    alookup dist hd.pos = some (some dh) →
    alookup dist lst.pos = some (some dl) →
    ∃ cc, pathCost g (posList l) = some cc ∧ dh + cc ≤ dl
  | [] => by intro _ hd lst dh dl hh _ _ _; cases hh
  | [x] => by
    intro _ hd lst dh dl hh hl hdh hdl
    have h1 : x = hd := by simpa using hh
    have h2 : x = lst := by simpa using hl
    refine ⟨0, rfl, ?_⟩
    rw [h1] at h2
    rw [h2] at hdh
    rw [hdh] at hdl
    have h3 := Option.some.inj (Option.some.inj hdl)
    omega
  | a :: b :: t => by
    intro hc hd lst dh dl hh hl hdh hdl
    have hda : a = hd := by simpa using hh
    obtain ⟨len, dq, dp, hedge, hlen, hdq, hdp, hsum⟩ := hPL b.pos a hc.1
    rw [hda] at hdp
    have hdpeq : dh = dp := by
      rw [hdh] at hdp
      exact Option.some.inj (Option.some.inj hdp)
    have hl2 : (b :: t).getLast? = some lst := by
      rw [List.getLast?_cons_cons] at hl
      exact hl
    obtain ⟨cc, hcc, hccle⟩ := pchain_cost_le hPL (b :: t) hc.2 b lst dq dl rfl
      hl2 hdq hdl
    refine ⟨len + cc, ?_, by omega⟩
    show (edgeTo g a.pos b.pos).bind
      (fun l => (pathCost g (posList (b :: t))).map (l + ·)) = some (len + cc)
    rw [hedge, Option.some_bind, hcc]
    rfl

theorem seed_more_facts (g : GraphS) :
    ∀ (l : List (Pos × NodeS))
      (st : DistMap × ParentMap × List (Dist × NodeS)),
    alookup st.1 g.root.pos = some (some 0) →
    alookup st.2.1 g.root.pos = some none →
    (∀ en ∈ st.2.2, en = ((some 0 : Dist), g.root) ∨ en.1 = none) →
    alookup (l.foldl
        (fun st pn =>
          if pn.2.pos = g.root.pos then st
          else (aupsert st.1 pn.2.pos none, aupsert st.2.1 pn.2.pos none,
                st.2.2 ++ [(none, pn.2)])) st).1 g.root.pos = some (some 0) ∧
    alookup (l.foldl
        (fun st pn =>
          if pn.2.pos = g.root.pos then st
          else (aupsert st.1 pn.2.pos none, aupsert st.2.1 pn.2.pos none,
                st.2.2 ++ [(none, pn.2)])) st).2.1 g.root.pos = some none ∧
    (∀ en ∈ (l.foldl
        (fun st pn =>
          if pn.2.pos = g.root.pos then st
          else (aupsert st.1 pn.2.pos none, aupsert st.2.1 pn.2.pos none,
                st.2.2 ++ [(none, pn.2)])) st).2.2,
      en = ((some 0 : Dist), g.root) ∨ en.1 = none) ∧
    (∀ en ∈ st.2.2, en ∈ (l.foldl
        (fun st pn =>
          if pn.2.pos = g.root.pos then st
          else (aupsert st.1 pn.2.pos none, aupsert st.2.1 pn.2.pos none,
                st.2.2 ++ [(none, pn.2)])) st).2.2) ∧
    (∀ pn ∈ l, pn.2.pos = g.root.pos ∨ ((none : Dist), pn.2) ∈ (l.foldl
        (fun st pn =>
          if pn.2.pos = g.root.pos then st
          else (aupsert st.1 pn.2.pos none, aupsert st.2.1 pn.2.pos none,
                st.2.2 ++ [(none, pn.2)])) st).2.2)
  | [], st => by
    intro h1 h2 h3
    exact ⟨h1, h2, h3, fun en hen => hen,
      fun pn hpn => absurd hpn (List.not_mem_nil pn)⟩
  | pn :: t, st => by
    intro h1 h2 h3
    rw [List.foldl_cons]
    by_cases hroot : pn.2.pos = g.root.pos
    · rw [if_pos hroot]
      obtain ⟨k1, k2, k3, k4, k5⟩ := seed_more_facts g t st h1 h2 h3
      refine ⟨k1, k2, k3, k4, ?_⟩
      intro qn hqn
      rcases List.mem_cons.mp hqn with hq | hq
      · rw [hq]
        exact Or.inl hroot
      · exact k5 qn hq
    · rw [if_neg hroot]
      have hne : g.root.pos ≠ pn.2.pos := fun hcon => hroot hcon.symm
      have h1b : alookup (aupsert st.1 pn.2.pos none) g.root.pos
          = some (some 0) := by
        rw [alookup_aupsert_ne st.1 pn.2.pos g.root.pos _ hne]
        exact h1
      have h2b : alookup (aupsert st.2.1 pn.2.pos none) g.root.pos
          = some none := by
        rw [alookup_aupsert_ne st.2.1 pn.2.pos g.root.pos _ hne]
        exact h2
      have h3b : ∀ en ∈ st.2.2 ++ [((none : Dist), pn.2)],
          en = ((some 0 : Dist), g.root) ∨ en.1 = none := by
        intro en hen
        rcases List.mem_append.mp hen with ha | ha
        · exact h3 en ha
        · rw [List.mem_singleton] at ha
          rw [ha]
          exact Or.inr rfl
      obtain ⟨k1, k2, k3, k4, k5⟩ := seed_more_facts g t
        (aupsert st.1 pn.2.pos none, aupsert st.2.1 pn.2.pos none,
         st.2.2 ++ [(none, pn.2)]) h1b h2b h3b
      refine ⟨k1, k2, k3, ?_, ?_⟩
      · intro en hen
        exact k4 en (List.mem_append.mpr (Or.inl hen))
      · intro qn hqn
        rcases List.mem_cons.mp hqn with hq | hq
        · rw [hq]
          right
          exact k4 _ (List.mem_append.mpr (Or.inr (List.mem_singleton_self _)))
        · exact k5 qn hq

theorem dijkstraRelax_opt {g : GraphS} (hwf : WF g) {node : NodeS} {dn : Dist}
    (hnode : alookup g.nodes node.pos = some node) :
    ∀ (es done : List EdgeS) (dist : DistMap) (parents : ParentMap)
      (pq : List (Dist × NodeS))
      (out : DistMap × ParentMap × List (Dist × NodeS)),
    node.edges = done ++ es →
    alookup dist node.pos = some dn →
    (∀ p, (alookup g.nodes p).isSome → (alookup dist p).isSome) →
    alookup dist g.start = some (some 0) →
    DKeysLe dist pq →
    DRelaxedOrX g node.pos dist pq →
    DParentsLe g dist parents →
    DFiniteParent g dist parents →
    alookup parents g.start = some none →
    (∀ e ∈ done, ∀ d, dn = some d → ∃ dz, alookup dist e.dest = some dz ∧
      leD dz (some (d + e.length)) = true) →
    dijkstraRelax g node es dist parents pq = some out →
    alookup out.1 node.pos = some dn ∧
    (∀ p, (alookup g.nodes p).isSome → (alookup out.1 p).isSome) ∧
    alookup out.1 g.start = some (some 0) ∧
    DKeysLe out.1 out.2.2 ∧
    DRelaxedOrX g node.pos out.1 out.2.2 ∧
    DParentsLe g out.1 out.2.1 ∧
    DFiniteParent g out.1 out.2.1 ∧
    alookup out.2.1 g.start = some none ∧
    (∀ e ∈ node.edges, ∀ d, dn = some d → ∃ dz, alookup out.1 e.dest = some dz ∧
      leD dz (some (d + e.length)) = true) ∧
    (∀ en ∈ pq, en ∈ out.2.2)
  | [], done, dist, parents, pq, out => by
    intro hsplit hdn hcov hs hK hB hP hF hsp hdone h
    rw [dijkstraRelax] at h
    have h2 := Option.some.inj h
    subst h2
    refine ⟨hdn, hcov, hs, hK, hB, hP, hF, hsp, ?_, fun en hen => hen⟩
    intro e he d hd
    rw [hsplit, List.append_nil] at he
    exact hdone e he d hd
  | e :: rest, done, dist, parents, pq, out => by
    intro hsplit hdn hcov hs hK hB hP hF hsp hdone h
    rw [dijkstraRelax] at h
    cases hf : findNode g e.dest with
    | none => rw [hf] at h; cases h
    | some nb =>
      rw [hf] at h
      simp only [] at h
      have hnbdest : nb.pos = e.dest := (wf_lookup hwf hf).1
      have hnb : alookup g.nodes nb.pos = some nb := by
        rw [hnbdest]
        exact hf
      have hemem : e ∈ node.edges := by
        rw [hsplit]
        exact List.mem_append.mpr (Or.inr (List.mem_cons_self _ _))
      have hsplit2 : node.edges = (done ++ [e]) ++ rest := by
        rw [hsplit, List.append_assoc]
        rfl
      rw [hdn] at h
      simp only [] at h
      cases hdnb : alookup dist nb.pos with
      | none => rw [hdnb] at h; cases h
      | some dnb =>
        rw [hdnb] at h
        simp only [] at h
        by_cases hlt : ltD (addD dn e.length) dnb = true
        · rw [if_pos hlt] at h
          obtain ⟨d0, hd0⟩ : ∃ d0, dn = some d0 := by
            cases hdnc : dn with
            | none =>
              rw [hdnc] at hlt
              rw [show addD none e.length = none from rfl] at hlt
              cases hlt
            | some d0 => exact ⟨d0, rfl⟩
          subst hd0
          have haddD : addD (some d0) e.length = some (d0 + e.length) := rfl
          rw [haddD] at h hlt
          have hnbne : nb.pos ≠ node.pos := by
            intro hcon
            rw [hcon, hdn] at hdnb
            have hdnbe : some d0 = dnb := Option.some.inj hdnb
            rw [← hdnbe] at hlt
            have hcon2 : d0 + e.length < d0 := by
              simpa [ltD] using hlt
            omega
          have hstartne : nb.pos ≠ g.start := by
            intro hcon
            rw [hcon, hs] at hdnb
            have hdnbe : some 0 = dnb := Option.some.inj hdnb
            rw [← hdnbe] at hlt
            have hcon2 : d0 + e.length < 0 := by
              simpa [ltD] using hlt
            omega
          have hlen1 : 1 ≤ e.length := wf_edge_one_le hwf hnode hemem
          have hedge : edgeTo g node.pos nb.pos = some e.length := by
            rw [hnbdest]
            exact edgeTo_of_edge_len hwf hnode hemem
          have hdn2 : alookup (aupsert dist nb.pos (some (d0 + e.length)))
              node.pos = some (some d0) := by
            rw [alookup_aupsert_ne dist nb.pos node.pos _ (Ne.symm hnbne)]
            exact hdn
          have hcov2 : ∀ p, (alookup g.nodes p).isSome →
              (alookup (aupsert dist nb.pos (some (d0 + e.length))) p).isSome :=
            fun p hp => isSome_mono_aupsert dist nb.pos p _ (hcov p hp)
          have hs2 : alookup (aupsert dist nb.pos (some (d0 + e.length)))
              g.start = some (some 0) := by
            rw [alookup_aupsert_ne dist nb.pos g.start _ (Ne.symm hstartne)]
            exact hs
          have hK2 : DKeysLe (aupsert dist nb.pos (some (d0 + e.length)))
              (pq ++ [(some (d0 + e.length), nb)]) := by
            intro en hen
            rcases List.mem_append.mp hen with h1 | h1
            · obtain ⟨dv, hdv, hle⟩ := hK en h1
              by_cases hqq : en.2.pos = nb.pos
              · refine ⟨some (d0 + e.length), ?_, ?_⟩
                · rw [hqq, alookup_aupsert_self]
                · have hdveq : dnb = dv := by
                    rw [hqq, hdnb] at hdv
                    exact Option.some.inj hdv
                  have hnw : leD (some (d0 + e.length)) dnb = true :=
                    ltD_to_leD hlt
                  rw [hdveq] at hnw
                  exact leD_trans hnw hle
              · refine ⟨dv, ?_, hle⟩
                rw [alookup_aupsert_ne dist nb.pos _ _ hqq]
                exact hdv
            · rw [List.mem_singleton] at h1
              rw [h1]
              exact ⟨some (d0 + e.length), by rw [alookup_aupsert_self],
                leD_refl _⟩
          have hB2 : DRelaxedOrX g node.pos
              (aupsert dist nb.pos (some (d0 + e.length)))
              (pq ++ [(some (d0 + e.length), nb)]) := by
            intro v n d hvne hn hd
            by_cases hvnb : v = nb.pos
            · left
              rw [hvnb, alookup_aupsert_self] at hd
              have hde : d0 + e.length = d :=
                Option.some.inj (Option.some.inj hd)
              refine ⟨(some (d0 + e.length), nb),
                List.mem_append.mpr (Or.inr (List.mem_singleton_self _)),
                hvnb.symm, ?_⟩
              rw [← hde]
              exact leD_refl _
            · rw [alookup_aupsert_ne dist nb.pos v _ hvnb] at hd
              rcases hB v n d hvne hn hd with ⟨en, hen, hpos, hkey⟩ | hrel
              · exact Or.inl ⟨en, List.mem_append.mpr (Or.inl hen), hpos, hkey⟩
              · right
                intro e2 he2
                obtain ⟨dz, hdz, hdzle⟩ := hrel e2 he2
                by_cases hznb : e2.dest = nb.pos
                · refine ⟨some (d0 + e.length),
                    by rw [hznb, alookup_aupsert_self], ?_⟩
                  have hdzeq : dz = dnb := by
                    rw [hznb, hdnb] at hdz
                    exact (Option.some.inj hdz).symm
                  exact leD_trans (ltD_to_leD hlt) (hdzeq ▸ hdzle)
                · refine ⟨dz, ?_, hdzle⟩
                  rw [alookup_aupsert_ne dist nb.pos _ _ hznb]
                  exact hdz
          have hP2 : DParentsLe g (aupsert dist nb.pos (some (d0 + e.length)))
              (aupsert parents nb.pos (some node)) := by
            intro q pn hq
            by_cases hqnb : q = nb.pos
            · rw [hqnb, alookup_aupsert_self] at hq
              have hpn : node = pn := Option.some.inj (Option.some.inj hq)
              rw [hqnb, ← hpn]
              exact ⟨e.length, d0 + e.length, d0, hedge, hlen1,
                by rw [alookup_aupsert_self], hdn2, Nat.le_refl _⟩
            · rw [alookup_aupsert_ne parents nb.pos q _ hqnb] at hq
              obtain ⟨len, dq, dp, hedge2, hlen2, hdq, hdp, hsum⟩ := hP q pn hq
              by_cases hpnb : pn.pos = nb.pos
              · have hdnb2 : dnb = some dp := by
                  rw [hpnb, hdnb] at hdp
                  exact Option.some.inj hdp
                have hltv : d0 + e.length < dp := by
                  rw [hdnb2] at hlt
                  simpa [ltD] using hlt
                refine ⟨len, dq, d0 + e.length, hedge2, hlen2, ?_,
                  by rw [hpnb, alookup_aupsert_self], by omega⟩
                rw [alookup_aupsert_ne dist nb.pos q _ hqnb]
                exact hdq
              · refine ⟨len, dq, dp, hedge2, hlen2, ?_, ?_, hsum⟩
                · rw [alookup_aupsert_ne dist nb.pos q _ hqnb]
                  exact hdq
                · rw [alookup_aupsert_ne dist nb.pos _ _ hpnb]
                  exact hdp
          have hF2 : DFiniteParent g
              (aupsert dist nb.pos (some (d0 + e.length)))
              (aupsert parents nb.pos (some node)) := by
            intro v d hv
            by_cases hvnb : v = nb.pos
            · right
              exact ⟨node, by rw [hvnb, alookup_aupsert_self]⟩
            · rw [alookup_aupsert_ne dist nb.pos v _ hvnb] at hv
              rcases hF v d hv with h1 | ⟨pn, hpn⟩
              · exact Or.inl h1
              · right
                refine ⟨pn, ?_⟩
                rw [alookup_aupsert_ne parents nb.pos v _ hvnb]
                exact hpn
          have hsp2 : alookup (aupsert parents nb.pos (some node)) g.start
              = some none := by
            rw [alookup_aupsert_ne parents nb.pos g.start _ (Ne.symm hstartne)]
            exact hsp
          have hdone2 : ∀ e2 ∈ done ++ [e], ∀ d, (some d0 : Dist) = some d →
              ∃ dz, alookup (aupsert dist nb.pos (some (d0 + e.length)))
                e2.dest = some dz ∧ leD dz (some (d + e2.length)) = true := by
            intro e2 he2 d hd
            have hdd : d0 = d := Option.some.inj hd
            rcases List.mem_append.mp he2 with h1 | h1
            · obtain ⟨dz, hdz, hdzle⟩ := hdone e2 h1 d hd
              by_cases hznb : e2.dest = nb.pos
              · refine ⟨some (d0 + e.length),
                  by rw [hznb, alookup_aupsert_self], ?_⟩
                have hdzeq : dz = dnb := by
                  rw [hznb, hdnb] at hdz
                  exact (Option.some.inj hdz).symm
                exact leD_trans (ltD_to_leD hlt) (hdzeq ▸ hdzle)
              · refine ⟨dz, ?_, hdzle⟩
                rw [alookup_aupsert_ne dist nb.pos _ _ hznb]
                exact hdz
            · rw [List.mem_singleton] at h1
              rw [h1]
              refine ⟨some (d0 + e.length), ?_, ?_⟩
              · rw [← hnbdest, alookup_aupsert_self]
              · rw [← hdd]
                exact leD_refl _
          obtain ⟨c1, c2, c3, c4, c5, c6, c7, c8, c9, c10⟩ :=
            dijkstraRelax_opt hwf hnode rest (done ++ [e]) _ _ _ out
              hsplit2 hdn2 hcov2 hs2 hK2 hB2 hP2 hF2 hsp2 hdone2 h
          exact ⟨c1, c2, c3, c4, c5, c6, c7, c8, c9,
            fun en hen => c10 en (List.mem_append.mpr (Or.inl hen))⟩
        · rw [if_neg hlt] at h
          have hlt' : ltD (addD dn e.length) dnb = false := by
            simpa using hlt
          have hdone2 : ∀ e2 ∈ done ++ [e], ∀ d, dn = some d →
              ∃ dz, alookup dist e2.dest = some dz ∧
                leD dz (some (d + e2.length)) = true := by
            intro e2 he2 d hd
            rcases List.mem_append.mp he2 with h1 | h1
            · exact hdone e2 h1 d hd
            · rw [List.mem_singleton] at h1
              rw [h1]
              refine ⟨dnb, ?_, ?_⟩
              · rw [← hnbdest]
                exact hdnb
              · have hle := not_ltD_leD hlt'
                rw [hd] at hle
                exact hle
          exact dijkstraRelax_opt hwf hnode rest (done ++ [e]) dist parents pq
            out hsplit2 hdn hcov hs hK hB hP hF hsp hdone2 h

theorem dijkstraLoop_opt {g : GraphS} (hwf : WF g) :
    ∀ (fuel : Nat) (dist : DistMap) (parents : ParentMap)
      (pq : List (Dist × NodeS)) (res : Option NodeS) (parents' : ParentMap),
    (∀ p, (alookup g.nodes p).isSome → (alookup dist p).isSome) →
    alookup dist g.start = some (some 0) →
    DKeysLe dist pq →
    DRelaxedOr g dist pq →
    DParentsLe g dist parents →
    DFiniteParent g dist parents →
    alookup parents g.start = some none →
    (∀ en ∈ pq, alookup g.nodes en.2.pos = some en.2) →
    dijkstraLoop g fuel dist parents pq = some (res, parents') →
    (res = none → ¬ GoalEntry pq) ∧
    alookup parents' g.start = some none ∧
    (∀ gn, res = some gn → gn.pos = g.goal ∧ ∃ dist2,
      DParentsLe g dist2 parents' ∧ DFiniteParent g dist2 parents' ∧
      alookup dist2 g.start = some (some 0) ∧
      (∀ p, (alookup g.nodes p).isSome → (alookup dist2 p).isSome) ∧
      (∀ P c, IsPath g P g.start gn.pos → pathCost g P = some c →
        ∃ dg, alookup dist2 gn.pos = some (some dg) ∧ dg ≤ c))
  | 0, dist, parents, pq, res, parents' => by
    intro _ _ _ _ _ _ _ _ h
    cases h
  | fuel + 1, dist, parents, [], res, parents' => by
    intro hcov hs hK hB hP hF hsp hpq h
    rw [dijkstraLoop] at h
    have h2 := Option.some.inj h
    rw [Prod.mk.injEq] at h2
    refine ⟨fun _ hge => ?_, ?_, fun gn hgn => ?_⟩
    · obtain ⟨en, hen, _⟩ := hge
      exact absurd hen (List.not_mem_nil en)
    · rw [← h2.2]
      exact hsp
    · rw [← h2.1] at hgn
      cases hgn
  | fuel + 1, dist, parents, e0 :: pqt, res, parents' => by
    intro hcov hs hK hB hP hF hsp hpq h
    rw [dijkstraLoop] at h <;> try exact fun hcon => List.noConfusion hcon
    cases hp : popMinBy (fun (x : Dist × NodeS) => x.1) leD (e0 :: pqt) with
    | none =>
      rw [popMinBy_none_iff] at hp
      cases hp
    | some mp =>
      obtain ⟨⟨k, node⟩, pq'⟩ := mp
      rw [hp] at h
      simp only [] at h
      have hperm := popMinBy_perm (fun (x : Dist × NodeS) => x.1) leD
        (e0 :: pqt) (k, node) pq' hp
      have hmem : (k, node) ∈ e0 :: pqt :=
        hperm.mem_iff.mpr (List.mem_cons_self _ pq')
      have hmin := popMinBy_min (fun (x : Dist × NodeS) => x.1) leD
        leD_total (fun a b c h1 h2 => leD_trans h1 h2) (e0 :: pqt)
        (k, node) pq' hp
      have hnode : alookup g.nodes node.pos = some node := hpq _ hmem
      have hmem' : ∀ en ∈ pq', en ∈ e0 :: pqt :=
        fun en hen => hperm.mem_iff.mpr (List.mem_cons_of_mem _ hen)
      have hK' : DKeysLe dist pq' := fun en hen => hK en (hmem' en hen)
      have hpq' : ∀ en ∈ pq', alookup g.nodes en.2.pos = some en.2 :=
        fun en hen => hpq en (hmem' en hen)
      by_cases hg : node.is_goal
      · rw [if_pos hg] at h
        have h2 := Option.some.inj h
        rw [Prod.mk.injEq] at h2
        have hgoalpos : node.pos = g.goal := by
          have hdec := (wf_lookup hwf hnode).2.1
          rw [hg] at hdec
          exact of_decide_eq_true hdec.symm
        refine ⟨?_, ?_, fun gn hgn => ?_⟩
        · intro hres
          rw [← h2.1] at hres
          cases hres
        · rw [← h2.2]
          exact hsp
        rw [← h2.1] at hgn
        have hng : node = gn := Option.some.inj hgn
        rw [← hng, ← h2.2]
        refine ⟨hgoalpos, dist, hP, hF, hs, hcov, ?_⟩
        intro P c hPa hc
        rcases dijkstra_path_bound hB P g.start node.pos c 0 hPa hc hs with
          ⟨dz, hdz, hle⟩ | ⟨en, hen, hkey⟩
        · exact ⟨dz, hdz, by omega⟩
        · have hkmin : leD k en.1 = true := hmin en hen
          obtain ⟨dv, hdv, hdvle⟩ := hK (k, node) hmem
          have h1 : leD dv (some (0 + c)) = true :=
            leD_trans hdvle (leD_trans hkmin hkey)
          obtain ⟨dg, hdg, hdgle⟩ := leD_some_right h1
          rw [hdg] at hdv
          exact ⟨dg, hdv, by omega⟩
      · rw [if_neg hg] at h
        cases he : dijkstraRelax g node node.edges dist parents pq' with
        | none => rw [he] at h; cases h
        | some dpq =>
          rw [he] at h
          have hBx : DRelaxedOrX g node.pos dist pq' := by
            intro v n d hvne hn hd
            rcases hB v n d hn hd with ⟨en, hen, hpos, hkey⟩ | hrel
            · left
              have hen' : en ∈ (k, node) :: pq' := hperm.mem_iff.mp hen
              rcases List.mem_cons.mp hen' with hcon | hgood
              · exfalso
                rw [hcon] at hpos
                exact hvne hpos.symm
              · exact ⟨en, hgood, hpos, hkey⟩
            · exact Or.inr hrel
          have hcovn := hcov node.pos (by rw [hnode]; rfl)
          rw [Option.isSome_iff_exists] at hcovn
          obtain ⟨dn, hdn⟩ := hcovn
          obtain ⟨c1, c2, c3, c4, c5, c6, c7, c8, c9, c10⟩ :=
            dijkstraRelax_opt hwf hnode node.edges [] dist parents pq' dpq
              rfl hdn hcov hs hK' hBx hP hF hsp
              (fun e2 he2 => absurd he2 (List.not_mem_nil e2)) he
          have hpq2 : ∀ en ∈ dpq.2.2, alookup g.nodes en.2.pos = some en.2 :=
            dijkstraRelax_pq_arena hwf hnode node.edges dist parents pq' dpq
              (fun e2 he2 => he2) hpq' he
          have hB2full : DRelaxedOr g dpq.1 dpq.2.2 := by
            intro v n d hn hd
            by_cases hvn : v = node.pos
            · right
              rw [hvn] at hd
              rw [c1] at hd
              have hdneq : dn = some d := Option.some.inj hd
              intro e2 he2
              have hneq : node = n := by
                rw [hvn, hnode] at hn
                exact Option.some.inj hn
              rw [← hneq] at he2
              exact c9 e2 he2 d hdneq
            · exact c5 v n d hvn hn hd
          obtain ⟨dist2, parents2, pq2⟩ := dpq
          obtain ⟨k1, k2, k3⟩ := dijkstraLoop_opt hwf fuel dist2 parents2 pq2
            res parents' c2 c3 c4 hB2full c6 c7 c8 hpq2 h
          refine ⟨?_, k2, k3⟩
          intro hres hge
          apply k1 hres
          obtain ⟨en, hen, hgoal⟩ := hge
          have hen' : en ∈ (k, node) :: pq' := hperm.mem_iff.mp hen
          rcases List.mem_cons.mp hen' with hcon | hgood
          · exfalso
            rw [hcon] at hgoal
            exact hg hgoal
          · exact ⟨en, c10 en hgood, hgoal⟩

theorem dijkstra_minimal {g : GraphS} (hwf : WF g) (hre : Reach g)
    (hsg : g.start ≠ g.goal) :
    ∃ p c, Returns (dijkstra g) (some p) ∧ pathCost g (posList p) = some c ∧
      ∀ P cq, IsPath g P g.start g.goal → pathCost g P = some cq → c ≤ cq := by
  obtain ⟨maxJ, hmj, hone, hga, hroot⟩ := id hwf
  have hrootpos : g.root.pos = g.start := (wf_lookup hwf hroot).1
  have hseedrfl : dijkstraSeed g = g.nodes.foldl
      (fun st pn =>
        if pn.2.pos = g.root.pos then st
        else (aupsert st.1 pn.2.pos none, aupsert st.2.1 pn.2.pos none,
              st.2.2 ++ [(none, pn.2)]))
      ([(g.root.pos, some 0)], [(g.root.pos, none)],
        [((some 0 : Dist), g.root)]) := rfl
  obtain ⟨h1, h2, h3, h4, h5⟩ := seed_fold_facts g g.nodes
    ([(g.root.pos, some 0)], [(g.root.pos, none)], [((some 0 : Dist), g.root)])
  rw [← hseedrfl] at h1 h2 h3 h4 h5
  obtain ⟨m1, m2, m3, m4, m5⟩ := seed_more_facts g g.nodes
    ([(g.root.pos, some 0)], [(g.root.pos, none)], [((some 0 : Dist), g.root)])
    (show alookup ([(g.root.pos, (some 0 : Dist))]) g.root.pos = some (some 0)
      from by unfold alookup; rw [if_pos rfl])
    (show alookup ([(g.root.pos, (none : Option NodeS))]) g.root.pos
        = some none from by unfold alookup; rw [if_pos rfl])
    (by
      intro en hen
      rw [List.mem_singleton] at hen
      exact Or.inl hen)
  rw [← hseedrfl] at m1 m2 m3 m4 m5
  have hpq0a : ∀ en ∈ [((some 0 : Dist), g.root)],
      alookup g.nodes en.2.pos = some en.2 := by
    intro en hen
    rw [List.mem_singleton] at hen
    rw [hen, hrootpos]
    exact hroot
  have hinv0 : DInv g [(g.root.pos, some 0)] [(g.root.pos, none)] := by
    have hlk : ∀ q, alookup ([(g.root.pos, none)] : ParentMap) q
        = if g.root.pos = q then some (none : Option NodeS) else none :=
      fun q => rfl
    refine ⟨?_, ?_, ?_⟩
    · intro q w hq
      rw [hlk] at hq
      by_cases hqr : g.root.pos = q
      · rw [← hqr, hrootpos, hroot]
        rfl
      · rw [if_neg hqr] at hq
        cases hq
    · intro q pn hq
      rw [hlk] at hq
      by_cases hqr : g.root.pos = q
      · rw [if_pos hqr] at hq
        cases Option.some.inj hq
      · rw [if_neg hqr] at hq
        cases hq
    · intro q hq
      rw [hlk] at hq
      by_cases hqr : g.root.pos = q
      · exact Or.inl (by rw [← hqr, hrootpos])
      · rw [if_neg hqr] at hq
        cases hq
  have hnone0 : ∀ q w, alookup ([(g.root.pos, none)] : ParentMap) q = some w →
      w = none := by
    intro q w hq
    have hlk : alookup ([(g.root.pos, none)] : ParentMap) q
        = if g.root.pos = q then some (none : Option NodeS) else none := rfl
    rw [hlk] at hq
    by_cases hqr : g.root.pos = q
    · rw [if_pos hqr] at hq
      exact (Option.some.inj hq).symm
    · rw [if_neg hqr] at hq
      cases hq
  have hseedinv := dijkstraSeed_fold_inv hwf g.nodes [(g.root.pos, some 0)]
    [(g.root.pos, none)] [((some 0 : Dist), g.root)] (fun pn hpn => hpn)
    hinv0 hnone0 hpq0a
  rw [← hseedrfl] at hseedinv
  cases hseed : dijkstraSeed g with
  | mk dist0 rest0 =>
  obtain ⟨parents0, pq0⟩ := rest0
  rw [hseed] at h1 h2 h3 h4 h5 m1 m2 m3 m4 m5 hseedinv
  simp only [] at h1 h2 h3 h4 h5 m1 m2 m3 m4 m5 hseedinv
  have hpqA : ∀ en ∈ pq0, alookup g.nodes en.2.pos = some en.2 := hseedinv.2
  have hcovD : ∀ p ∈ akeys g.nodes, (alookup dist0 p).isSome := by
    intro p hp
    obtain ⟨pn, hpn, hpn1⟩ := List.mem_map.mp hp
    have hpos : pn.2.pos = pn.1 := (hga.2 pn hpn).1
    rcases h3 pn hpn with hcase | hcase
    · have hq : p = g.root.pos := by rw [← hpn1, ← hpos, hcase]
      rcases h1 p with ha | ha
      · exact ha
      · exfalso
        apply ha
        rw [hq]
        rw [show alookup ([(g.root.pos, (some 0 : Dist))]) g.root.pos
          = some (some 0) from by unfold alookup; rw [if_pos rfl]]
        rfl
    · rw [← hpn1, ← hpos]
      exact hcase.1
  have hcovP : ∀ p ∈ akeys g.nodes, (alookup parents0 p).isSome := by
    intro p hp
    obtain ⟨pn, hpn, hpn1⟩ := List.mem_map.mp hp
    have hpos : pn.2.pos = pn.1 := (hga.2 pn hpn).1
    rcases h3 pn hpn with hcase | hcase
    · have hq : p = g.root.pos := by rw [← hpn1, ← hpos, hcase]
      rcases h2 p with ha | ha
      · exact ha
      · exfalso
        apply ha
        rw [hq]
        rw [show alookup ([(g.root.pos, (none : Option NodeS))]) g.root.pos
          = some none from by unfold alookup; rw [if_pos rfl]]
        rfl
    · rw [← hpn1, ← hpos]
      exact hcase.2
  have hvalD : ∀ q d, alookup dist0 q = some (some d) →
      q = g.root.pos ∧ d = 0 := by
    intro q d hq
    rcases h4 q (some d) hq with ha | ha
    · have ha2 : (if g.root.pos = q then some ((some 0 : Dist)) else none)
          = some (some d) := ha
      by_cases hqr : g.root.pos = q
      · rw [if_pos hqr] at ha2
        have hv := Option.some.inj ha2
        exact ⟨hqr.symm, by simpa using (Option.some.inj hv).symm⟩
      · rw [if_neg hqr] at ha2
        cases ha2
    · cases ha
  have hvalP : ∀ q pn, alookup parents0 q = some (some pn) → False := by
    intro q pn hq
    rcases h5 q (some pn) hq with ha | ha
    · have ha2 : (if g.root.pos = q then some ((none : Option NodeS))
          else none) = some (some pn) := ha
      by_cases hqr : g.root.pos = q
      · rw [if_pos hqr] at ha2
        cases Option.some.inj ha2
      · rw [if_neg hqr] at ha2
        cases ha2
    · cases ha
  have hcovD' : ∀ p, (alookup g.nodes p).isSome → (alookup dist0 p).isSome :=
    fun p hp => hcovD p ((mem_akeys_iff_isSome g.nodes p).mpr hp)
  have hs0 : alookup dist0 g.start = some (some 0) := by
    rw [← hrootpos]
    exact m1
  have hsp0 : alookup parents0 g.start = some none := by
    rw [← hrootpos]
    exact m2
  have hK0 : DKeysLe dist0 pq0 := by
    intro en hen
    rcases m3 en hen with ha | ha
    · rw [ha]
      refine ⟨some 0, ?_, leD_refl _⟩
      show alookup dist0 g.root.pos = some (some 0)
      exact m1
    · have hc := hcovD' en.2.pos (by rw [hpqA en hen]; rfl)
      rw [Option.isSome_iff_exists] at hc
      obtain ⟨dv, hdv⟩ := hc
      refine ⟨dv, hdv, ?_⟩
      rw [ha]
      exact leD_none_right dv
  have hB0 : DRelaxedOr g dist0 pq0 := by
    intro v n d hn hd
    obtain ⟨hq, hd0⟩ := hvalD v d hd
    left
    refine ⟨((some 0 : Dist), g.root), m4 _ (List.mem_singleton_self _),
      by rw [hq], ?_⟩
    rw [hd0]
    exact leD_refl _
  have hP0 : DParentsLe g dist0 parents0 :=
    fun q pn hq => (hvalP q pn hq).elim
  have hF0 : DFiniteParent g dist0 parents0 := by
    intro v d hv
    obtain ⟨hq, _⟩ := hvalD v d hv
    exact Or.inl (by rw [hq, hrootpos])
  have hge0 : GoalEntry pq0 := by
    obtain ⟨P, hP⟩ := hre
    have hgm : g.goal ∈ P := getLast_opt_mem hP.2.2.1
    have hgs := hP.2.2.2.1 g.goal hgm
    rw [Option.isSome_iff_exists] at hgs
    obtain ⟨gn, hgn⟩ := hgs
    have hgnpos : gn.pos = g.goal := (wf_lookup hwf hgn).1
    have hgng : gn.is_goal = true := by
      have hdec := (wf_lookup hwf hgn).2.1
      simp at hdec
      exact hdec
    have hmemn : (g.goal, gn) ∈ g.nodes := alookup_mem hgn
    rcases m5 (g.goal, gn) hmemn with ha | ha
    · exfalso
      apply hsg
      rw [← hrootpos]
      have : gn.pos = g.root.pos := ha
      rw [← this, hgnpos]
    · exact ⟨(none, gn), ha, hgng⟩
  have hdb0 : ∀ p d, alookup dist0 p = some (some d) →
      d + dinfCount dist0 * maxJ ≤ dist0.length * maxJ := by
    intro p d hp
    obtain ⟨_, hd0⟩ := hvalD p d hp
    rw [hd0]
    simpa using Nat.mul_le_mul_right maxJ (dinfCount_le_length dist0)
  have hN1 : ∀ q pn, alookup parents0 q = some (some pn) →
      ∃ path, IsPath g path g.start q :=
    fun q pn hq => (hvalP q pn hq).elim
  have hN2 : ∀ p d, alookup dist0 p = some (some d) →
      ∃ path, IsPath g path g.start p := by
    intro p d hp
    obtain ⟨hq, _⟩ := hvalD p d hp
    rw [hq, hrootpos]
    exact ⟨[g.start], start_self_path hwf⟩
  obtain ⟨r, hloop⟩ := dijkstraLoop_term hwf hmj (dist0.length * maxJ)
    (2 * dpot (dist0.length * maxJ) dist0 + pq0.length + 1) dist0 parents0
    pq0 hcovD hdb0 hpqA (by omega)
  obtain ⟨res, parents'⟩ := r
  obtain ⟨hn1, hn3, hgoalar⟩ := dijkstraLoop_npinv hwf
    (2 * dpot (dist0.length * maxJ) dist0 + pq0.length + 1) dist0 parents0
    pq0 res parents' hN1 hN2 hcovP hpqA hloop
  obtain ⟨l1, l2, l3⟩ := dijkstraLoop_opt hwf
    (2 * dpot (dist0.length * maxJ) dist0 + pq0.length + 1) dist0 parents0
    pq0 res parents' hcovD' hs0 hK0 hB0 hP0 hF0 hsp0 hpqA hloop
  cases res with
  | none => exact absurd hge0 (l1 rfl)
  | some gn =>
    obtain ⟨hgnpos, dist2, hPL2, hF2, hs2, hcov2, hbound⟩ := l3 gn rfl
    obtain ⟨hgpos2, hgar⟩ := hgoalar gn rfl
    obtain ⟨P, hP⟩ := hre
    have hcs := hP.2.2.2.2
    rw [Option.isSome_iff_exists] at hcs
    obtain ⟨c, hc⟩ := hcs
    obtain ⟨dg, hdg, hdgc⟩ := hbound P c (by rw [hgnpos]; exact hP) hc
    have hwpn : ∃ pn, alookup parents' gn.pos = some (some pn) := by
      rcases hF2 gn.pos dg hdg with hstart | hpn
      · exfalso
        apply hsg
        rw [← hstart, hgnpos]
      · exact hpn
    obtain ⟨pn, hwpn⟩ := hwpn
    have hcovPar : ∀ p, (alookup g.nodes p).isSome →
        (alookup parents' p).isSome :=
      fun p hp => hn3 p ((mem_akeys_iff_isSome g.nodes p).mpr hp)
    have hloopF : dijkstraLoop g
        (2 * dpot (dist0.length * maxJ) dist0 + pq0.length + 1 + (dg + 1))
        dist0 parents0 pq0 = some (some gn, parents') := by
      refine mono_le (fun n => dijkstraLoop g n dist0 parents0 pq0)
        (fun n r h => dijkstraLoop_mono g n dist0 parents0 pq0 r h)
        (Nat.le_add_right _ _) hloop
    obtain ⟨w, hw⟩ := pathWalk_term_dist hPL2 hcovPar
      (2 * dpot (dist0.length * maxJ) dist0 + pq0.length + 1 + (dg + 1))
      dg gn [] (by rw [hgar]; rfl) hdg (by omega)
    have hrun : dijkstra g
        (2 * dpot (dist0.length * maxJ) dist0 + pq0.length + 1 + (dg + 1))
        = some (some w) := by
      unfold dijkstra
      rw [hseed]
      simp only []
      rw [hloopF]
      show getPath parents' (some gn) _ = some (some w)
      simp only [getPath]
      rw [hwpn, hw]
      rfl
    have hvalid := dijkstra_valid hwf hrun
    obtain ⟨t, hd, hr, hchain, hhead, hnone⟩ := pathWalk_spec parents'
      (2 * dpot (dist0.length * maxJ) dist0 + pq0.length + 1 + (dg + 1))
      gn [] w hw
    have hwhead : w.head? = some hd := by
      rw [hr]
      exact hhead
    have hhdstart : hd.pos = g.start := by
      have hph := hvalid.2.1
      rw [show posList w = w.map (fun n => n.pos) from rfl, List.head?_map,
        hwhead] at hph
      simpa using hph
    have hwlast : w.getLast? = some gn := by
      rw [hr]
      simp
    have hwchain : pchain parents' w := by
      rw [hr]
      exact hchain
    obtain ⟨cc, hcc, hccle⟩ := pchain_cost_le hPL2 w hwchain hd gn 0 dg
      hwhead hwlast (by rw [hhdstart]; exact hs2) hdg
    refine ⟨w, cc, ⟨_, hrun⟩, hcc, ?_⟩
    intro P' cq hP' hcq
    obtain ⟨dg', hdg', hle'⟩ := hbound P' cq (by rw [hgnpos]; exact hP') hcq
    have hdgeq : dg = dg' := by
      rw [hdg] at hdg'
      exact Option.some.inj (Option.some.inj hdg')
    omega

end RookJump
